import Mathlib

/-!
# flatlsm: the persistent-memory write buffer

A shallow embedding of `util/nvm_arena.{h,cc}` (the durable arena) and of
`db/pmtable.{h,cc}` (the sorted table), followed by theorems about them.

Conventions of the embedding.

* A byte is a `Nat`; every store of a computed byte is reduced `% 256`, and the
  varint / fixed64 decoders reduce what they read `% 256` (the `uint8_t` casts).
* A `char*` into the persistent region is a `Nat` address.  A `const char*` that is
  only read from is a `CharPtr`: the byte found at each offset from the pointer.
* `size_t` byte counts and pointers are unbounded naturals; the 64-bit and 32-bit
  wrap-arounds are explicit where the source computes on values that are not byte
  counts (`(s << 8) | type`, the `uint32_t` argument of `EncodeVarint32`, the
  `uint64_t` argument of `VarintLength`, the `ptrdiff_t` to `size_t` conversion).
* `pmem_persist` is recorded: the region carries the list of the calls made on it.
* The `assert` of `Add` and of `AllocateAligned` is compiled out (release build) and
  the asserted condition is stated as a theorem.  The assertions on the reference
  count, in `Unref` and in the destructor, are part of the model: a failed one is
  the outcome `assertFailed`.
-/

namespace leveldb

/-! ## Constants of `util/nvm_module.h` -/

/-- The macros `PM_LOG_HEAD_SIZE`, `PM_LOG_SIZE`, `PERSIST_SIZE`, `PM_LOG_MAGIC` and
`INVALID` come from `util/nvm_module.h`, which is not among the sources: they are
parameters of every definition that uses them. -/
structure Config where
  PM_LOG_HEAD_SIZE : Nat
  PM_LOG_SIZE : Nat
  PERSIST_SIZE : Nat
  PM_LOG_MAGIC : Nat
  INVALID : Nat

/-! ## `util/coding.{h,cc}` -/

/-- Loop of `VarintLength`: `while (v >= 128) { v >>= 7; len++; }`, with fuel. -/
def VarintLengthLoop : Nat → Nat → Nat → Nat
  | 0, _, len => len
  | fuel + 1, v, len => if v ≥ 128 then VarintLengthLoop fuel (v >>> 7) (len + 1) else len

/-- Modelled from the spec: `VarintLength(uint64_t v)` of `util/coding.cc` (not among
the sources), the number of bytes of the variable-length encoding of `v`.  A 64-bit
value leaves the loop after at most nine shifts, so ten units of fuel never run out
(`VarintLength_fuel`). -/
def VarintLength (v : Nat) : Nat := VarintLengthLoop 10 (v % 2 ^ 64) 1

/-- Modelled from the spec: `EncodeVarint32(char* dst, uint32_t v)` of `util/coding.cc`
(not among the sources): the bytes it stores at `dst`; the returned pointer is `dst`
plus their number. -/
def EncodeVarint32 (v0 : Nat) : List Nat :=
  let v := v0 % 2 ^ 32
  let B := 128
  if v < 1 <<< 7 then [v % 256]
  else if v < 1 <<< 14 then [(v ||| B) % 256, (v >>> 7) % 256]
  else if v < 1 <<< 21 then [(v ||| B) % 256, ((v >>> 7) ||| B) % 256, (v >>> 14) % 256]
  else if v < 1 <<< 28 then
    [(v ||| B) % 256, ((v >>> 7) ||| B) % 256, ((v >>> 14) ||| B) % 256, (v >>> 21) % 256]
  else
    [(v ||| B) % 256, ((v >>> 7) ||| B) % 256, ((v >>> 14) ||| B) % 256,
      ((v >>> 21) ||| B) % 256, (v >>> 28) % 256]

/-- Modelled from the spec: `EncodeFixed64(char* dst, uint64_t value)` of `util/coding.h`
(not among the sources): the eight bytes stored, least significant first. -/
def EncodeFixed64 (value0 : Nat) : List Nat :=
  let value := value0 % 2 ^ 64
  [value % 256, (value >>> 8) % 256, (value >>> 16) % 256, (value >>> 24) % 256,
    (value >>> 32) % 256, (value >>> 40) % 256, (value >>> 48) % 256, (value >>> 56) % 256]

/-- A pointer that is only read from: the byte at each offset. -/
abbrev CharPtr := Nat → Nat

/-- The pointer `p + n`. -/
def CharPtr.plus (p : CharPtr) (n : Nat) : CharPtr := fun i => p (n + i)

/-- The pointer to the first byte of a byte string held outside the region. -/
def CharPtr.ofBytes (bs : List Nat) : CharPtr := fun i => bs.getD i 0

/-- The pointer to address `a` of a memory. -/
def CharPtr.at (mem : Nat → Nat) (a : Nat) : CharPtr := fun i => mem (a + i)

/-- Modelled from the spec: `DecodeFixed64(const char* ptr)` of `util/coding.h` (not
among the sources). -/
def DecodeFixed64 (p : CharPtr) : Nat :=
  (p 0 % 256) ||| ((p 1 % 256) <<< 8) ||| ((p 2 % 256) <<< 16) ||| ((p 3 % 256) <<< 24) |||
    ((p 4 % 256) <<< 32) ||| ((p 5 % 256) <<< 40) ||| ((p 6 % 256) <<< 48) |||
    ((p 7 % 256) <<< 56)

/-- Loop of `GetVarint32PtrFallback`:
`for (shift = 0; shift <= 28 && p < limit; shift += 7)`; `off` is `p` as an offset
from the start, `limit` likewise.  The loop runs at most five times. -/
def GetVarint32PtrFallbackLoop (p : CharPtr) (limit : Nat) :
    Nat → Nat → Nat → Nat → Option (Nat × Nat)
  | 0, _, _, _ => none
  | fuel + 1, shift, off, result =>
    if shift ≤ 28 ∧ off < limit then
      let byte := p off % 256
      if byte &&& 128 ≠ 0 then
        GetVarint32PtrFallbackLoop p limit fuel (shift + 7) (off + 1)
          (result ||| (((byte &&& 127) <<< shift) % 2 ^ 32))
      else
        some (off + 1, result ||| ((byte <<< shift) % 2 ^ 32))
    else none

/-- Modelled from the spec: `GetVarint32PtrFallback` of `util/coding.cc` (not among the
sources); `none` is the null pointer. -/
def GetVarint32PtrFallback (p : CharPtr) (limit : Nat) : Option (Nat × Nat) :=
  GetVarint32PtrFallbackLoop p limit 5 0 0 0

/-- Modelled from the spec: `GetVarint32Ptr(p, limit, &value)` of `util/coding.h` (not
among the sources).  The result is the offset of the returned pointer from `p`,
and the value; `none` is the null pointer. -/
def GetVarint32Ptr (p : CharPtr) (limit : Nat) : Option (Nat × Nat) :=
  if 0 < limit ∧ (p 0 % 256) &&& 128 = 0 then some (1, p 0 % 256)
  else GetVarint32PtrFallback p limit

/-- The bytes of `Slice(p, n)`. -/
def CharPtr.slice (p : CharPtr) (n : Nat) : List Nat := (List.range n).map p

/-- The function `GetLengthPrefixedSlice` of `db/pmtable.cc`.  The source does not test
for the null pointer ("we assume p is not corrupted"); the model gives the empty
slice there. -/
def GetLengthPrefixedSlice (data : CharPtr) : List Nat :=
  match GetVarint32Ptr data 5 with
  | some (off, len) => (data.plus off).slice len
  | none => []

/-! ## `db/dbformat.h` and the comparators -/

/-- Modelled from the spec: `enum ValueType { kTypeDeletion = 0x0, kTypeValue = 0x1 }`
of `db/dbformat.h` (not among the sources). -/
inductive ValueType where
  | kTypeDeletion
  | kTypeValue
  deriving DecidableEq, Repr

/-- The integer value of a `ValueType`. -/
def ValueType.toNat : ValueType → Nat
  | .kTypeDeletion => 0
  | .kTypeValue => 1

/-- Modelled from the spec: `kValueTypeForSeek = kTypeValue` of `db/dbformat.h`. -/
def kValueTypeForSeek : ValueType := .kTypeValue

/-- The tag `(s << 8) | type`, computed in 64 bits. -/
def PackSequenceAndType (s : Nat) (type : ValueType) : Nat :=
  (((s % 2 ^ 64) <<< 8) % 2 ^ 64) ||| type.toNat

/-- Modelled from the spec: `Slice::compare` of `include/leveldb/slice.h` (not among the
sources), the bytewise three-way comparison used by the default user comparator. -/
def Slice.compare : List Nat → List Nat → Int
  | [], [] => 0
  | [], _ :: _ => -1
  | _ :: _, [] => 1
  | a :: as, b :: bs => if a < b then -1 else if b < a then 1 else Slice.compare as bs

/-- Modelled from the spec: `ExtractUserKey` of `db/dbformat.h`: all but the last eight
bytes of an internal key. -/
def ExtractUserKey (internal_key : List Nat) : List Nat :=
  internal_key.take (internal_key.length - 8)

/-- Modelled from the spec: `InternalKeyComparator::Compare` of `db/dbformat.cc` (not
among the sources): increasing user key, then decreasing tag. -/
def InternalKeyComparator.Compare (ucmp : List Nat → List Nat → Int)
    (akey bkey : List Nat) : Int :=
  let r := ucmp (ExtractUserKey akey) (ExtractUserKey bkey)
  if r = 0 then
    let anum := DecodeFixed64 (CharPtr.ofBytes (akey.drop (akey.length - 8)))
    let bnum := DecodeFixed64 (CharPtr.ofBytes (bkey.drop (bkey.length - 8)))
    if anum > bnum then -1 else if anum < bnum then 1 else r
  else r

/-- The function `PmTable::KeyComparator::operator()` of `db/pmtable.cc`. -/
def KeyComparator (ucmp : List Nat → List Nat → Int) (aptr bptr : CharPtr) : Int :=
  InternalKeyComparator.Compare ucmp (GetLengthPrefixedSlice aptr)
    (GetLengthPrefixedSlice bptr)

/-- Modelled from the spec: `LookupKey` of `db/dbformat.h` (not among the sources), the
target `(user_key, sequence)` pair of a lookup. -/
structure LookupKey where
  user_key : List Nat
  sequence : Nat

/-- Modelled from the spec: `LookupKey::memtable_key()`, the bytes laid out by the
`LookupKey` constructor of `db/dbformat.cc`. -/
def LookupKey.memtable_key (k : LookupKey) : List Nat :=
  EncodeVarint32 (k.user_key.length + 8) ++ k.user_key ++
    EncodeFixed64 (PackSequenceAndType k.sequence kValueTypeForSeek)

/-- Modelled from the spec: `Status` of `include/leveldb/status.h`, as far as
`PmTable::Get` uses it. -/
inductive Status where
  | OK
  | NotFound
  deriving DecidableEq, Repr

/-! ## `db/skiplist.h` -/

/-- Modelled from the spec: `SkipList::FindGreaterOrEqual` of `db/skiplist.h` (not among
the sources).  The ordered index is the list of its keys in index order (the
level-0 chain of the skip list); `cmp x` is `compare_(x, key)`.  The result is the
position of the first node that is not before `key`, the length of the list when
there is none. -/
def SkipList.FindGreaterOrEqual (cmp : Nat → Int) : List Nat → Nat
  | [] => 0
  | x :: xs => if cmp x < 0 then SkipList.FindGreaterOrEqual cmp xs + 1 else 0

/-- Modelled from the spec: `SkipList::Insert` of `db/skiplist.h` (not among the
sources): the new key is linked in front of the node found by
`FindGreaterOrEqual`; `cmp x` is `compare_(x, key)`. -/
def SkipList.Insert (cmp : Nat → Int) (key : Nat) : List Nat → List Nat
  | [] => [key]
  | x :: xs => if cmp x < 0 then x :: SkipList.Insert cmp key xs else key :: x :: xs

/-! ## `util/nvm_arena.{h,cc}` -/

/-- Modelled from the spec: the region header `PmLogHead` of `util/nvm_module.h` (not
among the sources), `{ magic: u64, used_size: u64, file_size: u64 }`. -/
structure PmLogHead where
  magic_number : Nat
  used_size : Nat
  file_size : Nat
  deriving DecidableEq, Repr

/-- The four places of the sources that call `pmem_persist`: the `PmTable`
constructor, `NvmArena::PersistKV` (the data barrier), `NvmArena::PersistHead`
(the barrier over `used_size`) and the `PmTable` destructor. -/
inductive BarrierSite where
  | ctor
  | kv
  | head
  | dtor
  deriving DecidableEq, Repr

/-- One recorded call `pmem_persist(addr, len)`, with the place that made it. -/
structure Barrier where
  site : BarrierSite
  addr : Nat
  len : Nat
  deriving DecidableEq, Repr

/-- One persistent region: its header, its bytes by address, and the `pmem_persist`
calls made so far, oldest first. -/
structure Pmem where
  head : PmLogHead
  bytes : Nat → Nat
  persisted : List Barrier

/-- The durability barrier `pmem_persist(addr, len)` of libpmem, recorded. -/
def pmem_persist (pm : Pmem) (site : BarrierSite) (addr len : Nat) : Pmem :=
  { pm with persisted := pm.persisted ++ [⟨site, addr, len⟩] }

/-- The data members of `NvmArena`. -/
structure NvmArena where
  pm_log_start_ : Nat
  force_ : Bool
  memory_usage_ : Nat
  kv_start_ : Nat
  kv_alloc_ptr_ : Nat
  last_persist_point_ : Nat
  deriving DecidableEq, Repr

/-- The constructor `NvmArena::NvmArena(pm_log_start, force)`. -/
def NvmArena.ctor (cfg : Config) (pm_log_start : Nat) (force : Bool) : NvmArena :=
  { pm_log_start_ := pm_log_start
    force_ := force
    memory_usage_ := cfg.PM_LOG_HEAD_SIZE
    kv_start_ := pm_log_start + cfg.PM_LOG_HEAD_SIZE
    kv_alloc_ptr_ := pm_log_start + cfg.PM_LOG_HEAD_SIZE
    last_persist_point_ := pm_log_start + cfg.PM_LOG_HEAD_SIZE }

/-- The method `NvmArena::MemoryUsage`. -/
def NvmArena.MemoryUsage (a : NvmArena) : Nat := a.memory_usage_

/-- The difference `kv_alloc_ptr_ - last_persist_point_`, a signed `ptrdiff_t`. -/
def NvmArena.unflushed (a : NvmArena) : Int :=
  (a.kv_alloc_ptr_ : Int) - (a.last_persist_point_ : Int)

/-- The conversion of a `ptrdiff_t` to the `size_t` argument of `pmem_persist`: a
negative difference wraps. -/
def ptrdiffToSize (d : Int) : Nat := if d < 0 then (d + 2 ^ 64).toNat else d.toNat

/-- The method `NvmArena::PersistKV`. -/
def NvmArena.PersistKV (a : NvmArena) (pm : Pmem) : Pmem :=
  pmem_persist pm .kv a.last_persist_point_ (ptrdiffToSize a.unflushed)

/-- The offset of the field `used_size` in `PmLogHead`, after the 8-byte `magic`. -/
def usedSizeOffset : Nat := 8

/-- The method `NvmArena::PersistHead`. -/
def NvmArena.PersistHead (a : NvmArena) (pm : Pmem) : Pmem :=
  pmem_persist { pm with head := { pm.head with used_size := a.memory_usage_ } }
    .head (a.pm_log_start_ + usedSizeOffset) 8

/-- The method `NvmArena::Persist`. -/
def NvmArena.Persist (cfg : Config) (a : NvmArena) (pm : Pmem) : NvmArena × Pmem :=
  if a.force_ = true ∨ a.unflushed > (cfg.PERSIST_SIZE : Int) then
    ({ a with last_persist_point_ := a.kv_alloc_ptr_ }, a.PersistHead (a.PersistKV pm))
  else (a, pm)

/-- The method `NvmArena::Allocate`: the returned pointer, the arena and the region
afterwards. -/
def NvmArena.Allocate (cfg : Config) (a : NvmArena) (pm : Pmem) (bytes : Nat) :
    Nat × NvmArena × Pmem :=
  let s := if a.unflushed > (cfg.PERSIST_SIZE : Int) then a.Persist cfg pm else (a, pm)
  (s.1.kv_alloc_ptr_,
    { s.1 with kv_alloc_ptr_ := s.1.kv_alloc_ptr_ + bytes
               memory_usage_ := s.1.memory_usage_ + bytes },
    s.2)

/-- The method `NvmArena::AllocateAligned`, with `align = 8` (`sizeof(void*)` is 8). -/
def NvmArena.AllocateAligned (cfg : Config) (a : NvmArena) (pm : Pmem) (bytes : Nat) :
    Nat × NvmArena × Pmem :=
  let s := if a.unflushed > (cfg.PERSIST_SIZE : Int) then a.Persist cfg pm else (a, pm)
  let align := 8
  let current_mod := s.1.kv_alloc_ptr_ &&& (align - 1)
  let slop := if current_mod = 0 then 0 else align - current_mod
  let needed := bytes + slop
  (s.1.kv_alloc_ptr_ + slop,
    { s.1 with kv_alloc_ptr_ := s.1.kv_alloc_ptr_ + needed
               memory_usage_ := s.1.memory_usage_ + needed },
    s.2)

/-! ## `db/pmtable.{h,cc}` -/

/-- The data members of `PmTable`.  `table_` is the ordered index: the addresses of the
indexed records, in index order.  `pm` is the region `pmLogHead_` points to.  The
volatile `arena_` of the skip-list nodes has no content of its own. -/
structure PmTable where
  refs_ : Int
  table_ : List Nat
  pmLogHead_ : Nat
  nvmArena_ : NvmArena
  min_key_ : List Nat
  max_key_ : List Nat
  count_ : Nat
  pm : Pmem

/-- The constructor `PmTable::PmTable(comparator, pmLogHead)` on the region `region`.
The source passes `&pmLogHead_`, the address of the pointer member, to
`pmem_persist`; `member_addr` is that address. -/
def PmTable.ctor (cfg : Config) (pmLogHead member_addr : Nat) (region : Pmem) : PmTable :=
  { refs_ := 0
    table_ := []
    pmLogHead_ := pmLogHead
    nvmArena_ := NvmArena.ctor cfg pmLogHead false
    min_key_ := []
    max_key_ := []
    count_ := 0
    pm := pmem_persist
      { region with head := { magic_number := cfg.PM_LOG_MAGIC
                              used_size := cfg.PM_LOG_HEAD_SIZE
                              file_size := cfg.PM_LOG_SIZE } }
      .ctor member_addr cfg.PM_LOG_HEAD_SIZE }

/-- The method `PmTable::ApproximateMemoryUsage`. -/
def PmTable.ApproximateMemoryUsage (t : PmTable) : Nat := t.nvmArena_.MemoryUsage

/-- The methods `PmTable::GetMinKey` and `PmTable::GetMaxKey`. -/
def PmTable.GetMinKey (t : PmTable) : List Nat := t.min_key_

/-- The method `PmTable::GetMaxKey`. -/
def PmTable.GetMaxKey (t : PmTable) : List Nat := t.max_key_

/-- A store of the bytes `bs` at address `addr` (`memcpy`, or the stores of an
encoder). -/
def storeBytes (mem : Nat → Nat) (addr : Nat) (bs : List Nat) : Nat → Nat :=
  fun a => if addr ≤ a ∧ a < addr + bs.length then bs.getD (a - addr) 0 else mem a

/-- The value `encoded_len` computed at the head of `PmTable::Add`. -/
def encodedLen (key value : List Nat) : Nat :=
  VarintLength (key.length + 8) + (key.length + 8) + VarintLength value.length + value.length

/-- The five stores of `PmTable::Add` (pmtable.cc lines 122 to 128) into `buf`: the
memory afterwards, and the pointer `p` after the varint of the value size, the
one the assertion `p + val_size == buf + encoded_len` reads. -/
def PmTable.AddStores (mem : Nat → Nat) (buf s : Nat) (type : ValueType)
    (key value : List Nat) : (Nat → Nat) × Nat :=
  let key_size := key.length
  let val_size := value.length
  let internal_key_size := key_size + 8
  let m1 := storeBytes mem buf (EncodeVarint32 internal_key_size)
  let p1 := buf + (EncodeVarint32 internal_key_size).length
  let m2 := storeBytes m1 p1 key
  let p2 := p1 + key_size
  let m3 := storeBytes m2 p2 (EncodeFixed64 (PackSequenceAndType s type))
  let p3 := p2 + 8
  let m4 := storeBytes m3 p3 (EncodeVarint32 val_size)
  let p4 := p3 + (EncodeVarint32 val_size).length
  let m5 := storeBytes m4 p4 value
  (m5, p4)

/-- The method `PmTable::Add`: the returned flag and the table afterwards. -/
def PmTable.Add (cfg : Config) (ucmp : List Nat → List Nat → Int) (t : PmTable)
    (s : Nat) (type : ValueType) (key value : List Nat) : Bool × PmTable :=
  let encoded_len := encodedLen key value
  if encoded_len + t.nvmArena_.MemoryUsage < cfg.PM_LOG_SIZE then
    let al := t.nvmArena_.Allocate cfg t.pm encoded_len
    let buf := al.1
    let mem := (PmTable.AddStores al.2.2.bytes buf s type key value).1
    let min_key := if t.min_key_.isEmpty ∨ ucmp t.min_key_ key > 0 then key else t.min_key_
    let max_key := if t.max_key_.isEmpty ∨ ucmp t.max_key_ key < 0 then key else t.max_key_
    (true,
      { t with
        nvmArena_ := al.2.1
        pm := { al.2.2 with bytes := mem }
        min_key_ := min_key
        max_key_ := max_key
        table_ := SkipList.Insert
          (fun x => KeyComparator ucmp (CharPtr.at mem x) (CharPtr.at mem buf)) buf t.table_
        count_ := t.count_ + 1 })
  else (false, t)

/-- What a call of `PmTable::Get` leaves behind: the returned flag, the string written
to `*value` and the status written to `*s` (`none` when not written). -/
structure GetResult where
  ret : Bool
  value : Option (List Nat)
  s : Option Status
  deriving DecidableEq, Repr

/-- The method `PmTable::Get`.  Where `GetVarint32Ptr` gives the null pointer the source
reads through it; the model returns `false` there. -/
def PmTable.Get (ucmp : List Nat → List Nat → Int) (t : PmTable) (key : LookupKey) :
    GetResult :=
  let memkey := key.memtable_key
  let pos := SkipList.FindGreaterOrEqual
    (fun x => KeyComparator ucmp (CharPtr.at t.pm.bytes x) (CharPtr.ofBytes memkey)) t.table_
  match t.table_.get? pos with
  | some entry =>
    match GetVarint32Ptr (CharPtr.at t.pm.bytes entry) 5 with
    | some (off, key_length) =>
      let key_ptr := entry + off
      if ucmp ((CharPtr.at t.pm.bytes key_ptr).slice ((key_length + 2 ^ 32 - 8) % 2 ^ 32))
          key.user_key = 0 then
        let tag := DecodeFixed64 (CharPtr.at t.pm.bytes (key_ptr + key_length - 8))
        match tag &&& 0xff with
        | 1 =>
          ⟨true, some (GetLengthPrefixedSlice (CharPtr.at t.pm.bytes (key_ptr + key_length))),
            none⟩
        | 0 => ⟨true, none, some Status.NotFound⟩
        | _ => ⟨false, none, none⟩
      else ⟨false, none, none⟩
    | none => ⟨false, none, none⟩
  | none => ⟨false, none, none⟩

/-! ## Added records and bulk insertion -/

/-- The arguments of one `Add` call. -/
structure Rec where
  seq : Nat
  type : ValueType
  key : List Nat
  value : List Nat
  deriving DecidableEq, Repr

/-- A sequence of `Add` calls: the conjunction of the returned flags and the table
after the last call. -/
def PmTable.AddAll (cfg : Config) (ucmp : List Nat → List Nat → Int) :
    PmTable → List Rec → Bool × PmTable
  | t, [] => (true, t)
  | t, r :: rs =>
    let a := PmTable.Add cfg ucmp t r.seq r.type r.key r.value
    let b := PmTable.AddAll cfg ucmp a.2 rs
    (a.1 && b.1, b.2)


/-! ## Specification-side notions -/

/-- The record layout of the format comment of `PmTable::Add`, as one byte string:
varint32 of the internal key size, the key bytes, the 8-byte tag, varint32 of the
value size, the value bytes. -/
def entryBytes (s : Nat) (type : ValueType) (key value : List Nat) : List Nat :=
  EncodeVarint32 (key.length + 8) ++ key ++ EncodeFixed64 (PackSequenceAndType s type) ++
    EncodeVarint32 value.length ++ value

/-- The bytes `bs` are in memory at address `a`. -/
def BytesAt (mem : Nat → Nat) (a : Nat) (bs : List Nat) : Prop :=
  ∀ i, i < bs.length → mem (a + i) = bs.getD i 0

/-- A small configuration for the examples: a 24-byte header, a 1000-byte region and a
flush threshold of 64 bytes. -/
def exampleConfig : Config :=
  { PM_LOG_HEAD_SIZE := 24, PM_LOG_SIZE := 1000, PERSIST_SIZE := 64, PM_LOG_MAGIC := 7,
    INVALID := 0 }

/-- A zeroed region on which nothing has been flushed yet. -/
def exampleRegion : Pmem :=
  { head := { magic_number := 0, used_size := 0, file_size := 0 }
    bytes := fun _ => 0
    persisted := [] }

/-- A freshly constructed table on the example region, which starts at address 0; the
table object itself lives at address 5000. -/
def exampleTable : PmTable := PmTable.ctor exampleConfig 0 5000 exampleRegion

/-- An arena in force mode on the example region, after one allocation of 10 bytes: 10
bytes are allocated and not flushed. -/
def exampleForcedArena : NvmArena :=
  (NvmArena.Allocate exampleConfig (NvmArena.ctor exampleConfig 0 true) exampleRegion 10).2.1

/-- Some barrier of the list `persisted` covers the byte at address `x`. -/
def coveredBy (persisted : List Barrier) (x : Nat) : Bool :=
  persisted.any (fun e => decide (e.addr ≤ x ∧ x < e.addr + e.len))

/-- Some data barrier (one issued by `PersistKV`) of the list covers the byte at `x`. -/
def kvCoveredBy (persisted : List Barrier) (x : Nat) : Bool :=
  persisted.any (fun e => decide (e.site = BarrierSite.kv ∧ e.addr ≤ x ∧ x < e.addr + e.len))

/-- The number of allocated record bytes, those at the addresses from `kv_start_` up to
`kv_alloc_ptr_`, that a data barrier has covered. -/
def PmTable.flushedRecordBytes (t : PmTable) : Nat :=
  ((List.range (t.nvmArena_.kv_alloc_ptr_ - t.nvmArena_.kv_start_)).filter
    (fun i => kvCoveredBy t.pm.persisted (t.nvmArena_.kv_start_ + i))).length

/-- The states a table is in between two calls, from its construction on a region on
which no barrier has been recorded yet: through `Allocate`, `AllocateAligned` and
`Persist` on its arena, through `PersistKV` followed by `PersistHead`, and through
`Add`. -/
inductive Reach (cfg : Config) (ucmp : List Nat → List Nat → Int) : PmTable → Prop
  | ctor (pmLogHead member_addr : Nat) (region : Pmem) (h : region.persisted = []) :
      Reach cfg ucmp (PmTable.ctor cfg pmLogHead member_addr region)
  | allocate (t : PmTable) (n : Nat) : Reach cfg ucmp t →
      Reach cfg ucmp { t with nvmArena_ := (t.nvmArena_.Allocate cfg t.pm n).2.1
                              pm := (t.nvmArena_.Allocate cfg t.pm n).2.2 }
  | allocateAligned (t : PmTable) (n : Nat) : Reach cfg ucmp t →
      Reach cfg ucmp { t with nvmArena_ := (t.nvmArena_.AllocateAligned cfg t.pm n).2.1
                              pm := (t.nvmArena_.AllocateAligned cfg t.pm n).2.2 }
  | persist (t : PmTable) : Reach cfg ucmp t →
      Reach cfg ucmp { t with nvmArena_ := (t.nvmArena_.Persist cfg t.pm).1
                              pm := (t.nvmArena_.Persist cfg t.pm).2 }
  | persistKVHead (t : PmTable) : Reach cfg ucmp t →
      Reach cfg ucmp { t with pm := t.nvmArena_.PersistHead (t.nvmArena_.PersistKV t.pm) }
  | add (t : PmTable) (s : Nat) (type : ValueType) (key value : List Nat) :
      Reach cfg ucmp t → Reach cfg ucmp (PmTable.Add cfg ucmp t s type key value).2

/-- The states a crash can find: the states between two calls, and the state inside a
flush (of `Persist`, also when `Allocate`, `AllocateAligned` or `Add` run it, or of
the pair `PersistKV`, `PersistHead`) after the data barrier and before the header
update. -/
inductive CrashPoint (cfg : Config) (ucmp : List Nat → List Nat → Int) : PmTable → Prop
  | atRest (t : PmTable) : Reach cfg ucmp t → CrashPoint cfg ucmp t
  | afterPersistKV (t : PmTable) : Reach cfg ucmp t →
      CrashPoint cfg ucmp { t with pm := t.nvmArena_.PersistKV t.pm }

/-- The invariant behind the durability ordering: every record byte below `c` has been
covered by a data barrier, `c` lies between the last-flushed cursor and the
allocation cursor, `used_size` describes no byte at or above `c`, and the memory
usage is the header size plus the allocated bytes. -/
def FlushInv (cfg : Config) (a : NvmArena) (pm : Pmem) (c : Nat) : Prop :=
  a.kv_start_ ≤ a.last_persist_point_ ∧ a.last_persist_point_ ≤ c ∧ c ≤ a.kv_alloc_ptr_ ∧
  (∀ x, a.kv_start_ ≤ x → x < c → kvCoveredBy pm.persisted x = true) ∧
  pm.head.used_size ≤ cfg.PM_LOG_HEAD_SIZE + (c - a.kv_start_) ∧
  a.memory_usage_ = cfg.PM_LOG_HEAD_SIZE + (a.kv_alloc_ptr_ - a.kv_start_)

/-! ## The order of the index, on records -/

/-- The contract of a user comparator: a three-way comparison that is a total order on
byte strings. -/
structure TotalOrderCmp (ucmp : List Nat → List Nat → Int) : Prop where
  eq_zero : ∀ a b, ucmp a b = 0 ↔ a = b
  flip : ∀ a b, ucmp a b < 0 ↔ 0 < ucmp b a
  trans : ∀ a b c, ucmp a b < 0 → ucmp b c < 0 → ucmp a c < 0

/-- The 8-byte tag of a record. -/
def Rec.tag (r : Rec) : Nat := PackSequenceAndType r.seq r.type

/-- The bytes `Add` writes for a record. -/
def Rec.bytes (r : Rec) : List Nat := entryBytes r.seq r.type r.key r.value

/-- The domain of the record format: a sequence number of at most 56 bits
(`kMaxSequenceNumber`), and key and value sizes that fit the 32-bit varints. -/
def Rec.wellFormed (r : Rec) : Prop :=
  r.seq < 2 ^ 56 ∧ r.key.length + 8 < 2 ^ 32 ∧ r.value.length < 2 ^ 32

instance (r : Rec) : Decidable r.wellFormed :=
  inferInstanceAs (Decidable (r.seq < 2 ^ 56 ∧ r.key.length + 8 < 2 ^ 32 ∧
    r.value.length < 2 ^ 32))

/-- The internal-key order on user key and tag: what `InternalKeyComparator::Compare`
computes on the internal keys `a.key ++ fixed64 a.tag` and `b.key ++ fixed64 b.tag`. -/
def Rec.compare (ucmp : List Nat → List Nat → Int) (a b : Rec) : Int :=
  let r := ucmp a.key b.key
  if r = 0 then
    if a.tag > b.tag then -1 else if a.tag < b.tag then 1 else r
  else r

/-- Two added records do not share user key and sequence number. -/
def Rec.distinct (a b : Rec) : Prop := a.key = b.key → a.seq ≠ b.seq

instance (a b : Rec) : Decidable (Rec.distinct a b) :=
  inferInstanceAs (Decidable (a.key = b.key → a.seq ≠ b.seq))

/-- The record a lookup of `(user_key, sequence)` seeks: the tag carries
`kValueTypeForSeek`. -/
def LookupKey.target (k : LookupKey) : Rec :=
  { seq := k.sequence, type := kValueTypeForSeek, key := k.user_key, value := [] }

/-- The index with each address paired with the record written there: insertion of a
pair in front of the first pair that `f` does not put before the new record. -/
def insertIdx (f : Rec → Int) (e : Nat × Rec) : List (Nat × Rec) → List (Nat × Rec)
  | [] => [e]
  | x :: xs => if f x.2 < 0 then x :: insertIdx f e xs else e :: x :: xs

/-- What links a table to the records added to it: the index lists the addresses of
`idx` in order; each address holds the bytes of its record, below the allocation
cursor; the records are well formed and strictly increasing in the internal-key
order. -/
structure IndexInv (ucmp : List Nat → List Nat → Int) (t : PmTable)
    (idx : List (Nat × Rec)) : Prop where
  table : t.table_ = idx.map Prod.fst
  entries : ∀ e, e ∈ idx → BytesAt t.pm.bytes e.1 e.2.bytes ∧
    e.1 + e.2.bytes.length ≤ t.nvmArena_.kv_alloc_ptr_ ∧ e.2.wellFormed
  sorted : idx.Pairwise (fun x y => Rec.compare ucmp x.2 y.2 < 0)

/-- The three `Add` calls of the example of the specification:
`(1, VALUE, "a", "1")`, `(2, DELETION, "a", "")`, `(1, VALUE, "b", "2")`. -/
def exampleOps : List Rec :=
  [⟨1, ValueType.kTypeValue, [97], [49]⟩, ⟨2, ValueType.kTypeDeletion, [97], []⟩,
    ⟨1, ValueType.kTypeValue, [98], [50]⟩]

/-! ## Sequences of allocations -/

/-- One call on the arena: `Allocate(n)` or `AllocateAligned(n)`. -/
inductive ArenaOp where
  | allocate (n : Nat)
  | allocateAligned (n : Nat)
  deriving DecidableEq, Repr

/-- The size asked for by a call. -/
def ArenaOp.size : ArenaOp → Nat
  | .allocate n => n
  | .allocateAligned n => n

/-- One call on the arena: the returned pointer, the arena and the region afterwards. -/
def ArenaOp.run (cfg : Config) (a : NvmArena) (pm : Pmem) : ArenaOp → Nat × NvmArena × Pmem
  | .allocate n => a.Allocate cfg pm n
  | .allocateAligned n => a.AllocateAligned cfg pm n

/-- A sequence of calls on the arena: the returned ranges `(pointer, size)` in call
order, and the arena and the region after the last call. -/
def runArenaOps (cfg : Config) : NvmArena → Pmem → List ArenaOp → List (Nat × Nat) × NvmArena × Pmem
  | a, pm, [] => ([], a, pm)
  | a, pm, op :: ops =>
    let r := op.run cfg a pm
    let rest := runArenaOps cfg r.2.1 r.2.2 ops
    ((r.1, op.size) :: rest.1, rest.2)

/-! ## The table through `Add` and `Persist` only -/

/-- The states of a table that is written through `Add` only, from its construction on:
`Add` calls, accepted or rejected, and flushes of its arena by `Persist`. -/
inductive TableReach (cfg : Config) (ucmp : List Nat → List Nat → Int) : PmTable → Prop
  | ctor (pmLogHead member_addr : Nat) (region : Pmem) :
      TableReach cfg ucmp (PmTable.ctor cfg pmLogHead member_addr region)
  | add (t : PmTable) (s : Nat) (type : ValueType) (key value : List Nat) :
      TableReach cfg ucmp t → TableReach cfg ucmp (PmTable.Add cfg ucmp t s type key value).2
  | persist (t : PmTable) : TableReach cfg ucmp t →
      TableReach cfg ucmp { t with nvmArena_ := (t.nvmArena_.Persist cfg t.pm).1
                                   pm := (t.nvmArena_.Persist cfg t.pm).2 }

/-! ## Reference counting and the logical free -/

/-- The method `PmTable::FreePmtable`: the store `pmLogHead_->magic_number = INVALID`
(the flush after it is commented out in the source). -/
def PmTable.FreePmtable (cfg : Config) (t : PmTable) : PmTable :=
  { t with pm := { t.pm with head := { t.pm.head with magic_number := cfg.INVALID } } }

/-- The method `PmTable::Ref`. -/
def PmTable.Ref (t : PmTable) : PmTable := { t with refs_ := t.refs_ + 1 }

/-- The size `sizeof(PmLogHead)` of the three 64-bit fields of the header. -/
def sizeofPmLogHead : Nat := 24

/-- What the destructor leaves behind: the region, as it is when it is handed to
`nvmManager->free_pm_log`, and the pointer handed over. -/
structure Destroyed where
  region : Pmem
  freed : Nat

/-- The destructor `PmTable::~PmTable`: `assert(refs_ == 0)`, one barrier over the
header, and the call `nvmManager->free_pm_log(pmLogHead_)`; `none` is the failed
assertion.  The region manager is not among the sources: the call is recorded by
the pointer it receives. -/
def PmTable.dtor (t : PmTable) : Option Destroyed :=
  if t.refs_ = 0 then
    some { region := pmem_persist t.pm .dtor t.pmLogHead_ sizeofPmLogHead
           freed := t.pmLogHead_ }
  else none

/-- The three outcomes of `PmTable::Unref`: a failed assertion, the table alive with its
count dropped, the table destroyed. -/
inductive UnrefOutcome where
  | assertFailed
  | alive (t : PmTable)
  | destroyed (d : Destroyed)

/-- The method `PmTable::Unref`: `--refs_; assert(refs_ >= 0);
if (refs_ <= 0) delete this;`. -/
def PmTable.Unref (t : PmTable) : UnrefOutcome :=
  let t1 := { t with refs_ := t.refs_ - 1 }
  if t1.refs_ ≥ 0 then
    if t1.refs_ ≤ 0 then
      match t1.dtor with
      | some d => .destroyed d
      | none => .assertFailed
    else .alive t1
  else .assertFailed

/-! ## The table iterator -/

/-- The function `EncodeKey` of `db/pmtable.cc`: the target with its length in front. -/
def EncodeKey (target : List Nat) : List Nat := EncodeVarint32 target.length ++ target

/-- The class `PmTableIterator`, an iterator over the ordered index: `pos` is the place
of the current node in index order, the length of the index when the iterator is
not valid (`node_ == nullptr`).  The table is not written to while it is iterated
over. -/
structure PmTableIterator where
  pos : Nat
  deriving DecidableEq, Repr

/-- The method `PmTableIterator::Valid`. -/
def PmTableIterator.Valid (t : PmTable) (it : PmTableIterator) : Bool :=
  decide (it.pos < t.table_.length)

/-- The method `PmTableIterator::SeekToFirst`: the node after the head. -/
def PmTableIterator.SeekToFirst (_t : PmTable) : PmTableIterator := { pos := 0 }

/-- The method `PmTableIterator::SeekToLast`: the last node, none in an empty index. -/
def PmTableIterator.SeekToLast (t : PmTable) : PmTableIterator :=
  { pos := t.table_.length - 1 }

/-- The method `PmTableIterator::Next`. -/
def PmTableIterator.Next (_t : PmTable) (it : PmTableIterator) : PmTableIterator :=
  { pos := it.pos + 1 }

/-- The method `PmTableIterator::Seek(k)`: the first node that is not before the
length-prefixed target. -/
def PmTableIterator.Seek (ucmp : List Nat → List Nat → Int) (t : PmTable)
    (k : List Nat) : PmTableIterator :=
  { pos := SkipList.FindGreaterOrEqual
      (fun x => KeyComparator ucmp (CharPtr.at t.pm.bytes x) (CharPtr.ofBytes (EncodeKey k)))
      t.table_ }

/-- The method `PmTableIterator::Prev`: the last node before the current one
(`FindLessThan`), none when the current node is the first. -/
def PmTableIterator.Prev (ucmp : List Nat → List Nat → Int) (t : PmTable)
    (it : PmTableIterator) : PmTableIterator :=
  match t.table_.get? it.pos with
  | some cur =>
    let c := SkipList.FindGreaterOrEqual
      (fun x => KeyComparator ucmp (CharPtr.at t.pm.bytes x) (CharPtr.at t.pm.bytes cur))
      t.table_
    if c = 0 then { pos := t.table_.length } else { pos := c - 1 }
  | none => it

/-- The method `PmTableIterator::key`, `none` when the iterator is not valid. -/
def PmTableIterator.key (t : PmTable) (it : PmTableIterator) : Option (List Nat) :=
  (t.table_.get? it.pos).map (fun entry => GetLengthPrefixedSlice (CharPtr.at t.pm.bytes entry))

/-- The method `PmTableIterator::value`, `none` when the iterator is not valid: the
length-prefixed slice that starts where the key slice ends.  Where the key length
cannot be read the source goes through a null pointer; the model gives the empty
slice there. -/
def PmTableIterator.value (t : PmTable) (it : PmTableIterator) : Option (List Nat) :=
  (t.table_.get? it.pos).map (fun entry =>
    match GetVarint32Ptr (CharPtr.at t.pm.bytes entry) 5 with
    | some (off, len) => GetLengthPrefixedSlice (CharPtr.at t.pm.bytes (entry + off + len))
    | none => [])

/-- A forward iteration from the iterator `it`: the pairs `(key(), value())` met by
`Next` until the iterator is not valid, `none` when `fuel` steps do not reach the
end. -/
def PmTableIterator.scan (t : PmTable) :
    Nat → PmTableIterator → Option (List (List Nat × List Nat))
  | 0, _ => none
  | fuel + 1, it =>
    if it.Valid t = true then
      match it.key t, it.value t, PmTableIterator.scan t fuel (it.Next t) with
      | some k, some v, some rest => some ((k, v) :: rest)
      | _, _, _ => none
    else some []

/-- The ranges `(pointer, size)` that start at `c` and follow one another without a
gap, for the sizes given. -/
def adjacentRanges : Nat → List Nat → List (Nat × Nat)
  | _, [] => []
  | c, n :: ns => (c, n) :: adjacentRanges (c + n) ns

/-! ## The index and the added records, without an order -/

/-- The key and value sizes of a record fit the 32-bit varints of the record format. -/
def Rec.sizesFit (r : Rec) : Prop := r.key.length + 8 < 2 ^ 32 ∧ r.value.length < 2 ^ 32

instance (r : Rec) : Decidable r.sizesFit :=
  inferInstanceAs (Decidable (r.key.length + 8 < 2 ^ 32 ∧ r.value.length < 2 ^ 32))

/-- The index lists the addresses of `idx` in order, and each address holds the bytes
of its record, below the allocation cursor. -/
structure EntriesInv (t : PmTable) (idx : List (Nat × Rec)) : Prop where
  table : t.table_ = idx.map Prod.fst
  entries : ∀ e, e ∈ idx → BytesAt t.pm.bytes e.1 e.2.bytes ∧
    e.1 + e.2.bytes.length ≤ t.nvmArena_.kv_alloc_ptr_ ∧ e.2.sizesFit

/-- As `IndexInv`, with the records in non-decreasing internal-key order: what holds
when two added records may share user key and sequence number. -/
structure IndexLe (ucmp : List Nat → List Nat → Int) (t : PmTable)
    (idx : List (Nat × Rec)) : Prop where
  table : t.table_ = idx.map Prod.fst
  entries : ∀ e, e ∈ idx → BytesAt t.pm.bytes e.1 e.2.bytes ∧
    e.1 + e.2.bytes.length ≤ t.nvmArena_.kv_alloc_ptr_ ∧ e.2.wellFormed
  sorted : idx.Pairwise (fun x y => Rec.compare ucmp x.2 y.2 ≤ 0)

/-- The internal key of a user key and a sequence number, as a seek target: the user
key followed by the tag with `kValueTypeForSeek`. -/
def seekTarget (user_key : List Nat) (s : Nat) : List Nat :=
  user_key ++ EncodeFixed64 (PackSequenceAndType s kValueTypeForSeek)

/-! ## `PmtableQueue` -/

/-- The class `PmtableQueue::ListNode`: the table pointer and the two links.  A pointer
is an address, `0` the null pointer. -/
structure ListNode where
  pmTable_ : Nat
  pre : Nat
  next : Nat
  deriving DecidableEq, Repr

/-- The data members of `PmtableQueue`, with the memory its nodes live in: `heap` is
the node found at each address, `allocated` the addresses obtained from `new` and
not yet given to `delete`; `mp_`, the `unordered_map` from table to node, is a list
of pairs with distinct keys. -/
structure PmtableQueue where
  heap : Nat → ListNode
  allocated : List Nat
  mp_ : List (Nat × Nat)
  head_ : Nat

/-- The store `p->next = v`. -/
def setNext (heap : Nat → ListNode) (p v : Nat) : Nat → ListNode :=
  Function.update heap p { heap p with next := v }

/-- The store `p->pre = v`. -/
def setPre (heap : Nat → ListNode) (p v : Nat) : Nat → ListNode :=
  Function.update heap p { heap p with pre := v }

/-- The constructor `ListNode::ListNode(pmTable)` run at the address `p` that `new`
returned. -/
def newListNode (heap : Nat → ListNode) (p pmTable : Nat) : Nat → ListNode :=
  Function.update heap p { pmTable_ := pmTable, pre := 0, next := 0 }

/-- The call `mp_.count(k)`. -/
def mapCount (mp : List (Nat × Nat)) (k : Nat) : Nat :=
  if (mp.lookup k).isSome then 1 else 0

/-- The read `mp_[k]` of a key that is present. -/
def mapGet (mp : List (Nat × Nat)) (k : Nat) : Nat := (mp.lookup k).getD 0

/-- The call `mp_.erase(k)`. -/
def mapErase (mp : List (Nat × Nat)) (k : Nat) : List (Nat × Nat) :=
  mp.filter (fun e => decide (e.1 ≠ k))

/-- The store `mp_[k] = v`. -/
def mapSet (mp : List (Nat × Nat)) (k v : Nat) : List (Nat × Nat) :=
  (k, v) :: mapErase mp k

/-- The constructor `PmtableQueue::PmtableQueue`, `new` returning the address `p` for
the sentinel. -/
def PmtableQueue.ctor (heap : Nat → ListNode) (p : Nat) : PmtableQueue :=
  { heap := setPre (setNext (newListNode heap p 0) p p) p p
    allocated := [p]
    mp_ := []
    head_ := p }

/-- The method `PmtableQueue::GetHead`. -/
def PmtableQueue.GetHead (q : PmtableQueue) : Nat := q.head_

/-- The method `PmtableQueue::InsertPmtable`, `new` returning the address `node`. -/
def PmtableQueue.InsertPmtable (q : PmtableQueue) (node pmtable : Nat) : PmtableQueue :=
  if mapCount q.mp_ pmtable = 0 then
    let h0 := newListNode q.heap node pmtable
    let pre := (h0 q.head_).pre
    let h1 := setNext h0 pre node
    let h2 := setPre h1 node pre
    let h3 := setNext h2 node q.head_
    let h4 := setPre h3 q.head_ node
    { heap := h4
      allocated := node :: q.allocated
      mp_ := mapSet q.mp_ pmtable node
      head_ := q.head_ }
  else q

/-- The method `PmtableQueue::RemovePmtable`. -/
def PmtableQueue.RemovePmtable (q : PmtableQueue) (pmTable : Nat) : PmtableQueue :=
  if mapCount q.mp_ pmTable ≠ 0 then
    let node := mapGet q.mp_ pmTable
    let pre := (q.heap node).pre
    let next := (q.heap node).next
    let h1 := setNext q.heap pre next
    let h2 := setPre h1 next pre
    { heap := h2
      allocated := q.allocated.erase node
      mp_ := mapErase q.mp_ pmTable
      head_ := q.head_ }
  else q

/-- The method `PmtableQueue::capacity`. -/
def PmtableQueue.capacity (q : PmtableQueue) : Nat := q.mp_.length

/-- Modelled from the spec: the traversal of the registry, which its callers run and
which is not among the sources: from the node `cur` along the `next` links until
the sentinel comes back, collecting the tables; `none` when `fuel` steps do not
reach the sentinel. -/
def traverseFrom (heap : Nat → ListNode) (head : Nat) : Nat → Nat → Option (List Nat)
  | 0, _ => none
  | fuel + 1, cur =>
    if cur = head then some []
    else (traverseFrom heap head fuel (heap cur).next).map (fun l => (heap cur).pmTable_ :: l)

/-- Modelled from the spec: the traversal of the registry, from the successor of the
sentinel head. -/
def PmtableQueue.traverse (q : PmtableQueue) (fuel : Nat) : Option (List Nat) :=
  traverseFrom q.heap q.head_ fuel (q.heap q.head_).next

/-- The nodes `ns`, in this order, are linked both ways between the node `a` in front
of them and the node `b` behind them. -/
def Linked (heap : Nat → ListNode) : Nat → List Nat → Nat → Prop
  | a, [], b => (heap a).next = b ∧ (heap b).pre = a
  | a, x :: xs, b => ((heap a).next = x ∧ (heap x).pre = a) ∧ Linked heap x xs b

/-- The registry holds the pairs `(node, table)` of `l`, in traversal order: the nodes
form a circular doubly linked list through the sentinel, nodes and tables are
distinct, each node carries its table, the map sends each table to its node and
has no other key, and the live addresses are the sentinel and the nodes. -/
structure QueueInv (q : PmtableQueue) (l : List (Nat × Nat)) : Prop where
  linked : Linked q.heap q.head_ (l.map Prod.fst) q.head_
  nodup : (q.head_ :: l.map Prod.fst).Nodup
  tables : ∀ e, e ∈ l → (q.heap e.1).pmTable_ = e.2
  tnodup : (l.map Prod.snd).Nodup
  keys : (q.mp_.map Prod.fst).Nodup
  map : ∀ k n, (k, n) ∈ q.mp_ ↔ (n, k) ∈ l
  anodup : q.allocated.Nodup
  alloc : ∀ p, p ∈ q.allocated ↔ (p = q.head_ ∨ p ∈ l.map Prod.fst)

/-- The states of a registry: from the empty registry through `InsertPmtable`, where
`new` returns an address that is not live, and `RemovePmtable`. -/
inductive QReach : PmtableQueue → Prop
  | ctor (heap : Nat → ListNode) (p : Nat) : QReach (PmtableQueue.ctor heap p)
  | insert (q : PmtableQueue) (node pmtable : Nat) : QReach q → node ∉ q.allocated →
      QReach (q.InsertPmtable node pmtable)
  | remove (q : PmtableQueue) (pmTable : Nat) : QReach q → QReach (q.RemovePmtable pmTable)

/-- A run of `InsertPmtable` calls, `new` returning the first component of each pair for
the table in the second. -/
def PmtableQueue.insertAll : PmtableQueue → List (Nat × Nat) → PmtableQueue
  | q, [] => q
  | q, e :: es => PmtableQueue.insertAll (q.InsertPmtable e.1 e.2) es

/-- An empty heap, every node zeroed, for the examples. -/
def exampleHeap : Nat → ListNode := fun _ => { pmTable_ := 0, pre := 0, next := 0 }

/-- The registry with the sentinel at address 100 and the tables 7 and 9, inserted in
this order at the addresses 200 and 300. -/
def exampleQueue : PmtableQueue :=
  ((PmtableQueue.ctor exampleHeap 100).InsertPmtable 200 7).InsertPmtable 300 9
/-! # Theorems -/

/-! ## Bytes, varints and fixed-width integers -/

set_option maxRecDepth 100000 in
theorem byte_or_128 : ∀ x, x < 256 → x ||| 128 = x % 128 + 128 := by decide

set_option maxRecDepth 100000 in
theorem byte_and_128 : ∀ x, x < 256 → (x &&& 128 = 0 ↔ x < 128) := by decide

set_option maxRecDepth 100000 in
theorem byte_and_127 : ∀ x, x < 256 → x &&& 127 = x % 128 := by decide

theorem or_128_mod (v : Nat) : (v ||| 128) % 256 = v % 128 + 128 := by
  have h : (v ||| 128) % 256 = (v % 256) ||| 128 := by
    apply Nat.eq_of_testBit_eq
    intro i
    have e1 : (256 : Nat) = 2 ^ 8 := by norm_num
    rw [e1, Nat.testBit_mod_two_pow, Nat.testBit_or, Nat.testBit_or, Nat.testBit_mod_two_pow]
    by_cases hi : i < 8
    · simp [hi]
    · have : Nat.testBit 128 i = false := by
        apply Nat.testBit_lt_two_pow
        calc 128 < 2 ^ 8 := by norm_num
          _ ≤ 2 ^ i := Nat.pow_le_pow_right (by norm_num) (by omega)
      simp [hi, this]
  rw [h, byte_or_128 _ (Nat.mod_lt _ (by norm_num))]
  omega

/-- Or-ing a shifted value onto an accumulator that lies below the shift is addition. -/
theorem or_shiftLeft_eq_add (r z s : Nat) (hr : r < 2 ^ s) :
    r ||| (z <<< s) = r + 2 ^ s * z := by
  rw [Nat.shiftLeft_eq, Nat.mul_comm z, Nat.or_comm, ← Nat.mul_add_lt_is_or hr, Nat.add_comm]

theorem and_255 (x : Nat) : x &&& 0xff = x % 256 := by
  have := Nat.and_pow_two_sub_one_eq_mod x 8
  simpa using this

/-- The loop of `VarintLength` has left before the fuel runs out: with more fuel the
result is the same. -/
theorem VarintLength_fuel (v n : Nat) :
    VarintLengthLoop (n + 10) (v % 2 ^ 64) 1 = VarintLength v := by
  unfold VarintLength
  have hv : v % 2 ^ 64 < 2 ^ 64 := Nat.mod_lt _ (by norm_num)
  generalize v % 2 ^ 64 = w at hv ⊢
  simp only [VarintLengthLoop, Nat.shiftRight_eq_div_pow, Nat.div_div_eq_div_mul, ← Nat.pow_add]
  simp only [Nat.reduceAdd, Nat.reducePow, ge_iff_le]
  have h9 : ¬ (128 ≤ w / 9223372036854775808) := by omega
  simp only [h9, if_false]

/-- The varint of a 32-bit value has as many bytes as `VarintLength` announces. -/
theorem EncodeVarint32_length (v : Nat) (hv : v < 2 ^ 32) :
    (EncodeVarint32 v).length = VarintLength v := by
  unfold VarintLength EncodeVarint32
  have hv64 : v % 2 ^ 64 = v := Nat.mod_eq_of_lt (by omega)
  simp only [hv64, Nat.mod_eq_of_lt hv, VarintLengthLoop, Nat.shiftRight_eq_div_pow,
    Nat.div_div_eq_div_mul, ← Nat.pow_add]
  have c7 : (1 : Nat) <<< 7 = 128 := by decide
  have c14 : (1 : Nat) <<< 14 = 16384 := by decide
  have c21 : (1 : Nat) <<< 21 = 2097152 := by decide
  have c28 : (1 : Nat) <<< 28 = 268435456 := by decide
  simp only [c7, c14, c21, c28, Nat.reduceAdd, Nat.reducePow, ge_iff_le]
  have g1 : ¬ (128 ≤ v / 268435456) := by omega
  simp only [g1, if_false]
  split_ifs <;> first | omega | simp only [List.length_cons, List.length_nil]

/-- One loop iteration on a continuation byte. -/
theorem fallbackLoop_more (p : CharPtr) (fuel shift off result x : Nat)
    (hs : shift ≤ 28) (ho : off < 5) (hp : p off = x % 128 + 128) :
    GetVarint32PtrFallbackLoop p 5 (fuel + 1) shift off result =
      GetVarint32PtrFallbackLoop p 5 fuel (shift + 7) (off + 1)
        (result ||| (((x % 128) <<< shift) % 2 ^ 32)) := by
  have hb : (x % 128 + 128) % 256 = x % 128 + 128 := by omega
  have h1 : ¬ ((x % 128 + 128) &&& 128 = 0) := by
    rw [byte_and_128 _ (by omega)]; omega
  have h2 : (x % 128 + 128) &&& 127 = x % 128 := by
    rw [byte_and_127 _ (by omega)]; omega
  simp only [GetVarint32PtrFallbackLoop, hs, ho, and_self, if_true, hp, hb, ne_eq, h1,
    not_false_eq_true, h2]

/-- One loop iteration on a final byte. -/
theorem fallbackLoop_last (p : CharPtr) (fuel shift off result x : Nat)
    (hs : shift ≤ 28) (ho : off < 5) (hx : x < 128) (hp : p off = x) :
    GetVarint32PtrFallbackLoop p 5 (fuel + 1) shift off result =
      some (off + 1, result ||| ((x <<< shift) % 2 ^ 32)) := by
  have hb : x % 256 = x := by omega
  have h1 : x &&& 128 = 0 := by
    rw [byte_and_128 _ (by omega)]; omega
  simp [GetVarint32PtrFallbackLoop, hs, ho, hp, hb, h1]

/-- Or-ing a shifted value, truncated to 32 bits, onto an accumulator below the
shift. -/
theorem or_shift_mod (r z s : Nat) (hr : r < 2 ^ s) (hs : s ≤ 32) :
    r ||| ((z <<< s) % 2 ^ 32) = r + 2 ^ s * (z % 2 ^ (32 - s)) := by
  have e : (z <<< s) % 2 ^ 32 = 2 ^ s * (z % 2 ^ (32 - s)) := by
    rw [Nat.shiftLeft_eq, Nat.mul_comm z]
    have : 2 ^ 32 = 2 ^ s * 2 ^ (32 - s) := by
      rw [← Nat.pow_add]; congr 1; omega
    rw [this, Nat.mul_mod_mul_left]
  rw [e, Nat.or_comm, ← Nat.mul_add_lt_is_or hr, Nat.add_comm]

theorem EncodeVarint32_length_pos (v : Nat) : 0 < (EncodeVarint32 v).length := by
  unfold EncodeVarint32
  simp only []
  split_ifs <;> simp

theorem GetVarint32Ptr_EncodeVarint32 (v : Nat) (hv : v < 2 ^ 32) (p : CharPtr)
    (hp : ∀ i, i < (EncodeVarint32 v).length → p i = (EncodeVarint32 v).getD i 0) :
    GetVarint32Ptr p 5 = some ((EncodeVarint32 v).length, v) := by
  unfold EncodeVarint32 at hp ⊢
  simp only [Nat.mod_eq_of_lt hv, Nat.shiftRight_eq_div_pow, or_128_mod] at hp ⊢
  have c7 : (1 : Nat) <<< 7 = 128 := by decide
  have c14 : (1 : Nat) <<< 14 = 16384 := by decide
  have c21 : (1 : Nat) <<< 21 = 2097152 := by decide
  have c28 : (1 : Nat) <<< 28 = 268435456 := by decide
  rw [c7, c14, c21, c28] at hp ⊢
  split_ifs at hp ⊢ with h1 h2 h3 h4
  · have p0 : p 0 = v := by
      have := hp 0 (by simp); simp at this; omega
    have hb : v &&& 128 = 0 := by rw [byte_and_128 _ (by omega)]; exact h1
    have hm : v % 256 = v := by omega
    simp [GetVarint32Ptr, p0, hb, hm]
  · have p0 : p 0 = v % 128 + 128 := by simpa using hp 0 (by simp)
    have p1 : p 1 = v / 2 ^ 7 := by
      have := hp 1 (by simp); simp at this; omega
    have hb : ¬ ((v % 128 + 128) % 256 &&& 128 = 0) := by
      rw [byte_and_128 _ (by omega)]; omega
    simp only [GetVarint32Ptr, p0, hb, and_false, if_false, GetVarint32PtrFallback]
    rw [fallbackLoop_more p 4 0 0 0 v (by omega) (by omega) p0,
      fallbackLoop_last p 3 7 1 _ (v / 2 ^ 7) (by omega) (by omega) (by omega) p1]
    rw [or_shift_mod _ _ 0 (by simp) (by omega), or_shift_mod _ _ 7 (by omega) (by omega)]
    simp only [List.length_cons, List.length_nil, Option.some.injEq, Prod.mk.injEq,
      Nat.reduceSub, Nat.reducePow, Nat.reduceAdd, true_and]
    omega
  · have p0 : p 0 = v % 128 + 128 := by simpa using hp 0 (by simp)
    have p1 : p 1 = v / 2 ^ 7 % 128 + 128 := by simpa using hp 1 (by simp)
    have p2 : p 2 = v / 2 ^ 14 := by
      have := hp 2 (by simp); simp at this; omega
    have hb : ¬ ((v % 128 + 128) % 256 &&& 128 = 0) := by
      rw [byte_and_128 _ (by omega)]; omega
    simp only [GetVarint32Ptr, p0, hb, and_false, if_false, GetVarint32PtrFallback]
    rw [fallbackLoop_more p 4 0 0 0 v (by omega) (by omega) p0,
      fallbackLoop_more p 3 7 1 _ (v / 2 ^ 7) (by omega) (by omega) p1,
      fallbackLoop_last p 2 14 2 _ (v / 2 ^ 14) (by omega) (by omega) (by omega) p2]
    rw [or_shift_mod _ _ 0 (by simp) (by omega), or_shift_mod _ _ 7 (by omega) (by omega),
      or_shift_mod _ _ 14 (by omega) (by omega)]
    simp only [List.length_cons, List.length_nil, Option.some.injEq, Prod.mk.injEq,
      Nat.reduceSub, Nat.reducePow, Nat.reduceAdd, true_and]
    omega
  · have p0 : p 0 = v % 128 + 128 := by simpa using hp 0 (by simp)
    have p1 : p 1 = v / 2 ^ 7 % 128 + 128 := by simpa using hp 1 (by simp)
    have p2 : p 2 = v / 2 ^ 14 % 128 + 128 := by simpa using hp 2 (by simp)
    have p3 : p 3 = v / 2 ^ 21 := by
      have := hp 3 (by simp); simp at this; omega
    have hb : ¬ ((v % 128 + 128) % 256 &&& 128 = 0) := by
      rw [byte_and_128 _ (by omega)]; omega
    simp only [GetVarint32Ptr, p0, hb, and_false, if_false, GetVarint32PtrFallback]
    rw [fallbackLoop_more p 4 0 0 0 v (by omega) (by omega) p0,
      fallbackLoop_more p 3 7 1 _ (v / 2 ^ 7) (by omega) (by omega) p1,
      fallbackLoop_more p 2 14 2 _ (v / 2 ^ 14) (by omega) (by omega) p2,
      fallbackLoop_last p 1 21 3 _ (v / 2 ^ 21) (by omega) (by omega) (by omega) p3]
    rw [or_shift_mod _ _ 0 (by simp) (by omega), or_shift_mod _ _ 7 (by omega) (by omega),
      or_shift_mod _ _ 14 (by omega) (by omega), or_shift_mod _ _ 21 (by omega) (by omega)]
    simp only [List.length_cons, List.length_nil, Option.some.injEq, Prod.mk.injEq,
      Nat.reduceSub, Nat.reducePow, Nat.reduceAdd, true_and]
    omega
  · have p0 : p 0 = v % 128 + 128 := by simpa using hp 0 (by simp)
    have p1 : p 1 = v / 2 ^ 7 % 128 + 128 := by simpa using hp 1 (by simp)
    have p2 : p 2 = v / 2 ^ 14 % 128 + 128 := by simpa using hp 2 (by simp)
    have p3 : p 3 = v / 2 ^ 21 % 128 + 128 := by simpa using hp 3 (by simp)
    have p4 : p 4 = v / 2 ^ 28 := by
      have := hp 4 (by simp); simp at this; omega
    have hb : ¬ ((v % 128 + 128) % 256 &&& 128 = 0) := by
      rw [byte_and_128 _ (by omega)]; omega
    simp only [GetVarint32Ptr, p0, hb, and_false, if_false, GetVarint32PtrFallback]
    rw [fallbackLoop_more p 4 0 0 0 v (by omega) (by omega) p0,
      fallbackLoop_more p 3 7 1 _ (v / 2 ^ 7) (by omega) (by omega) p1,
      fallbackLoop_more p 2 14 2 _ (v / 2 ^ 14) (by omega) (by omega) p2,
      fallbackLoop_more p 1 21 3 _ (v / 2 ^ 21) (by omega) (by omega) p3,
      fallbackLoop_last p 0 28 4 _ (v / 2 ^ 28) (by omega) (by omega) (by omega) p4]
    rw [or_shift_mod _ _ 0 (by simp) (by omega), or_shift_mod _ _ 7 (by omega) (by omega),
      or_shift_mod _ _ 14 (by omega) (by omega), or_shift_mod _ _ 21 (by omega) (by omega),
      or_shift_mod _ _ 28 (by omega) (by omega)]
    simp only [List.length_cons, List.length_nil, Option.some.injEq, Prod.mk.injEq,
      Nat.reduceSub, Nat.reducePow, Nat.reduceAdd, true_and]
    omega


/-- Reading back a little-endian 64-bit value. -/
theorem DecodeFixed64_EncodeFixed64 (x : Nat) (hx : x < 2 ^ 64) (p : CharPtr)
    (hp : ∀ i, i < 8 → p i = (EncodeFixed64 x).getD i 0) : DecodeFixed64 p = x := by
  unfold EncodeFixed64 at hp
  simp only [Nat.mod_eq_of_lt hx, Nat.shiftRight_eq_div_pow] at hp
  simp only [Nat.reducePow] at hp
  have p0 := hp 0 (by omega)
  have p1 := hp 1 (by omega)
  have p2 := hp 2 (by omega)
  have p3 := hp 3 (by omega)
  have p4 := hp 4 (by omega)
  have p5 := hp 5 (by omega)
  have p6 := hp 6 (by omega)
  have p7 := hp 7 (by omega)
  simp only [List.getD_cons_zero, List.getD_cons_succ] at p0 p1 p2 p3 p4 p5 p6 p7
  clear hp
  unfold DecodeFixed64
  rw [p0, p1, p2, p3, p4, p5, p6, p7]
  simp only [Nat.mod_mod]
  have b0 : x % 256 < 2 ^ 8 := by norm_num; omega
  rw [or_shiftLeft_eq_add _ _ 8 b0]
  have b1 : x % 256 + 2 ^ 8 * (x / 256 % 256) < 2 ^ 16 := by norm_num; omega
  rw [or_shiftLeft_eq_add _ _ 16 b1]
  have b2 : x % 256 + 2 ^ 8 * (x / 256 % 256) + 2 ^ 16 * (x / 65536 % 256) < 2 ^ 24 := by
    norm_num; omega
  rw [or_shiftLeft_eq_add _ _ 24 b2]
  have b3 : x % 256 + 2 ^ 8 * (x / 256 % 256) + 2 ^ 16 * (x / 65536 % 256)
      + 2 ^ 24 * (x / 16777216 % 256) < 2 ^ 32 := by
    norm_num; omega
  rw [or_shiftLeft_eq_add _ _ 32 b3]
  have b4 : x % 256 + 2 ^ 8 * (x / 256 % 256) + 2 ^ 16 * (x / 65536 % 256)
      + 2 ^ 24 * (x / 16777216 % 256) + 2 ^ 32 * (x / 4294967296 % 256) < 2 ^ 40 := by
    norm_num; omega
  rw [or_shiftLeft_eq_add _ _ 40 b4]
  have b5 : x % 256 + 2 ^ 8 * (x / 256 % 256) + 2 ^ 16 * (x / 65536 % 256)
      + 2 ^ 24 * (x / 16777216 % 256) + 2 ^ 32 * (x / 4294967296 % 256)
      + 2 ^ 40 * (x / 1099511627776 % 256) < 2 ^ 48 := by
    norm_num; omega
  rw [or_shiftLeft_eq_add _ _ 48 b5]
  have b6 : x % 256 + 2 ^ 8 * (x / 256 % 256) + 2 ^ 16 * (x / 65536 % 256)
      + 2 ^ 24 * (x / 16777216 % 256) + 2 ^ 32 * (x / 4294967296 % 256)
      + 2 ^ 40 * (x / 1099511627776 % 256) + 2 ^ 48 * (x / 281474976710656 % 256) < 2 ^ 56 := by
    norm_num; omega
  rw [or_shiftLeft_eq_add _ _ 56 b6]
  norm_num at hx ⊢
  omega

theorem EncodeFixed64_length (x : Nat) : (EncodeFixed64 x).length = 8 := rfl

/-- The tag of a sequence number below `2 ^ 56`, as arithmetic. -/
theorem PackSequenceAndType_eq (s : Nat) (ty : ValueType) (hs : s < 2 ^ 56) :
    PackSequenceAndType s ty = 256 * s + ty.toNat := by
  unfold PackSequenceAndType
  have hty : ty.toNat < 2 ^ 8 := by cases ty <;> simp [ValueType.toNat]
  rw [Nat.mod_eq_of_lt (by omega), Nat.shiftLeft_eq, Nat.mod_eq_of_lt (by omega),
    Nat.mul_comm s, ← Nat.mul_add_lt_is_or hty]

theorem PackSequenceAndType_lt (s : Nat) (ty : ValueType) (hs : s < 2 ^ 56) :
    PackSequenceAndType s ty < 2 ^ 64 := by
  rw [PackSequenceAndType_eq s ty hs]
  have hty : ty.toNat < 2 ^ 8 := by cases ty <;> simp [ValueType.toNat]
  omega


/-! ## Stores -/

theorem storeBytes_append (mem : Nat → Nat) (a : Nat) (xs ys : List Nat) :
    storeBytes (storeBytes mem a xs) (a + xs.length) ys = storeBytes mem a (xs ++ ys) := by
  funext x
  simp only [storeBytes, List.length_append]
  by_cases h1 : a + xs.length ≤ x ∧ x < a + xs.length + ys.length
  · have h2 : a ≤ x ∧ x < a + (xs.length + ys.length) := by omega
    rw [if_pos h1, if_pos h2, List.getD_append_right _ _ _ _ (by omega)]
    congr 1; omega
  · rw [if_neg h1]
    by_cases h3 : a ≤ x ∧ x < a + xs.length
    · have h2 : a ≤ x ∧ x < a + (xs.length + ys.length) := by omega
      rw [if_pos h3, if_pos h2, List.getD_append _ _ _ _ (by omega)]
    · have h2 : ¬ (a ≤ x ∧ x < a + (xs.length + ys.length)) := by omega
      rw [if_neg h3, if_neg h2]

theorem storeBytes_inside (mem : Nat → Nat) (a : Nat) (bs : List Nat) :
    BytesAt (storeBytes mem a bs) a bs := by
  intro i hi
  simp only [storeBytes]
  rw [if_pos (by omega)]
  congr 1; omega

theorem storeBytes_outside (mem : Nat → Nat) (a : Nat) (bs : List Nat) (x : Nat)
    (hx : x < a ∨ a + bs.length ≤ x) : storeBytes mem a bs x = mem x := by
  simp only [storeBytes]
  rw [if_neg (by omega)]

/-- The five stores of `Add` write the record layout, and nothing else. -/
theorem AddStores_fst (mem : Nat → Nat) (buf s : Nat) (type : ValueType)
    (key value : List Nat) :
    (PmTable.AddStores mem buf s type key value).1 =
      storeBytes mem buf (entryBytes s type key value) := by
  generalize hA : EncodeVarint32 (key.length + 8) = A
  generalize hF : EncodeFixed64 (PackSequenceAndType s type) = F
  generalize hV : EncodeVarint32 value.length = V
  have hF8 : F.length = 8 := by rw [← hF]; rfl
  have e1 : storeBytes (storeBytes mem buf A) (buf + A.length) key =
      storeBytes mem buf (A ++ key) := storeBytes_append _ _ _ _
  have e2 : storeBytes (storeBytes mem buf (A ++ key)) (buf + A.length + key.length) F =
      storeBytes mem buf (A ++ key ++ F) := by
    have h := storeBytes_append mem buf (A ++ key) F
    rwa [List.length_append, ← Nat.add_assoc] at h
  have e3 : storeBytes (storeBytes mem buf (A ++ key ++ F)) (buf + A.length + key.length + 8) V =
      storeBytes mem buf (A ++ key ++ F ++ V) := by
    have h := storeBytes_append mem buf (A ++ key ++ F) V
    rwa [List.length_append, List.length_append, hF8, ← Nat.add_assoc, ← Nat.add_assoc] at h
  have e4 : storeBytes (storeBytes mem buf (A ++ key ++ F ++ V))
      (buf + A.length + key.length + 8 + V.length) value =
      storeBytes mem buf (A ++ key ++ F ++ V ++ value) := by
    have h := storeBytes_append mem buf (A ++ key ++ F ++ V) value
    rwa [List.length_append, List.length_append, List.length_append, hF8, ← Nat.add_assoc,
      ← Nat.add_assoc, ← Nat.add_assoc] at h
  simp only [PmTable.AddStores, entryBytes, hA, hF, hV]
  rw [e1, e2, e3, e4]

/-- The pointer `p` of `Add` after the last varint. -/
theorem AddStores_snd (mem : Nat → Nat) (buf s : Nat) (type : ValueType)
    (key value : List Nat) :
    (PmTable.AddStores mem buf s type key value).2 =
      buf + (EncodeVarint32 (key.length + 8)).length + key.length + 8 +
        (EncodeVarint32 value.length).length := rfl

theorem entryBytes_length (s : Nat) (type : ValueType) (key value : List Nat)
    (hk : key.length + 8 < 2 ^ 32) (hv : value.length < 2 ^ 32) :
    (entryBytes s type key value).length = encodedLen key value := by
  simp only [entryBytes, encodedLen, List.length_append, EncodeFixed64_length,
    EncodeVarint32_length _ hk, EncodeVarint32_length _ hv]
  omega


/-! ## The arena -/

theorem Persist_kv_alloc_ptr (cfg : Config) (a : NvmArena) (pm : Pmem) :
    (a.Persist cfg pm).1.kv_alloc_ptr_ = a.kv_alloc_ptr_ ∧
    (a.Persist cfg pm).1.memory_usage_ = a.memory_usage_ ∧
    (a.Persist cfg pm).1.kv_start_ = a.kv_start_ ∧
    (a.Persist cfg pm).1.pm_log_start_ = a.pm_log_start_ ∧
    (a.Persist cfg pm).1.force_ = a.force_ ∧
    (a.Persist cfg pm).2.bytes = pm.bytes := by
  unfold NvmArena.Persist
  split_ifs <;> simp [NvmArena.PersistHead, NvmArena.PersistKV, pmem_persist]

theorem Allocate_fst (cfg : Config) (a : NvmArena) (pm : Pmem) (n : Nat) :
    (a.Allocate cfg pm n).1 = a.kv_alloc_ptr_ := by
  unfold NvmArena.Allocate
  split_ifs
  · exact (Persist_kv_alloc_ptr cfg a pm).1
  · rfl

theorem Allocate_cursor (cfg : Config) (a : NvmArena) (pm : Pmem) (n : Nat) :
    (a.Allocate cfg pm n).2.1.kv_alloc_ptr_ = a.kv_alloc_ptr_ + n ∧
    (a.Allocate cfg pm n).2.1.memory_usage_ = a.memory_usage_ + n ∧
    (a.Allocate cfg pm n).2.1.kv_start_ = a.kv_start_ ∧
    (a.Allocate cfg pm n).2.1.pm_log_start_ = a.pm_log_start_ ∧
    (a.Allocate cfg pm n).2.1.force_ = a.force_ ∧
    (a.Allocate cfg pm n).2.2.bytes = pm.bytes := by
  have h := Persist_kv_alloc_ptr cfg a pm
  unfold NvmArena.Allocate
  split_ifs
  · simp only [h.1, h.2.1, h.2.2.1, h.2.2.2.1, h.2.2.2.2.1, h.2.2.2.2.2, and_self]
  · simp

/-! ## `Add`: the two outcomes -/

theorem Add_fst (cfg : Config) (ucmp : List Nat → List Nat → Int) (t : PmTable)
    (s : Nat) (type : ValueType) (key value : List Nat) :
    (PmTable.Add cfg ucmp t s type key value).1 =
      decide (encodedLen key value + t.nvmArena_.MemoryUsage < cfg.PM_LOG_SIZE) := by
  unfold PmTable.Add
  by_cases h : encodedLen key value + t.nvmArena_.MemoryUsage < cfg.PM_LOG_SIZE
  · simp [h]
  · simp [h]

/-- The table after a successful `Add`. -/
theorem Add_of_fit (cfg : Config) (ucmp : List Nat → List Nat → Int) (t : PmTable)
    (s : Nat) (type : ValueType) (key value : List Nat)
    (h : encodedLen key value + t.nvmArena_.MemoryUsage < cfg.PM_LOG_SIZE) :
    PmTable.Add cfg ucmp t s type key value =
      (true,
        { t with
          nvmArena_ := (t.nvmArena_.Allocate cfg t.pm (encodedLen key value)).2.1
          pm := { (t.nvmArena_.Allocate cfg t.pm (encodedLen key value)).2.2 with
                  bytes := storeBytes t.pm.bytes t.nvmArena_.kv_alloc_ptr_
                    (entryBytes s type key value) }
          min_key_ := if t.min_key_.isEmpty ∨ ucmp t.min_key_ key > 0 then key else t.min_key_
          max_key_ := if t.max_key_.isEmpty ∨ ucmp t.max_key_ key < 0 then key else t.max_key_
          table_ := SkipList.Insert
            (fun x => KeyComparator ucmp
              (CharPtr.at (storeBytes t.pm.bytes t.nvmArena_.kv_alloc_ptr_
                (entryBytes s type key value)) x)
              (CharPtr.at (storeBytes t.pm.bytes t.nvmArena_.kv_alloc_ptr_
                (entryBytes s type key value)) t.nvmArena_.kv_alloc_ptr_))
            t.nvmArena_.kv_alloc_ptr_ t.table_
          count_ := t.count_ + 1 }) := by
  have hc := Allocate_cursor cfg t.nvmArena_ t.pm (encodedLen key value)
  have hb := Allocate_fst cfg t.nvmArena_ t.pm (encodedLen key value)
  unfold PmTable.Add
  rw [if_pos h]
  simp only [AddStores_fst, hb, hc.2.2.2.2.2]

theorem SkipList_Insert_split (cmp : Nat → Int) (key : Nat) (l : List Nat) :
    ∃ l1 l2, l = l1 ++ l2 ∧ SkipList.Insert cmp key l = l1 ++ key :: l2 := by
  induction l with
  | nil => exact ⟨[], [], rfl, rfl⟩
  | cons x xs ih =>
    obtain ⟨l1, l2, h1, h2⟩ := ih
    by_cases hx : cmp x < 0
    · refine ⟨x :: l1, l2, by rw [h1]; rfl, ?_⟩
      simp only [SkipList.Insert, hx, if_true, h2, List.cons_append]
    · exact ⟨[], x :: xs, rfl, by simp only [SkipList.Insert, hx, if_false, List.nil_append]⟩

/-- C2: when the encoded length `L` of the record, added to
`ApproximateMemoryUsage()`, reaches `PM_LOG_SIZE`, `Add` returns false and the table
afterwards is the table before, in all its parts: `min_key_`, `max_key_`, `count_`,
the ordered index, the arena (allocation cursor, last-flushed cursor, memory usage)
and the region (header, bytes, barriers issued). -/
theorem Add_over_capacity_unchanged (cfg : Config) (ucmp : List Nat → List Nat → Int)
    (t : PmTable) (s : Nat) (type : ValueType) (key value : List Nat)
    (hfull : VarintLength (key.length + 8) + key.length + 8 + VarintLength value.length +
      value.length + t.ApproximateMemoryUsage ≥ cfg.PM_LOG_SIZE) :
    PmTable.Add cfg ucmp t s type key value = (false, t) := by
  have h : ¬ (encodedLen key value + t.nvmArena_.MemoryUsage < cfg.PM_LOG_SIZE) := by
    simp only [encodedLen, PmTable.ApproximateMemoryUsage] at hfull ⊢
    omega
  simp only [PmTable.Add, h, if_false]

theorem Add_over_capacity_unchanged_witness :
    PmTable.Add exampleConfig Slice.compare
        { exampleTable with nvmArena_ := { exampleTable.nvmArena_ with memory_usage_ := 990 } }
        1 ValueType.kTypeValue [97] [49] =
      (false,
        { exampleTable with nvmArena_ := { exampleTable.nvmArena_ with memory_usage_ := 990 } }) :=
  Add_over_capacity_unchanged exampleConfig Slice.compare
    { exampleTable with nvmArena_ := { exampleTable.nvmArena_ with memory_usage_ := 990 } }
    1 ValueType.kTypeValue [97] [49] (by decide)

/-- C3: when the encoded length `L` added to `ApproximateMemoryUsage()` stays below
`PM_LOG_SIZE`, `Add` returns true; `count_` has grown by 1, `ApproximateMemoryUsage()`
by `L`; the ordered index is the old one with one entry inserted, the address `buf`
returned by the arena (the old allocation cursor), no old entry removed or altered;
and the record layout is in memory at `buf`. -/
theorem Add_success_effect (cfg : Config) (ucmp : List Nat → List Nat → Int)
    (t : PmTable) (s : Nat) (type : ValueType) (key value : List Nat)
    (hfit : VarintLength (key.length + 8) + key.length + 8 + VarintLength value.length +
      value.length + t.ApproximateMemoryUsage < cfg.PM_LOG_SIZE) :
    (PmTable.Add cfg ucmp t s type key value).1 = true ∧
    (PmTable.Add cfg ucmp t s type key value).2.count_ = t.count_ + 1 ∧
    (PmTable.Add cfg ucmp t s type key value).2.ApproximateMemoryUsage =
      t.ApproximateMemoryUsage + (VarintLength (key.length + 8) + key.length + 8 +
        VarintLength value.length + value.length) ∧
    (∃ l1 l2, t.table_ = l1 ++ l2 ∧
      (PmTable.Add cfg ucmp t s type key value).2.table_ =
        l1 ++ t.nvmArena_.kv_alloc_ptr_ :: l2) ∧
    (t.nvmArena_.Allocate cfg t.pm (encodedLen key value)).1 = t.nvmArena_.kv_alloc_ptr_ ∧
    BytesAt (PmTable.Add cfg ucmp t s type key value).2.pm.bytes t.nvmArena_.kv_alloc_ptr_
      (entryBytes s type key value) := by
  have h : encodedLen key value + t.nvmArena_.MemoryUsage < cfg.PM_LOG_SIZE := by
    simp only [encodedLen, PmTable.ApproximateMemoryUsage] at hfit ⊢
    omega
  have hc := Allocate_cursor cfg t.nvmArena_ t.pm (encodedLen key value)
  have hb := Allocate_fst cfg t.nvmArena_ t.pm (encodedLen key value)
  rw [Add_of_fit cfg ucmp t s type key value h]
  refine ⟨rfl, rfl, ?_, SkipList_Insert_split _ _ _, hb, storeBytes_inside _ _ _⟩
  show (t.nvmArena_.Allocate cfg t.pm (encodedLen key value)).2.1.memory_usage_ = _
  rw [hc.2.1]
  simp only [PmTable.ApproximateMemoryUsage, NvmArena.MemoryUsage, encodedLen]
  omega

theorem Add_success_effect_witness :
    (PmTable.Add exampleConfig Slice.compare exampleTable 1 ValueType.kTypeValue
      [97] [49]).2.count_ = exampleTable.count_ + 1 :=
  (Add_success_effect exampleConfig Slice.compare exampleTable 1 ValueType.kTypeValue
    [97] [49] (by decide)).2.1


theorem EncodeFixed64_little_endian (x : Nat) :
    EncodeFixed64 x = (List.range 8).map (fun i => x % 2 ^ 64 / 256 ^ i % 256) := by
  simp only [EncodeFixed64, Nat.shiftRight_eq_div_pow]
  norm_num [List.range, List.range.loop]

/-- C10: a successful `Add(seq, type, key, value)` with `|key| + 8` and `|value|` below
`2 ^ 32` leaves, at the address `buf` returned by the arena, exactly the bytes
`varint32(|key|+8) ++ key ++ fixed64((seq << 8) | type) ++ varint32(|value|) ++ value`,
the fixed64 being little-endian; their number is `encoded_len`; the asserted
equality `p + val_size == buf + encoded_len` holds; and no byte outside
`[buf, buf + encoded_len)` is written. -/
theorem Add_writes_record_layout (cfg : Config) (ucmp : List Nat → List Nat → Int)
    (t : PmTable) (s : Nat) (type : ValueType) (key value : List Nat)
    (hk : key.length + 8 < 2 ^ 32) (hv : value.length < 2 ^ 32)
    (hok : (PmTable.Add cfg ucmp t s type key value).1 = true) :
    BytesAt (PmTable.Add cfg ucmp t s type key value).2.pm.bytes
      (t.nvmArena_.Allocate cfg t.pm (encodedLen key value)).1
      (EncodeVarint32 (key.length + 8) ++ key ++
        EncodeFixed64 ((((s % 2 ^ 64) <<< 8) % 2 ^ 64) ||| type.toNat) ++
        EncodeVarint32 value.length ++ value) ∧
    EncodeFixed64 ((((s % 2 ^ 64) <<< 8) % 2 ^ 64) ||| type.toNat) =
      (List.range 8).map
        (fun i => ((((s % 2 ^ 64) <<< 8) % 2 ^ 64) ||| type.toNat) % 2 ^ 64 / 256 ^ i % 256) ∧
    (EncodeVarint32 (key.length + 8) ++ key ++
        EncodeFixed64 ((((s % 2 ^ 64) <<< 8) % 2 ^ 64) ||| type.toNat) ++
        EncodeVarint32 value.length ++ value).length = encodedLen key value ∧
    (PmTable.AddStores (t.nvmArena_.Allocate cfg t.pm (encodedLen key value)).2.2.bytes
        (t.nvmArena_.Allocate cfg t.pm (encodedLen key value)).1 s type key value).2 +
        value.length =
      (t.nvmArena_.Allocate cfg t.pm (encodedLen key value)).1 + encodedLen key value ∧
    (∀ x, x < (t.nvmArena_.Allocate cfg t.pm (encodedLen key value)).1 ∨
        (t.nvmArena_.Allocate cfg t.pm (encodedLen key value)).1 + encodedLen key value ≤ x →
      (PmTable.Add cfg ucmp t s type key value).2.pm.bytes x = t.pm.bytes x) := by
  have h : encodedLen key value + t.nvmArena_.MemoryUsage < cfg.PM_LOG_SIZE := by
    rw [Add_fst] at hok
    exact of_decide_eq_true hok
  have hb := Allocate_fst cfg t.nvmArena_ t.pm (encodedLen key value)
  have hlen := entryBytes_length s type key value hk hv
  rw [Add_of_fit cfg ucmp t s type key value h, hb]
  refine ⟨storeBytes_inside _ _ _, EncodeFixed64_little_endian _, hlen, ?_, ?_⟩
  · rw [AddStores_snd, encodedLen, EncodeVarint32_length _ hk, EncodeVarint32_length _ hv]
    omega
  · intro x hx
    exact storeBytes_outside _ _ _ _ (by rw [hlen]; exact hx)

theorem Add_writes_record_layout_witness :
    (EncodeVarint32 ([97].length + 8) ++ [97] ++
        EncodeFixed64 ((((1 % 2 ^ 64) <<< 8) % 2 ^ 64) ||| ValueType.kTypeValue.toNat) ++
        EncodeVarint32 [49].length ++ [49]).length = encodedLen [97] [49] :=
  (Add_writes_record_layout exampleConfig Slice.compare exampleTable 1 ValueType.kTypeValue
    [97] [49] (by decide) (by decide) (by decide)).2.2.1


/-! ## `Persist` -/

theorem ptrdiffToSize_unflushed (a : NvmArena) (hle : a.last_persist_point_ ≤ a.kv_alloc_ptr_) :
    ptrdiffToSize a.unflushed = a.kv_alloc_ptr_ - a.last_persist_point_ := by
  unfold ptrdiffToSize NvmArena.unflushed
  rw [if_neg (by omega)]
  omega

/-- C8: `Persist()` acts iff `force_` is set or the unflushed span exceeds
`PERSIST_SIZE`.  When it acts: the data barrier `PersistKV` covers exactly
`[last_persist_point_, kv_alloc_ptr_)` and is issued with the header still
untouched; then `PersistHead` assigns `used_size := memory_usage_` and issues one
barrier over the 8 bytes of that field; then `last_persist_point_ := kv_alloc_ptr_`;
the allocation cursor, the memory usage and the bytes are unchanged.  When it does
not act, arena and region are unchanged and no barrier is issued. -/
theorem Persist_effect (cfg : Config) (a : NvmArena) (pm : Pmem)
    (hle : a.last_persist_point_ ≤ a.kv_alloc_ptr_) :
    (a.force_ = true ∨ (a.kv_alloc_ptr_ : Int) - (a.last_persist_point_ : Int) >
        (cfg.PERSIST_SIZE : Int) →
      a.PersistKV pm =
        { pm with persisted := pm.persisted ++
            [⟨.kv, a.last_persist_point_, a.kv_alloc_ptr_ - a.last_persist_point_⟩] } ∧
      a.PersistHead (a.PersistKV pm) =
        { head := { pm.head with used_size := a.memory_usage_ }
          bytes := pm.bytes
          persisted := pm.persisted ++
            [⟨.kv, a.last_persist_point_, a.kv_alloc_ptr_ - a.last_persist_point_⟩,
              ⟨.head, a.pm_log_start_ + 8, 8⟩] } ∧
      a.Persist cfg pm =
        ({ a with last_persist_point_ := a.kv_alloc_ptr_ }, a.PersistHead (a.PersistKV pm))) ∧
    (¬ (a.force_ = true ∨ (a.kv_alloc_ptr_ : Int) - (a.last_persist_point_ : Int) >
        (cfg.PERSIST_SIZE : Int)) →
      a.Persist cfg pm = (a, pm)) := by
  constructor
  · intro hc
    refine ⟨?_, ?_, ?_⟩
    · simp only [NvmArena.PersistKV, pmem_persist, ptrdiffToSize_unflushed a hle]
    · simp only [NvmArena.PersistHead, NvmArena.PersistKV, pmem_persist,
        ptrdiffToSize_unflushed a hle, usedSizeOffset, List.append_assoc, List.singleton_append]
    · unfold NvmArena.Persist NvmArena.unflushed
      rw [if_pos hc]
  · intro hc
    unfold NvmArena.Persist NvmArena.unflushed
    rw [if_neg hc]

theorem Persist_effect_witness :
    (exampleForcedArena.Persist exampleConfig exampleRegion).2.persisted = [⟨.kv, 24, 10⟩, ⟨.head, 8, 8⟩] ∧
    (exampleForcedArena.Persist exampleConfig exampleRegion).2.head.used_size = 34 ∧
    (exampleForcedArena.Persist exampleConfig exampleRegion).1.last_persist_point_ = 34 := by
  have h := (Persist_effect exampleConfig exampleForcedArena exampleRegion (by decide)).1
    (Or.inl rfl)
  rw [h.2.2, h.2.1]
  exact ⟨rfl, rfl, rfl⟩

/-- C9, as the code has it: in an arena built with `force = true` every call of
`Persist()` flushes, whatever the unflushed span; `Allocate` and `AllocateAligned`
call `Persist()` only behind their own test of the span against `PERSIST_SIZE`, so
they flush when the span exceeds `PERSIST_SIZE` and leave the region (header and
barriers) untouched otherwise. -/
theorem force_flushes_in_Persist_only (cfg : Config) (a : NvmArena) (pm : Pmem) (n : Nat)
    (hf : a.force_ = true) :
    a.Persist cfg pm =
      ({ a with last_persist_point_ := a.kv_alloc_ptr_ }, a.PersistHead (a.PersistKV pm)) ∧
    (a.Allocate cfg pm n).2.2 =
      (if a.unflushed > (cfg.PERSIST_SIZE : Int) then a.PersistHead (a.PersistKV pm) else pm) ∧
    (a.AllocateAligned cfg pm n).2.2 =
      (if a.unflushed > (cfg.PERSIST_SIZE : Int) then a.PersistHead (a.PersistKV pm) else pm) := by
  have hp : a.Persist cfg pm =
      ({ a with last_persist_point_ := a.kv_alloc_ptr_ }, a.PersistHead (a.PersistKV pm)) := by
    unfold NvmArena.Persist
    rw [if_pos (Or.inl hf)]
  refine ⟨hp, ?_, ?_⟩
  · unfold NvmArena.Allocate
    split_ifs <;> simp [hp]
  · unfold NvmArena.AllocateAligned
    split_ifs <;> simp [hp]

theorem force_flushes_in_Persist_only_witness :
    (exampleForcedArena.Allocate exampleConfig exampleRegion 5).2.2.persisted = [] := by
  rw [(force_flushes_in_Persist_only exampleConfig exampleForcedArena exampleRegion 5 rfl).2.1]
  decide

/-- C9 fails as stated: an arena built with `force = true`, holding 10 allocated and
unflushed bytes, allocates (plain and aligned) without any barrier and without
touching the header, although `Persist()` in that state would flush. -/
theorem force_Allocate_does_not_flush :
    exampleForcedArena.force_ = true ∧
    exampleForcedArena.unflushed = 10 ∧
    (exampleForcedArena.Allocate exampleConfig exampleRegion 5).2.2.persisted = [] ∧
    (exampleForcedArena.Allocate exampleConfig exampleRegion 5).2.2.head = exampleRegion.head ∧
    (exampleForcedArena.AllocateAligned exampleConfig exampleRegion 5).2.2.persisted = [] ∧
    (exampleForcedArena.AllocateAligned exampleConfig exampleRegion 5).2.2.head =
      exampleRegion.head ∧
    (exampleForcedArena.Persist exampleConfig exampleRegion).2.persisted =
      [⟨.kv, 24, 10⟩, ⟨.head, 8, 8⟩] := by
  decide


/-! ## Durability of the record just added -/

theorem Allocate_flush (cfg : Config) (a : NvmArena) (pm : Pmem) (n : Nat) :
    (a.Allocate cfg pm n).2.2 =
      (if a.unflushed > (cfg.PERSIST_SIZE : Int) then a.PersistHead (a.PersistKV pm) else pm) ∧
    (a.Allocate cfg pm n).2.1.last_persist_point_ =
      (if a.unflushed > (cfg.PERSIST_SIZE : Int) then a.kv_alloc_ptr_
        else a.last_persist_point_) := by
  unfold NvmArena.Allocate NvmArena.Persist
  by_cases h : a.unflushed > (cfg.PERSIST_SIZE : Int)
  · simp [h]
  · simp [h]

/-- C6, as the code has it: a successful `Add` flushes at most the bytes allocated
before it.  The record it writes at `buf` (the old allocation cursor) lies at or
above the last-flushed cursor on return, and the barriers issued by the call are
none when the unflushed span was at most `PERSIST_SIZE`, and otherwise the data
barrier over `[last_persist_point_, buf)`, which ends where the record begins,
followed by the barrier over the `used_size` field. -/
theorem Add_record_not_flushed (cfg : Config) (ucmp : List Nat → List Nat → Int)
    (t : PmTable) (s : Nat) (type : ValueType) (key value : List Nat)
    (hle : t.nvmArena_.last_persist_point_ ≤ t.nvmArena_.kv_alloc_ptr_)
    (hok : (PmTable.Add cfg ucmp t s type key value).1 = true) :
    (t.nvmArena_.Allocate cfg t.pm (encodedLen key value)).1 = t.nvmArena_.kv_alloc_ptr_ ∧
    (PmTable.Add cfg ucmp t s type key value).2.nvmArena_.last_persist_point_ ≤
      t.nvmArena_.kv_alloc_ptr_ ∧
    (PmTable.Add cfg ucmp t s type key value).2.pm.persisted =
      t.pm.persisted ++
        (if t.nvmArena_.unflushed > (cfg.PERSIST_SIZE : Int) then
          [⟨.kv, t.nvmArena_.last_persist_point_,
              t.nvmArena_.kv_alloc_ptr_ - t.nvmArena_.last_persist_point_⟩,
            ⟨.head, t.nvmArena_.pm_log_start_ + 8, 8⟩]
        else []) := by
  have h : encodedLen key value + t.nvmArena_.MemoryUsage < cfg.PM_LOG_SIZE := by
    rw [Add_fst] at hok
    exact of_decide_eq_true hok
  have hb := Allocate_fst cfg t.nvmArena_ t.pm (encodedLen key value)
  have hf := Allocate_flush cfg t.nvmArena_ t.pm (encodedLen key value)
  rw [Add_of_fit cfg ucmp t s type key value h]
  refine ⟨hb, ?_, ?_⟩
  · show (t.nvmArena_.Allocate cfg t.pm (encodedLen key value)).2.1.last_persist_point_ ≤ _
    rw [hf.2]
    split_ifs
    · exact Nat.le_refl _
    · exact hle
  · show (t.nvmArena_.Allocate cfg t.pm (encodedLen key value)).2.2.persisted = _
    rw [hf.1]
    split_ifs
    · simp only [NvmArena.PersistHead, NvmArena.PersistKV, pmem_persist,
        ptrdiffToSize_unflushed _ hle, usedSizeOffset, List.append_assoc, List.singleton_append]
    · simp

theorem Add_record_not_flushed_witness :
    (PmTable.Add exampleConfig Slice.compare exampleTable 1 ValueType.kTypeValue
      [97] [49]).2.nvmArena_.last_persist_point_ ≤ exampleTable.nvmArena_.kv_alloc_ptr_ :=
  (Add_record_not_flushed exampleConfig Slice.compare exampleTable 1 ValueType.kTypeValue
    [97] [49] (by decide) (by decide)).2.1

/-- C6 fails as stated: after a successful `Add` on a fresh table the 12 bytes of the
record, at addresses 24 to 35, are not below the last-flushed cursor (still 24) and
no barrier issued so far covers any of them. -/
theorem Add_record_is_not_durable :
    (PmTable.Add exampleConfig Slice.compare exampleTable 1 ValueType.kTypeValue [97] [49]).1
      = true ∧
    (exampleTable.nvmArena_.Allocate exampleConfig exampleTable.pm (encodedLen [97] [49])).1
      = 24 ∧
    encodedLen [97] [49] = 12 ∧
    (PmTable.Add exampleConfig Slice.compare exampleTable 1 ValueType.kTypeValue
      [97] [49]).2.nvmArena_.last_persist_point_ = 24 ∧
    (PmTable.Add exampleConfig Slice.compare exampleTable 1 ValueType.kTypeValue
      [97] [49]).2.pm.persisted = [⟨.ctor, 5000, 24⟩] ∧
    (List.range 12).all (fun i =>
      !coveredBy (PmTable.Add exampleConfig Slice.compare exampleTable 1 ValueType.kTypeValue
        [97] [49]).2.pm.persisted (24 + i)) = true := by
  decide


/-! ## Durability ordering -/

theorem kvCoveredBy_append (l1 l2 : List Barrier) (x : Nat) :
    kvCoveredBy (l1 ++ l2) x = (kvCoveredBy l1 x || kvCoveredBy l2 x) := by
  simp only [kvCoveredBy, List.any_append]

theorem FlushInv_PersistKV (cfg : Config) (a : NvmArena) (pm : Pmem) (c : Nat)
    (h : FlushInv cfg a pm c) : FlushInv cfg a (a.PersistKV pm) a.kv_alloc_ptr_ := by
  obtain ⟨h1, h2, h3, h4, h5, h6⟩ := h
  refine ⟨h1, by omega, Nat.le_refl _, ?_, ?_, h6⟩
  · intro x hx1 hx2
    simp only [NvmArena.PersistKV, pmem_persist, kvCoveredBy_append, Bool.or_eq_true]
    by_cases hxc : x < c
    · exact Or.inl (h4 x hx1 hxc)
    · right
      rw [ptrdiffToSize_unflushed a (by omega)]
      simp only [kvCoveredBy, List.any_cons, List.any_nil, Bool.or_false, decide_eq_true_eq,
        true_and]
      omega
  · simp only [NvmArena.PersistKV, pmem_persist]
    omega

theorem FlushInv_PersistHead (cfg : Config) (a : NvmArena) (pm : Pmem)
    (h : FlushInv cfg a pm a.kv_alloc_ptr_) :
    FlushInv cfg a (a.PersistHead pm) a.kv_alloc_ptr_ := by
  obtain ⟨h1, h2, h3, h4, h5, h6⟩ := h
  refine ⟨h1, h2, h3, ?_, ?_, h6⟩
  · intro x hx1 hx2
    simp only [NvmArena.PersistHead, pmem_persist, kvCoveredBy_append, Bool.or_eq_true]
    exact Or.inl (h4 x hx1 hx2)
  · simp only [NvmArena.PersistHead, pmem_persist]
    omega

theorem FlushInv_Persist (cfg : Config) (a : NvmArena) (pm : Pmem) (c : Nat)
    (h : FlushInv cfg a pm c) :
    ∃ c1, FlushInv cfg (a.Persist cfg pm).1 (a.Persist cfg pm).2 c1 := by
  unfold NvmArena.Persist
  split_ifs
  · have h1 := FlushInv_PersistHead cfg a _ (FlushInv_PersistKV cfg a pm c h)
    obtain ⟨g1, g2, g3, g4, g5, g6⟩ := h1
    exact ⟨a.kv_alloc_ptr_, (show a.kv_start_ ≤ a.kv_alloc_ptr_ by omega), Nat.le_refl _,
      Nat.le_refl _, g4, g5, g6⟩
  · exact ⟨c, h⟩

theorem FlushInv_grow (cfg : Config) (a : NvmArena) (pm : Pmem) (c n : Nat)
    (h : FlushInv cfg a pm c) :
    FlushInv cfg { a with kv_alloc_ptr_ := a.kv_alloc_ptr_ + n
                          memory_usage_ := a.memory_usage_ + n } pm c := by
  obtain ⟨h1, h2, h3, h4, h5, h6⟩ := h
  refine ⟨h1, h2, ?_, h4, h5, ?_⟩
  · show c ≤ a.kv_alloc_ptr_ + n
    omega
  · show a.memory_usage_ + n = cfg.PM_LOG_HEAD_SIZE + (a.kv_alloc_ptr_ + n - a.kv_start_)
    omega

theorem FlushInv_Allocate (cfg : Config) (a : NvmArena) (pm : Pmem) (c n : Nat)
    (h : FlushInv cfg a pm c) :
    ∃ c1, FlushInv cfg (a.Allocate cfg pm n).2.1 (a.Allocate cfg pm n).2.2 c1 := by
  unfold NvmArena.Allocate
  split_ifs
  · obtain ⟨c1, h1⟩ := FlushInv_Persist cfg a pm c h
    exact ⟨c1, FlushInv_grow cfg _ _ c1 n h1⟩
  · exact ⟨c, FlushInv_grow cfg _ _ c n h⟩

theorem FlushInv_AllocateAligned (cfg : Config) (a : NvmArena) (pm : Pmem) (c n : Nat)
    (h : FlushInv cfg a pm c) :
    ∃ c1, FlushInv cfg (a.AllocateAligned cfg pm n).2.1 (a.AllocateAligned cfg pm n).2.2 c1 := by
  unfold NvmArena.AllocateAligned
  split_ifs
  · obtain ⟨c1, h1⟩ := FlushInv_Persist cfg a pm c h
    exact ⟨c1, FlushInv_grow cfg _ _ c1 _ h1⟩
  · exact ⟨c, FlushInv_grow cfg _ _ c _ h⟩

theorem FlushInv_bytes (cfg : Config) (a : NvmArena) (pm : Pmem) (c : Nat) (m : Nat → Nat)
    (h : FlushInv cfg a pm c) : FlushInv cfg a { pm with bytes := m } c := h

theorem Reach_FlushInv (cfg : Config) (ucmp : List Nat → List Nat → Int) (t : PmTable)
    (h : Reach cfg ucmp t) : ∃ c, FlushInv cfg t.nvmArena_ t.pm c := by
  induction h with
  | ctor pmLogHead member_addr region hr =>
    refine ⟨pmLogHead + cfg.PM_LOG_HEAD_SIZE, Nat.le_refl _, Nat.le_refl _, Nat.le_refl _,
      ?_, ?_, ?_⟩
    · intro x hx1 hx2
      simp only [PmTable.ctor, NvmArena.ctor] at hx1
      omega
    · simp only [PmTable.ctor, NvmArena.ctor, pmem_persist]
      omega
    · simp only [PmTable.ctor, NvmArena.ctor]
      omega
  | allocate t n _ ih =>
    obtain ⟨c, hc⟩ := ih
    exact FlushInv_Allocate cfg _ _ c n hc
  | allocateAligned t n _ ih =>
    obtain ⟨c, hc⟩ := ih
    exact FlushInv_AllocateAligned cfg _ _ c n hc
  | persist t _ ih =>
    obtain ⟨c, hc⟩ := ih
    exact FlushInv_Persist cfg _ _ c hc
  | persistKVHead t _ ih =>
    obtain ⟨c, hc⟩ := ih
    exact ⟨_, FlushInv_PersistHead cfg _ _ (FlushInv_PersistKV cfg _ _ c hc)⟩
  | add t s type key value _ ih =>
    obtain ⟨c, hc⟩ := ih
    by_cases hfit : encodedLen key value + t.nvmArena_.MemoryUsage < cfg.PM_LOG_SIZE
    · rw [Add_of_fit cfg ucmp t s type key value hfit]
      obtain ⟨c1, h1⟩ := FlushInv_Allocate cfg _ _ c (encodedLen key value) hc
      exact ⟨c1, FlushInv_bytes cfg _ _ c1 _ h1⟩
    · simp only [PmTable.Add, hfit, if_false]
      exact ⟨c, hc⟩

theorem filter_range_length_ge (p : Nat → Bool) (m n : Nat) (hmn : m ≤ n)
    (hp : ∀ i, i < m → p i = true) : m ≤ ((List.range n).filter p).length := by
  have h1 : (List.range m).filter p = List.range m := by
    rw [List.filter_eq_self]
    intro i hi
    exact hp i (List.mem_range.mp hi)
  have h2 : List.Sublist ((List.range m).filter p) ((List.range n).filter p) :=
    List.Sublist.filter p (List.range_sublist.mpr hmn)
  have h3 := h2.length_le
  rw [h1, List.length_range] at h3
  exact h3

theorem FlushInv_used_size (cfg : Config) (t : PmTable) (c : Nat)
    (h : FlushInv cfg t.nvmArena_ t.pm c) :
    t.pm.head.used_size ≤ cfg.PM_LOG_HEAD_SIZE + t.flushedRecordBytes := by
  obtain ⟨h1, h2, h3, h4, h5, h6⟩ := h
  have hge := filter_range_length_ge
    (fun i => kvCoveredBy t.pm.persisted (t.nvmArena_.kv_start_ + i))
    (c - t.nvmArena_.kv_start_) (t.nvmArena_.kv_alloc_ptr_ - t.nvmArena_.kv_start_)
    (by omega) (fun i hi => h4 _ (by omega) (by omega))
  unfold PmTable.flushedRecordBytes
  omega

/-- C7: at every crash point of a table (between two calls of `Allocate`,
`AllocateAligned`, `Persist`, `PersistKV` then `PersistHead`, `Add`; or inside a
flush between the data barrier and the header update) the header's `used_size` is at
most `PM_LOG_HEAD_SIZE` plus the number of allocated record bytes that a data
barrier has covered: `used_size` never runs ahead of the flushed data. -/
theorem used_size_never_ahead_of_flushed_data (cfg : Config)
    (ucmp : List Nat → List Nat → Int) (t : PmTable) (h : CrashPoint cfg ucmp t) :
    t.pm.head.used_size ≤ cfg.PM_LOG_HEAD_SIZE + t.flushedRecordBytes := by
  cases h with
  | atRest _ hr =>
    obtain ⟨c, hc⟩ := Reach_FlushInv cfg ucmp t hr
    exact FlushInv_used_size cfg t c hc
  | afterPersistKV t0 hr =>
    obtain ⟨c, hc⟩ := Reach_FlushInv cfg ucmp t0 hr
    exact FlushInv_used_size cfg _ _ (FlushInv_PersistKV cfg _ _ c hc)


theorem used_size_never_ahead_of_flushed_data_witness :
    ({ exampleTable with
        nvmArena_ := (exampleTable.nvmArena_.Allocate exampleConfig exampleTable.pm 100).2.1
        pm := (exampleTable.nvmArena_.Allocate exampleConfig exampleTable.pm 100).2.2 }
      : PmTable).pm.head.used_size ≤
      exampleConfig.PM_LOG_HEAD_SIZE +
        ({ exampleTable with
            nvmArena_ := (exampleTable.nvmArena_.Allocate exampleConfig exampleTable.pm 100).2.1
            pm := (exampleTable.nvmArena_.Allocate exampleConfig exampleTable.pm 100).2.2 }
          : PmTable).flushedRecordBytes :=
  used_size_never_ahead_of_flushed_data exampleConfig Slice.compare _
    (CrashPoint.atRest _
      (Reach.allocate exampleTable 100 (Reach.ctor 0 5000 exampleRegion rfl)))

/-! ## The running minimum and maximum -/

/-- C5 (defect): with the bytewise comparator, adding the empty key and then the key
`"b"` leaves `GetMinKey()` at `"b"`, although the empty key is the smaller one:
`min_key_.empty()` stands for "nothing added yet" and is true again after the
empty key has been recorded, so the second `Add` resets `min_key_`. -/
theorem min_key_reset_after_empty_key :
    (PmTable.AddAll exampleConfig Slice.compare exampleTable
      [⟨1, ValueType.kTypeValue, [], [120]⟩, ⟨2, ValueType.kTypeValue, [98], [121]⟩]).1 = true ∧
    (PmTable.AddAll exampleConfig Slice.compare exampleTable
      [⟨1, ValueType.kTypeValue, [], [120]⟩]).2.GetMinKey = [] ∧
    (PmTable.AddAll exampleConfig Slice.compare exampleTable
      [⟨1, ValueType.kTypeValue, [], [120]⟩, ⟨2, ValueType.kTypeValue, [98], [121]⟩]).2.GetMinKey
      = [98] ∧
    Slice.compare [] [98] < 0 := by
  decide


/-! ## Decoding what `Add` encoded -/

theorem getD_append_left_lt (xs ys : List Nat) (i : Nat) (h : i < xs.length) :
    (xs ++ ys).getD i 0 = xs.getD i 0 := List.getD_append _ _ _ _ h

theorem getD_append_right_ge (xs ys : List Nat) (i : Nat) :
    (xs ++ ys).getD (xs.length + i) 0 = ys.getD i 0 := by
  rw [List.getD_append_right _ _ _ _ (by omega)]
  congr 1; omega

/-- A pointer at `A ++ B ++ rest` reads `A` first. -/
theorem BytesAt_left (mem : Nat → Nat) (a : Nat) (xs ys : List Nat)
    (h : BytesAt mem a (xs ++ ys)) : BytesAt mem a xs := by
  intro i hi
  rw [h i (by rw [List.length_append]; omega), getD_append_left_lt _ _ _ hi]

theorem BytesAt_right (mem : Nat → Nat) (a : Nat) (xs ys : List Nat)
    (h : BytesAt mem a (xs ++ ys)) : BytesAt mem (a + xs.length) ys := by
  intro i hi
  have := h (xs.length + i) (by rw [List.length_append]; omega)
  rw [getD_append_right_ge] at this
  rw [← this]
  congr 1; omega

theorem slice_of_BytesAt (mem : Nat → Nat) (a : Nat) (bs : List Nat)
    (h : BytesAt mem a bs) : (CharPtr.at mem a).slice bs.length = bs := by
  apply List.ext_getElem
  · simp [CharPtr.slice]
  · intro i h1 h2
    simp only [CharPtr.slice, List.getElem_map, List.getElem_range, CharPtr.at]
    rw [h i h2, List.getD_eq_getElem _ _ h2]

theorem CharPtr_at_plus (mem : Nat → Nat) (a n : Nat) :
    (CharPtr.at mem a).plus n = CharPtr.at mem (a + n) := by
  funext i
  simp only [CharPtr.plus, CharPtr.at, Nat.add_assoc]

theorem GetVarint32Ptr_of_BytesAt (mem : Nat → Nat) (a v : Nat) (hv : v < 2 ^ 32)
    (h : BytesAt mem a (EncodeVarint32 v)) :
    GetVarint32Ptr (CharPtr.at mem a) 5 = some ((EncodeVarint32 v).length, v) :=
  GetVarint32Ptr_EncodeVarint32 v hv _ h

/-- `GetLengthPrefixedSlice` reads back a length-prefixed byte string. -/
theorem GetLengthPrefixedSlice_of_BytesAt (mem : Nat → Nat) (a : Nat) (body : List Nat)
    (hv : body.length < 2 ^ 32) (h : BytesAt mem a (EncodeVarint32 body.length ++ body)) :
    GetLengthPrefixedSlice (CharPtr.at mem a) = body := by
  unfold GetLengthPrefixedSlice
  rw [GetVarint32Ptr_of_BytesAt mem a _ hv (BytesAt_left _ _ _ _ h)]
  simp only [CharPtr_at_plus]
  exact slice_of_BytesAt _ _ _ (BytesAt_right _ _ _ _ h)

theorem BytesAt_ofBytes (bs : List Nat) : BytesAt (CharPtr.ofBytes bs) 0 bs := by
  intro i _
  simp only [CharPtr.ofBytes, Nat.zero_add]

theorem CharPtr_at_zero (p : CharPtr) : CharPtr.at p 0 = p := by
  funext i
  simp only [CharPtr.at, Nat.zero_add]

/-- The internal key read from a record in memory. -/
theorem GetLengthPrefixedSlice_entry (mem : Nat → Nat) (a : Nat) (r : Rec)
    (hwf : r.wellFormed) (h : BytesAt mem a r.bytes) :
    GetLengthPrefixedSlice (CharPtr.at mem a) = r.key ++ EncodeFixed64 r.tag := by
  have h1 : BytesAt mem a (EncodeVarint32 (r.key ++ EncodeFixed64 r.tag).length ++
      (r.key ++ EncodeFixed64 r.tag)) := by
    have e : r.bytes = (EncodeVarint32 (r.key ++ EncodeFixed64 r.tag).length ++
        (r.key ++ EncodeFixed64 r.tag)) ++ (EncodeVarint32 r.value.length ++ r.value) := by
      simp only [Rec.bytes, entryBytes, Rec.tag, List.length_append, EncodeFixed64_length,
        List.append_assoc]
    rw [e] at h
    exact BytesAt_left _ _ _ _ h
  exact GetLengthPrefixedSlice_of_BytesAt mem a _
    (by simp only [List.length_append, EncodeFixed64_length]; exact hwf.2.1) h1

/-- The internal key read from the `memtable_key` of a lookup key. -/
theorem GetLengthPrefixedSlice_memtable_key (k : LookupKey)
    (hk : k.user_key.length + 8 < 2 ^ 32) :
    GetLengthPrefixedSlice (CharPtr.ofBytes k.memtable_key) =
      k.user_key ++ EncodeFixed64 k.target.tag := by
  have h := BytesAt_ofBytes k.memtable_key
  have e : k.memtable_key = EncodeVarint32 (k.user_key ++ EncodeFixed64 k.target.tag).length ++
      (k.user_key ++ EncodeFixed64 k.target.tag) := by
    simp only [LookupKey.memtable_key, LookupKey.target, Rec.tag, List.length_append,
      EncodeFixed64_length, List.append_assoc]
  have h1 : BytesAt (CharPtr.ofBytes k.memtable_key) 0
      (EncodeVarint32 (k.user_key ++ EncodeFixed64 k.target.tag).length ++
        (k.user_key ++ EncodeFixed64 k.target.tag)) := by
    rw [← e]; exact h
  have h2 := GetLengthPrefixedSlice_of_BytesAt (CharPtr.ofBytes k.memtable_key) 0
    (k.user_key ++ EncodeFixed64 k.target.tag)
    (by simp only [List.length_append, EncodeFixed64_length]; exact hk) h1
  rw [CharPtr_at_zero] at h2
  exact h2

theorem Rec_tag_eq (r : Rec) (h : r.seq < 2 ^ 56) : r.tag = 256 * r.seq + r.type.toNat :=
  PackSequenceAndType_eq _ _ h

theorem Rec_tag_lt (r : Rec) (h : r.seq < 2 ^ 56) : r.tag < 2 ^ 64 :=
  PackSequenceAndType_lt _ _ h

/-- `InternalKeyComparator::Compare` on two internal keys is the order on records. -/
theorem InternalKeyComparator_Compare_eq (ucmp : List Nat → List Nat → Int) (a b : Rec)
    (ha : a.seq < 2 ^ 56) (hb : b.seq < 2 ^ 56) :
    InternalKeyComparator.Compare ucmp (a.key ++ EncodeFixed64 a.tag)
      (b.key ++ EncodeFixed64 b.tag) = Rec.compare ucmp a b := by
  have ex : ∀ r : Rec, ExtractUserKey (r.key ++ EncodeFixed64 r.tag) = r.key := by
    intro r
    simp only [ExtractUserKey, List.length_append, EncodeFixed64_length, Nat.add_sub_cancel,
      List.take_left']
  have dr : ∀ r : Rec, r.seq < 2 ^ 56 →
      DecodeFixed64 (CharPtr.ofBytes ((r.key ++ EncodeFixed64 r.tag).drop
        ((r.key ++ EncodeFixed64 r.tag).length - 8))) = r.tag := by
    intro r hr
    have e : (r.key ++ EncodeFixed64 r.tag).drop ((r.key ++ EncodeFixed64 r.tag).length - 8) =
        EncodeFixed64 r.tag := by
      simp only [List.length_append, EncodeFixed64_length, Nat.add_sub_cancel,
        List.drop_left']
    rw [e]
    exact DecodeFixed64_EncodeFixed64 _ (Rec_tag_lt r hr) _ (fun i _ => rfl)
  simp only [InternalKeyComparator.Compare, ex, dr a ha, dr b hb, Rec.compare]


theorem KeyComparator_entries (ucmp : List Nat → List Nat → Int) (mem : Nat → Nat)
    (a b : Nat) (ra rb : Rec) (ha : ra.wellFormed) (hb : rb.wellFormed)
    (h1 : BytesAt mem a ra.bytes) (h2 : BytesAt mem b rb.bytes) :
    KeyComparator ucmp (CharPtr.at mem a) (CharPtr.at mem b) = Rec.compare ucmp ra rb := by
  unfold KeyComparator
  rw [GetLengthPrefixedSlice_entry mem a ra ha h1, GetLengthPrefixedSlice_entry mem b rb hb h2,
    InternalKeyComparator_Compare_eq ucmp ra rb ha.1 hb.1]

theorem KeyComparator_target (ucmp : List Nat → List Nat → Int) (mem : Nat → Nat)
    (a : Nat) (ra : Rec) (k : LookupKey) (ha : ra.wellFormed)
    (hk : k.user_key.length + 8 < 2 ^ 32) (hs : k.sequence < 2 ^ 56)
    (h1 : BytesAt mem a ra.bytes) :
    KeyComparator ucmp (CharPtr.at mem a) (CharPtr.ofBytes k.memtable_key) =
      Rec.compare ucmp ra k.target := by
  unfold KeyComparator
  rw [GetLengthPrefixedSlice_entry mem a ra ha h1, GetLengthPrefixedSlice_memtable_key k hk]
  exact InternalKeyComparator_Compare_eq ucmp ra k.target ha.1 hs

/-- The four fields of a record in memory. -/
theorem BytesAt_entry (mem : Nat → Nat) (a : Nat) (r : Rec) (h : BytesAt mem a r.bytes) :
    BytesAt mem a (EncodeVarint32 (r.key.length + 8)) ∧
    BytesAt mem (a + (EncodeVarint32 (r.key.length + 8)).length) r.key ∧
    BytesAt mem (a + (EncodeVarint32 (r.key.length + 8)).length + r.key.length)
      (EncodeFixed64 r.tag) ∧
    BytesAt mem (a + (EncodeVarint32 (r.key.length + 8)).length + r.key.length + 8)
      (EncodeVarint32 r.value.length ++ r.value) := by
  have e : r.bytes = EncodeVarint32 (r.key.length + 8) ++ (r.key ++ (EncodeFixed64 r.tag ++
      (EncodeVarint32 r.value.length ++ r.value))) := by
    simp only [Rec.bytes, entryBytes, Rec.tag, List.append_assoc]
  rw [e] at h
  have h2 := BytesAt_right _ _ _ _ h
  have h3 := BytesAt_right _ _ _ _ h2
  have h4 := BytesAt_right _ _ _ _ h3
  rw [EncodeFixed64_length] at h4
  exact ⟨BytesAt_left _ _ _ _ h, BytesAt_left _ _ _ _ h2, BytesAt_left _ _ _ _ h3, h4⟩

/-- What `Get` computes once the seek has stopped on the entry of a record. -/
theorem Get_of_entry (ucmp : List Nat → List Nat → Int) (t : PmTable) (key : LookupKey)
    (e : Nat) (r : Rec) (hwf : r.wellFormed) (hb : BytesAt t.pm.bytes e r.bytes)
    (hpos : t.table_.get? (SkipList.FindGreaterOrEqual
      (fun x => KeyComparator ucmp (CharPtr.at t.pm.bytes x)
        (CharPtr.ofBytes key.memtable_key)) t.table_) = some e) :
    PmTable.Get ucmp t key =
      if ucmp r.key key.user_key = 0 then
        (match r.type with
          | .kTypeValue => ⟨true, some r.value, none⟩
          | .kTypeDeletion => ⟨true, none, some Status.NotFound⟩)
      else ⟨false, none, none⟩ := by
  obtain ⟨b1, b2, b3, b4⟩ := BytesAt_entry _ _ _ hb
  have d1 := GetVarint32Ptr_of_BytesAt t.pm.bytes e (r.key.length + 8) hwf.2.1 b1
  have hl : (r.key.length + 8 + 2 ^ 32 - 8) % 2 ^ 32 = r.key.length := by
    have := hwf.2.1
    omega
  have d2 := slice_of_BytesAt _ _ _ b2
  have ha : e + (EncodeVarint32 (r.key.length + 8)).length + (r.key.length + 8) - 8 =
      e + (EncodeVarint32 (r.key.length + 8)).length + r.key.length := by omega
  have d3 : DecodeFixed64 (CharPtr.at t.pm.bytes
      (e + (EncodeVarint32 (r.key.length + 8)).length + r.key.length)) = r.tag :=
    DecodeFixed64_EncodeFixed64 _ (Rec_tag_lt r hwf.1) _ (fun i hi => b3 i hi)
  have hb4 : e + (EncodeVarint32 (r.key.length + 8)).length + (r.key.length + 8) =
      e + (EncodeVarint32 (r.key.length + 8)).length + r.key.length + 8 := by omega
  have d4 := GetLengthPrefixedSlice_of_BytesAt _ _ _ hwf.2.2 b4
  have d5 : r.tag &&& 0xff = r.type.toNat := by
    rw [and_255, Rec_tag_eq r hwf.1]
    have : r.type.toNat < 256 := by cases r.type <;> simp [ValueType.toNat]
    omega
  unfold PmTable.Get
  simp only [hpos, d1, hl, d2, ha, hb4, Nat.add_sub_cancel, d3, d4, d5]
  cases hty : r.type <;> simp only [ValueType.toNat]

/-- What `Get` computes when the seek runs off the end of the index. -/
theorem Get_of_none (ucmp : List Nat → List Nat → Int) (t : PmTable) (key : LookupKey)
    (hpos : t.table_.get? (SkipList.FindGreaterOrEqual
      (fun x => KeyComparator ucmp (CharPtr.at t.pm.bytes x)
        (CharPtr.ofBytes key.memtable_key)) t.table_) = none) :
    PmTable.Get ucmp t key = ⟨false, none, none⟩ := by
  unfold PmTable.Get
  simp only [hpos]


/-! ## The internal-key order -/

theorem Rec_compare_lt_iff (ucmp : List Nat → List Nat → Int) (hu : TotalOrderCmp ucmp)
    (a b : Rec) :
    Rec.compare ucmp a b < 0 ↔ (ucmp a.key b.key < 0 ∨ (a.key = b.key ∧ b.tag < a.tag)) := by
  unfold Rec.compare
  by_cases h0 : ucmp a.key b.key = 0
  · have hk := (hu.eq_zero _ _).mp h0
    simp only [h0, if_true, gt_iff_lt, lt_self_iff_false, false_or, hk, true_and]
    split_ifs <;> simp_all
  · have hk : a.key ≠ b.key := fun h => h0 ((hu.eq_zero _ _).mpr h)
    simp only [h0, if_false, hk, false_and, or_false]

theorem Rec_compare_nonneg_iff (ucmp : List Nat → List Nat → Int) (hu : TotalOrderCmp ucmp)
    (a b : Rec) :
    0 ≤ Rec.compare ucmp a b ↔ (0 < ucmp a.key b.key ∨ (a.key = b.key ∧ a.tag ≤ b.tag)) := by
  have h := Rec_compare_lt_iff ucmp hu a b
  constructor
  · intro h1
    have h2 : ¬ (Rec.compare ucmp a b < 0) := by omega
    rw [h] at h2
    push_neg at h2
    by_cases h0 : ucmp a.key b.key = 0
    · have hk := (hu.eq_zero _ _).mp h0
      exact Or.inr ⟨hk, h2.2 hk⟩
    · left
      have := h2.1
      omega
  · intro h1
    have h2 : ¬ (Rec.compare ucmp a b < 0) := by
      rw [h]
      push_neg
      rcases h1 with h1 | ⟨hk, ht⟩
      · refine ⟨by omega, fun hk => ?_⟩
        have := (hu.eq_zero _ _).mpr hk
        omega
      · exact ⟨by rw [(hu.eq_zero _ _).mpr hk], fun _ => ht⟩
    omega

theorem Rec_compare_trans (ucmp : List Nat → List Nat → Int) (hu : TotalOrderCmp ucmp)
    (a b c : Rec) (h1 : Rec.compare ucmp a b < 0) (h2 : Rec.compare ucmp b c < 0) :
    Rec.compare ucmp a c < 0 := by
  rw [Rec_compare_lt_iff ucmp hu] at h1 h2 ⊢
  rcases h1 with h1 | ⟨k1, t1⟩ <;> rcases h2 with h2 | ⟨k2, t2⟩
  · exact Or.inl (hu.trans _ _ _ h1 h2)
  · exact Or.inl (by rw [← k2]; exact h1)
  · exact Or.inl (by rw [k1]; exact h2)
  · exact Or.inr ⟨k1.trans k2, by omega⟩

/-- Two records that differ in user key or tag are strictly ordered one way or the
other. -/
theorem Rec_compare_flip (ucmp : List Nat → List Nat → Int) (hu : TotalOrderCmp ucmp)
    (a b : Rec) (h1 : 0 ≤ Rec.compare ucmp a b) (hne : a.key = b.key → a.tag ≠ b.tag) :
    Rec.compare ucmp b a < 0 := by
  rw [Rec_compare_nonneg_iff ucmp hu] at h1
  rw [Rec_compare_lt_iff ucmp hu]
  rcases h1 with h1 | ⟨hk, ht⟩
  · exact Or.inl ((hu.flip _ _).mpr h1)
  · exact Or.inr ⟨hk.symm, by have := hne hk; omega⟩

theorem tag_ne_of_distinct (a b : Rec) (ha : a.seq < 2 ^ 56) (hb : b.seq < 2 ^ 56)
    (hd : Rec.distinct a b) : a.key = b.key → a.tag ≠ b.tag := by
  intro hk ht
  have h1 := hd hk
  rw [Rec_tag_eq a ha, Rec_tag_eq b hb] at ht
  have h2 : a.type.toNat < 256 := by cases a.type <;> simp [ValueType.toNat]
  have h3 : b.type.toNat < 256 := by cases b.type <;> simp [ValueType.toNat]
  omega

/-! ## The index as a sorted list of records -/

theorem insertIdx_map_fst (cmp : Nat → Int) (f : Rec → Int) (e : Nat × Rec)
    (idx : List (Nat × Rec)) (h : ∀ x, x ∈ idx → cmp x.1 = f x.2) :
    SkipList.Insert cmp e.1 (idx.map Prod.fst) = (insertIdx f e idx).map Prod.fst := by
  induction idx with
  | nil => rfl
  | cons x xs ih =>
    have hx := h x (List.mem_cons_self _ _)
    have ih1 := ih (fun y hy => h y (List.mem_cons_of_mem _ hy))
    simp only [List.map_cons, SkipList.Insert, insertIdx, hx]
    split_ifs
    · simp only [List.map_cons, ih1]
    · simp only [List.map_cons]

theorem mem_insertIdx (f : Rec → Int) (e : Nat × Rec) (idx : List (Nat × Rec))
    (x : Nat × Rec) : x ∈ insertIdx f e idx ↔ x = e ∨ x ∈ idx := by
  induction idx with
  | nil => simp [insertIdx]
  | cons y ys ih =>
    simp only [insertIdx]
    split_ifs
    · simp only [List.mem_cons, ih]
      tauto
    · simp only [List.mem_cons]

theorem insertIdx_sorted (ucmp : List Nat → List Nat → Int) (hu : TotalOrderCmp ucmp)
    (e : Nat × Rec) (idx : List (Nat × Rec))
    (hs : idx.Pairwise (fun x y => Rec.compare ucmp x.2 y.2 < 0))
    (hne : ∀ x, x ∈ idx → (x.2.key = e.2.key → x.2.tag ≠ e.2.tag)) :
    (insertIdx (fun r => Rec.compare ucmp r e.2) e idx).Pairwise
      (fun x y => Rec.compare ucmp x.2 y.2 < 0) := by
  induction idx with
  | nil => simp [insertIdx]
  | cons y ys ih =>
    rw [List.pairwise_cons] at hs
    simp only [insertIdx]
    split_ifs with hy
    · rw [List.pairwise_cons]
      refine ⟨?_, ih hs.2 (fun x hx => hne x (List.mem_cons_of_mem _ hx))⟩
      intro z hz
      rcases (mem_insertIdx _ _ _ _).mp hz with hz | hz
      · rw [hz]; exact hy
      · exact hs.1 z hz
    · have hey : Rec.compare ucmp e.2 y.2 < 0 :=
        Rec_compare_flip ucmp hu y.2 e.2 (by omega) (hne y (List.mem_cons_self _ _))
      rw [List.pairwise_cons]
      refine ⟨?_, List.pairwise_cons.mpr hs⟩
      intro z hz
      rcases List.mem_cons.mp hz with hz | hz
      · rw [hz]; exact hey
      · exact Rec_compare_trans ucmp hu _ _ _ hey (hs.1 z hz)

/-- The seek on the index, read on the records: the first pair whose record is not
before the target. -/
theorem FindGreaterOrEqual_find (cmp : Nat → Int) (g : Rec → Int) (idx : List (Nat × Rec))
    (h : ∀ x, x ∈ idx → cmp x.1 = g x.2) :
    (idx.map Prod.fst).get? (SkipList.FindGreaterOrEqual cmp (idx.map Prod.fst)) =
      (idx.find? (fun x => decide (0 ≤ g x.2))).map Prod.fst := by
  induction idx with
  | nil => rfl
  | cons x xs ih =>
    have hx := h x (List.mem_cons_self _ _)
    have ih1 := ih (fun y hy => h y (List.mem_cons_of_mem _ hy))
    simp only [List.map_cons, SkipList.FindGreaterOrEqual, hx, List.find?_cons]
    by_cases hg : g x.2 < 0
    · have : decide (0 ≤ g x.2) = false := by simp; omega
      simp only [hg, if_true, List.get?_cons_succ, this, ih1]
    · have : decide (0 ≤ g x.2) = true := by simp; omega
      simp only [hg, if_false, List.get?_cons_zero, this, Option.map_some']

/-- In a sorted index the seek stops on the least record that is not before the
target. -/
theorem find_first (ucmp : List Nat → List Nat → Int) (g : Rec → Int)
    (idx : List (Nat × Rec))
    (hs : idx.Pairwise (fun x y => Rec.compare ucmp x.2 y.2 < 0))
    (x : Nat × Rec) (hx : x ∈ idx) (hg : 0 ≤ g x.2) :
    ∃ y, idx.find? (fun x => decide (0 ≤ g x.2)) = some y ∧ y ∈ idx ∧ 0 ≤ g y.2 ∧
      (y = x ∨ Rec.compare ucmp y.2 x.2 < 0) := by
  induction idx with
  | nil => cases hx
  | cons a rest ih =>
    rw [List.pairwise_cons] at hs
    by_cases ha : 0 ≤ g a.2
    · refine ⟨a, by simp [List.find?_cons, ha], List.mem_cons_self _ _, ha, ?_⟩
      rcases List.mem_cons.mp hx with h | h
      · exact Or.inl h.symm
      · exact Or.inr (hs.1 x h)
    · have hxr : x ∈ rest := by
        rcases List.mem_cons.mp hx with h | h
        · rw [h] at hg; exact absurd hg ha
        · exact h
      obtain ⟨y, h1, h2, h3, h4⟩ := ih hs.2 hxr
      exact ⟨y, by simp [List.find?_cons, ha, h1], List.mem_cons_of_mem _ h2, h3, h4⟩


/-! ## The index invariant along `Add` -/

theorem IndexInv_ctor (cfg : Config) (ucmp : List Nat → List Nat → Int)
    (pmLogHead member_addr : Nat) (region : Pmem) :
    IndexInv ucmp (PmTable.ctor cfg pmLogHead member_addr region) [] :=
  { table := rfl
    entries := fun e he => by cases he
    sorted := List.Pairwise.nil }

theorem IndexInv_Add (cfg : Config) (ucmp : List Nat → List Nat → Int)
    (hu : TotalOrderCmp ucmp) (t : PmTable) (idx : List (Nat × Rec)) (r : Rec)
    (hinv : IndexInv ucmp t idx) (hwf : r.wellFormed)
    (hd : ∀ x, x ∈ idx → Rec.distinct x.2 r)
    (hfit : encodedLen r.key r.value + t.nvmArena_.MemoryUsage < cfg.PM_LOG_SIZE) :
    IndexInv ucmp (PmTable.Add cfg ucmp t r.seq r.type r.key r.value).2
      (insertIdx (fun x => Rec.compare ucmp x r) (t.nvmArena_.kv_alloc_ptr_, r) idx) := by
  have hc := Allocate_cursor cfg t.nvmArena_ t.pm (encodedLen r.key r.value)
  have hlen : r.bytes.length = encodedLen r.key r.value :=
    entryBytes_length r.seq r.type r.key r.value hwf.2.1 hwf.2.2
  have hnew : BytesAt (storeBytes t.pm.bytes t.nvmArena_.kv_alloc_ptr_ r.bytes)
      t.nvmArena_.kv_alloc_ptr_ r.bytes := storeBytes_inside _ _ _
  have hold : ∀ x, x ∈ idx →
      BytesAt (storeBytes t.pm.bytes t.nvmArena_.kv_alloc_ptr_ r.bytes) x.1 x.2.bytes := by
    intro x hx i hi
    have hb := hinv.entries x hx
    rw [storeBytes_outside _ _ _ _ (Or.inl (by omega))]
    exact hb.1 i hi
  rw [Add_of_fit cfg ucmp t r.seq r.type r.key r.value hfit]
  refine ⟨?_, ?_, ?_⟩
  · show SkipList.Insert _ t.nvmArena_.kv_alloc_ptr_ t.table_ = _
    rw [hinv.table]
    exact insertIdx_map_fst _ (fun x => Rec.compare ucmp x r) (t.nvmArena_.kv_alloc_ptr_, r) idx
      (fun x hx => KeyComparator_entries ucmp _ _ _ x.2 r (hinv.entries x hx).2.2 hwf
        (hold x hx) hnew)
  · intro e he
    show BytesAt (storeBytes t.pm.bytes t.nvmArena_.kv_alloc_ptr_ r.bytes) e.1 e.2.bytes ∧
      e.1 + e.2.bytes.length ≤
        (t.nvmArena_.Allocate cfg t.pm (encodedLen r.key r.value)).2.1.kv_alloc_ptr_ ∧
      e.2.wellFormed
    rw [hc.1]
    rcases (mem_insertIdx _ _ _ _).mp he with h | h
    · rw [h]
      exact ⟨hnew, by show t.nvmArena_.kv_alloc_ptr_ + r.bytes.length ≤ _; omega, hwf⟩
    · have hb := hinv.entries e h
      exact ⟨hold e h, by omega, hb.2.2⟩
  · exact insertIdx_sorted ucmp hu (t.nvmArena_.kv_alloc_ptr_, r) idx hinv.sorted
      (fun x hx => tag_ne_of_distinct x.2 r (hinv.entries x hx).2.2.1 hwf.1 (hd x hx))

/-- After a run of successful `Add` calls the index holds exactly the records that were
there before and the added ones. -/
theorem IndexInv_AddAll (cfg : Config) (ucmp : List Nat → List Nat → Int)
    (hu : TotalOrderCmp ucmp) (ops : List Rec) :
    ∀ (t : PmTable) (idx : List (Nat × Rec)), IndexInv ucmp t idx →
      (∀ r, r ∈ ops → r.wellFormed) →
      (∀ x, x ∈ idx → ∀ r, r ∈ ops → Rec.distinct x.2 r) →
      ops.Pairwise Rec.distinct →
      (PmTable.AddAll cfg ucmp t ops).1 = true →
      ∃ idx1, IndexInv ucmp (PmTable.AddAll cfg ucmp t ops).2 idx1 ∧
        ∀ r, r ∈ idx1.map Prod.snd ↔ (r ∈ idx.map Prod.snd ∨ r ∈ ops) := by
  induction ops with
  | nil =>
    intro t idx hinv _ _ _ _
    exact ⟨idx, hinv, fun r => by simp⟩
  | cons r rest ih =>
    intro t idx hinv hwf hdi hdo hok
    simp only [PmTable.AddAll, Bool.and_eq_true] at hok ⊢
    have hfit : encodedLen r.key r.value + t.nvmArena_.MemoryUsage < cfg.PM_LOG_SIZE := by
      have h1 := hok.1
      rw [Add_fst] at h1
      exact of_decide_eq_true h1
    rw [List.pairwise_cons] at hdo
    have hinv1 := IndexInv_Add cfg ucmp hu t idx r hinv (hwf r (List.mem_cons_self _ _))
      (fun x hx => hdi x hx r (List.mem_cons_self _ _)) hfit
    obtain ⟨idx1, h1, h2⟩ := ih _ _ hinv1 (fun x hx => hwf x (List.mem_cons_of_mem _ hx))
      (by
        intro x hx q hq
        rcases (mem_insertIdx _ _ _ _).mp hx with h | h
        · rw [h]; exact hdo.1 q hq
        · exact hdi x h q (List.mem_cons_of_mem _ hq))
      hdo.2 hok.2
    refine ⟨idx1, h1, fun q => ?_⟩
    rw [h2 q]
    simp only [List.mem_map, mem_insertIdx, List.mem_cons, Prod.exists, exists_eq_right]
    constructor
    · rintro (⟨a, h | h⟩ | h)
      · right; left; exact (Prod.mk.inj h).2
      · left; exact ⟨a, h⟩
      · right; right; exact h
    · rintro (⟨a, h⟩ | h | h)
      · left; exact ⟨a, Or.inr h⟩
      · left; exact ⟨t.nvmArena_.kv_alloc_ptr_, Or.inl (by rw [h])⟩
      · right; exact h


/-! ## `Get` -/

theorem ValueType_toNat_le (ty : ValueType) : ty.toNat ≤ 1 := by
  cases ty <;> simp [ValueType.toNat]

theorem target_tag (k : LookupKey) (hs : k.sequence < 2 ^ 56) :
    k.target.tag = 256 * k.sequence + 1 :=
  Rec_tag_eq k.target hs

/-- The seek of `Get`, read on the records of the index. -/
theorem Get_seek (ucmp : List Nat → List Nat → Int) (t : PmTable) (idx : List (Nat × Rec))
    (hinv : IndexInv ucmp t idx) (key : LookupKey)
    (hk : key.user_key.length + 8 < 2 ^ 32) (hs : key.sequence < 2 ^ 56) :
    t.table_.get? (SkipList.FindGreaterOrEqual
      (fun x => KeyComparator ucmp (CharPtr.at t.pm.bytes x)
        (CharPtr.ofBytes key.memtable_key)) t.table_) =
      (idx.find? (fun x => decide (0 ≤ Rec.compare ucmp x.2 key.target))).map Prod.fst := by
  rw [hinv.table]
  exact FindGreaterOrEqual_find _ (fun x => Rec.compare ucmp x key.target) idx
    (fun x hx => KeyComparator_target ucmp _ _ x.2 key (hinv.entries x hx).2.2 hk hs
      (hinv.entries x hx).1)

/-- When the index holds a record of the user key at or below the queried sequence,
`Get` answers from the newest such record. -/
theorem Get_newest_record (ucmp : List Nat → List Nat → Int) (hu : TotalOrderCmp ucmp)
    (t : PmTable) (idx : List (Nat × Rec)) (hinv : IndexInv ucmp t idx)
    (hdist : ∀ x, x ∈ idx → ∀ y, y ∈ idx → x.2.key = y.2.key → x.2.seq = y.2.seq → x.2 = y.2)
    (k : List Nat) (s : Nat) (hs : s < 2 ^ 56)
    (x : Nat × Rec) (hx : x ∈ idx) (hkey : x.2.key = k) (hseq : x.2.seq ≤ s)
    (hnew : ∀ y, y ∈ idx → y.2.key = k → y.2.seq ≤ s → y.2.seq ≤ x.2.seq) :
    PmTable.Get ucmp t ⟨k, s⟩ =
      (match x.2.type with
        | .kTypeValue => ⟨true, some x.2.value, none⟩
        | .kTypeDeletion => ⟨true, none, some Status.NotFound⟩) := by
  have hxwf := (hinv.entries x hx).2.2
  have hk : (LookupKey.mk k s).user_key.length + 8 < 2 ^ 32 := by
    show k.length + 8 < 2 ^ 32
    rw [← hkey]; exact hxwf.2.1
  have htag := target_tag ⟨k, s⟩ hs
  have hgx : 0 ≤ Rec.compare ucmp x.2 (LookupKey.mk k s).target := by
    rw [Rec_compare_nonneg_iff ucmp hu]
    right
    refine ⟨hkey, ?_⟩
    rw [htag, Rec_tag_eq x.2 hxwf.1]
    have := ValueType_toNat_le x.2.type
    show 256 * x.2.seq + x.2.type.toNat ≤ 256 * s + 1
    omega
  obtain ⟨y, hy1, hy2, hy3, hy4⟩ := find_first ucmp
    (fun r => Rec.compare ucmp r (LookupKey.mk k s).target) idx hinv.sorted x hx hgx
  have hywf := (hinv.entries y hy2).2.2
  have hyx : y.2 = x.2 := by
    rcases hy4 with h | h
    · rw [h]
    · exfalso
      rw [Rec_compare_nonneg_iff ucmp hu] at hy3
      rw [Rec_compare_lt_iff ucmp hu] at h
      have hyk : y.2.key = k ∧ y.2.tag ≤ 256 * s + 1 := by
        rcases hy3 with h3 | ⟨h3, h4⟩
        · exfalso
          have h3a : 0 < ucmp y.2.key k := h3
          rcases h with h5 | ⟨h5, _⟩
          · rw [hkey] at h5; omega
          · rw [h5, hkey, (hu.eq_zero k k).mpr rfl] at h3a; omega
        · exact ⟨h3, by rw [← htag]; exact h4⟩
      have hlt : x.2.tag < y.2.tag := by
        rcases h with h5 | ⟨_, h6⟩
        · rw [hyk.1, hkey, (hu.eq_zero k k).mpr rfl] at h5; omega
        · exact h6
      rw [Rec_tag_eq x.2 hxwf.1, Rec_tag_eq y.2 hywf.1] at hlt
      have hyt := hyk.2
      rw [Rec_tag_eq y.2 hywf.1] at hyt
      have b1 := ValueType_toNat_le x.2.type
      have b2 := ValueType_toNat_le y.2.type
      have hys : y.2.seq ≤ s := by omega
      have hle := hnew y hy2 hyk.1 hys
      have heq : y.2.seq = x.2.seq := by omega
      have := hdist y hy2 x hx (by rw [hyk.1, hkey]) heq
      rw [this] at hlt
      omega
  have hpos := Get_seek ucmp t idx hinv ⟨k, s⟩ hk hs
  rw [hy1] at hpos
  rw [Get_of_entry ucmp t ⟨k, s⟩ y.1 y.2 hywf (hinv.entries y hy2).1 hpos, hyx]
  have h0 : ucmp x.2.key (LookupKey.mk k s).user_key = 0 := (hu.eq_zero _ _).mpr hkey
  exact (if_pos h0).trans (by cases x.2.type <;> rfl)

/-- When the index holds no record of the user key at or below the queried sequence,
`Get` returns false and writes nothing. -/
theorem Get_no_record (ucmp : List Nat → List Nat → Int) (hu : TotalOrderCmp ucmp)
    (t : PmTable) (idx : List (Nat × Rec)) (hinv : IndexInv ucmp t idx)
    (k : List Nat) (s : Nat) (hk : k.length + 8 < 2 ^ 32) (hs : s < 2 ^ 56)
    (hnone : ∀ y, y ∈ idx → y.2.key = k → s < y.2.seq) :
    PmTable.Get ucmp t ⟨k, s⟩ = ⟨false, none, none⟩ := by
  have hpos := Get_seek ucmp t idx hinv ⟨k, s⟩ hk hs
  have htag := target_tag ⟨k, s⟩ hs
  cases hf : idx.find? (fun x => decide (0 ≤ Rec.compare ucmp x.2 (LookupKey.mk k s).target)) with
  | none =>
    rw [hf] at hpos
    exact Get_of_none ucmp t ⟨k, s⟩ hpos
  | some y =>
    rw [hf] at hpos
    have hy2 : y ∈ idx := List.mem_of_find?_eq_some hf
    have hy3 : 0 ≤ Rec.compare ucmp y.2 (LookupKey.mk k s).target := by
      have := List.find?_some hf
      exact of_decide_eq_true this
    have hywf := (hinv.entries y hy2).2.2
    rw [Get_of_entry ucmp t ⟨k, s⟩ y.1 y.2 hywf (hinv.entries y hy2).1 hpos]
    have hne : ¬ (ucmp y.2.key (LookupKey.mk k s).user_key = 0) := by
      intro h0
      have hyk : y.2.key = k := (hu.eq_zero _ _).mp h0
      rw [Rec_compare_nonneg_iff ucmp hu] at hy3
      have hlt := hnone y hy2 hyk
      rcases hy3 with h3 | ⟨_, h4⟩
      · have h3a : 0 < ucmp y.2.key k := h3
        rw [hyk, (hu.eq_zero k k).mpr rfl] at h3a; omega
      · rw [htag, Rec_tag_eq y.2 hywf.1] at h4
        have h5 : 256 * y.2.seq + y.2.type.toNat ≤ 256 * s + 1 := h4
        omega
    rw [if_neg hne]

/-- Two added records with the same user key and sequence number are one record. -/
theorem eq_of_distinct (ops : List Rec) (hd : ops.Pairwise Rec.distinct) (a b : Rec)
    (ha : a ∈ ops) (hb : b ∈ ops) (hk : a.key = b.key) (hs : a.seq = b.seq) : a = b := by
  by_contra hne
  have hsym : ∀ x y : Rec, Rec.distinct x y → Rec.distinct y x :=
    fun x y h hyx heq => h hyx.symm heq.symm
  have := List.Pairwise.forall hsym hd ha hb hne
  exact this hk hs


/-! ## The bytewise comparator -/

theorem Slice_compare_eq_zero : ∀ a b : List Nat, Slice.compare a b = 0 ↔ a = b := by
  intro a
  induction a with
  | nil => intro b; cases b <;> simp [Slice.compare]
  | cons x xs ih =>
    intro b
    cases b with
    | nil => simp [Slice.compare]
    | cons y ys =>
      simp only [Slice.compare, List.cons.injEq]
      split_ifs with h1 h2
      · simp; omega
      · simp; omega
      · rw [ih ys]
        have : x = y := by omega
        simp [this]

theorem Slice_compare_flip : ∀ a b : List Nat, Slice.compare a b < 0 ↔ 0 < Slice.compare b a := by
  intro a
  induction a with
  | nil => intro b; cases b <;> simp [Slice.compare]
  | cons x xs ih =>
    intro b
    cases b with
    | nil => simp [Slice.compare]
    | cons y ys =>
      simp only [Slice.compare]
      split_ifs <;> first | omega | simp | exact ih ys

theorem Slice_compare_trans : ∀ a b c : List Nat,
    Slice.compare a b < 0 → Slice.compare b c < 0 → Slice.compare a c < 0 := by
  intro a
  induction a with
  | nil =>
    intro b c h1 h2
    cases b with
    | nil => simp [Slice.compare] at h1
    | cons y ys =>
      cases c with
      | nil => simp [Slice.compare] at h2
      | cons z zs => simp [Slice.compare]
  | cons x xs ih =>
    intro b c h1 h2
    cases b with
    | nil => simp [Slice.compare] at h1
    | cons y ys =>
      cases c with
      | nil => simp [Slice.compare] at h2
      | cons z zs =>
        simp only [Slice.compare] at h1 h2 ⊢
        split_ifs at h1 h2 ⊢ <;> first | omega | exact ih ys zs h1 h2

/-- The bytewise comparator is a total order. -/
theorem Slice_compare_total : TotalOrderCmp Slice.compare :=
  { eq_zero := Slice_compare_eq_zero
    flip := Slice_compare_flip
    trans := Slice_compare_trans }


/-! ## `Get` after a sequence of `Add` calls -/

/-- The index of a table built by successful `Add` calls on a fresh table. -/
theorem built_table_index (cfg : Config) (ucmp : List Nat → List Nat → Int)
    (hu : TotalOrderCmp ucmp) (pmLogHead member_addr : Nat) (region : Pmem) (ops : List Rec)
    (hwf : ∀ r, r ∈ ops → r.wellFormed) (hd : ops.Pairwise Rec.distinct)
    (hadd : (PmTable.AddAll cfg ucmp (PmTable.ctor cfg pmLogHead member_addr region) ops).1
      = true) :
    ∃ idx, IndexInv ucmp
        (PmTable.AddAll cfg ucmp (PmTable.ctor cfg pmLogHead member_addr region) ops).2 idx ∧
      (∀ x, x ∈ idx → x.2 ∈ ops) ∧ (∀ r, r ∈ ops → ∃ a, (a, r) ∈ idx) := by
  obtain ⟨idx, h1, h2⟩ := IndexInv_AddAll cfg ucmp hu ops _ []
    (IndexInv_ctor cfg ucmp pmLogHead member_addr region) hwf
    (fun x hx => by cases hx) hd hadd
  refine ⟨idx, h1, ?_, ?_⟩
  · intro x hx
    have := (h2 x.2).mp (List.mem_map.mpr ⟨x, hx, rfl⟩)
    simpa using this
  · intro r hr
    have := (h2 r).mpr (Or.inr hr)
    obtain ⟨x, hx, hxr⟩ := List.mem_map.mp this
    exact ⟨x.1, by rw [← hxr]; exact hx⟩

/-- C1: after any sequence of successful `Add` calls on a fresh table, with distinct
sequence numbers per user key and a total-order user comparator, if the record `r`
is the one with the largest sequence among the added records with user key `k` and
sequence at most `s`, and `r` has type VALUE, then `Get` for `(k, s)` returns true
and stores the value bytes of `r`; the status is not written.  Records of other
user keys and records with a sequence above `s` are unconstrained and have no
influence. -/
theorem Get_returns_newest_value (cfg : Config) (ucmp : List Nat → List Nat → Int)
    (hu : TotalOrderCmp ucmp) (pmLogHead member_addr : Nat) (region : Pmem) (ops : List Rec)
    (hwf : ∀ r, r ∈ ops → r.wellFormed) (hd : ops.Pairwise Rec.distinct)
    (hadd : (PmTable.AddAll cfg ucmp (PmTable.ctor cfg pmLogHead member_addr region) ops).1
      = true)
    (k : List Nat) (s : Nat) (hs : s < 2 ^ 56)
    (r : Rec) (hr : r ∈ ops) (hkey : r.key = k) (hseq : r.seq ≤ s)
    (hnew : ∀ q, q ∈ ops → q.key = k → q.seq ≤ s → q.seq ≤ r.seq)
    (hty : r.type = ValueType.kTypeValue) :
    PmTable.Get ucmp
        (PmTable.AddAll cfg ucmp (PmTable.ctor cfg pmLogHead member_addr region) ops).2 ⟨k, s⟩ =
      ⟨true, some r.value, none⟩ := by
  obtain ⟨idx, hinv, h1, h2⟩ := built_table_index cfg ucmp hu pmLogHead member_addr region ops
    hwf hd hadd
  obtain ⟨a, ha⟩ := h2 r hr
  have h := Get_newest_record ucmp hu _ idx hinv
    (fun x hx y hy hk hq => eq_of_distinct ops hd x.2 y.2 (h1 x hx) (h1 y hy) hk hq)
    k s hs (a, r) ha hkey hseq (fun y hy => hnew y.2 (h1 y hy))
  rw [h]
  show (match r.type with
    | .kTypeValue => (⟨true, some r.value, none⟩ : GetResult)
    | .kTypeDeletion => ⟨true, none, some Status.NotFound⟩) = _
  rw [hty]

theorem Get_returns_newest_value_witness :
    PmTable.Get Slice.compare
        (PmTable.AddAll exampleConfig Slice.compare
          (PmTable.ctor exampleConfig 0 5000 exampleRegion) exampleOps).2 ⟨[97], 1⟩ =
      ⟨true, some [49], none⟩ :=
  Get_returns_newest_value exampleConfig Slice.compare Slice_compare_total 0 5000 exampleRegion
    exampleOps (by decide) (by decide) (by decide) [97] 1 (by decide)
    ⟨1, ValueType.kTypeValue, [97], [49]⟩ (by decide) rfl (by decide) (by decide) rfl

/-- C4: after any sequence of successful `Add` calls on a fresh table, for a lookup
`(k, s)`: if the newest record with user key `k` and sequence at most `s` has type
DELETION, `Get` returns true, sets the status to NotFound and does not write the
value; if there is no record with user key `k` and sequence at most `s`, `Get`
returns false and writes neither the value nor the status. -/
theorem Get_deletion_and_absence (cfg : Config) (ucmp : List Nat → List Nat → Int)
    (hu : TotalOrderCmp ucmp) (pmLogHead member_addr : Nat) (region : Pmem) (ops : List Rec)
    (hwf : ∀ r, r ∈ ops → r.wellFormed) (hd : ops.Pairwise Rec.distinct)
    (hadd : (PmTable.AddAll cfg ucmp (PmTable.ctor cfg pmLogHead member_addr region) ops).1
      = true)
    (k : List Nat) (s : Nat) (hk : k.length + 8 < 2 ^ 32) (hs : s < 2 ^ 56) :
    (∀ r, r ∈ ops → r.key = k → r.seq ≤ s →
      (∀ q, q ∈ ops → q.key = k → q.seq ≤ s → q.seq ≤ r.seq) →
      r.type = ValueType.kTypeDeletion →
      PmTable.Get ucmp
          (PmTable.AddAll cfg ucmp (PmTable.ctor cfg pmLogHead member_addr region) ops).2
          ⟨k, s⟩ = ⟨true, none, some Status.NotFound⟩) ∧
    ((∀ q, q ∈ ops → q.key = k → ¬ (q.seq ≤ s)) →
      PmTable.Get ucmp
          (PmTable.AddAll cfg ucmp (PmTable.ctor cfg pmLogHead member_addr region) ops).2
          ⟨k, s⟩ = ⟨false, none, none⟩) := by
  obtain ⟨idx, hinv, h1, h2⟩ := built_table_index cfg ucmp hu pmLogHead member_addr region ops
    hwf hd hadd
  constructor
  · intro r hr hkey hseq hnew hty
    obtain ⟨a, ha⟩ := h2 r hr
    have h := Get_newest_record ucmp hu _ idx hinv
      (fun x hx y hy hk hq => eq_of_distinct ops hd x.2 y.2 (h1 x hx) (h1 y hy) hk hq)
      k s hs (a, r) ha hkey hseq (fun y hy => hnew y.2 (h1 y hy))
    rw [h]
    show (match r.type with
      | .kTypeValue => (⟨true, some r.value, none⟩ : GetResult)
      | .kTypeDeletion => ⟨true, none, some Status.NotFound⟩) = _
    rw [hty]
  · intro hnone
    exact Get_no_record ucmp hu _ idx hinv k s hk hs
      (fun y hy hyk => by have := hnone y.2 (h1 y hy) hyk; omega)

theorem Get_deletion_and_absence_witness :
    PmTable.Get Slice.compare
        (PmTable.AddAll exampleConfig Slice.compare
          (PmTable.ctor exampleConfig 0 5000 exampleRegion) exampleOps).2 ⟨[97], 2⟩ =
      ⟨true, none, some Status.NotFound⟩ ∧
    PmTable.Get Slice.compare
        (PmTable.AddAll exampleConfig Slice.compare
          (PmTable.ctor exampleConfig 0 5000 exampleRegion) exampleOps).2 ⟨[99], 5⟩ =
      ⟨false, none, none⟩ :=
  ⟨(Get_deletion_and_absence exampleConfig Slice.compare Slice_compare_total 0 5000
      exampleRegion exampleOps (by decide) (by decide) (by decide) [97] 2 (by decide)
      (by decide)).1 ⟨2, ValueType.kTypeDeletion, [97], []⟩ (by decide) rfl (by decide)
      (by decide) rfl,
    (Get_deletion_and_absence exampleConfig Slice.compare Slice_compare_total 0 5000
      exampleRegion exampleOps (by decide) (by decide) (by decide) [99] 5 (by decide)
      (by decide)).2 (by decide)⟩


/-! ## The running minimum and maximum, for non-empty keys -/

theorem ucmp_le_trans (ucmp : List Nat → List Nat → Int) (hu : TotalOrderCmp ucmp)
    (a b c : List Nat) (h1 : ucmp a b < 0) (h2 : ucmp b c ≤ 0) : ucmp a c ≤ 0 := by
  by_cases h0 : ucmp b c = 0
  · rw [← (hu.eq_zero _ _).mp h0]; omega
  · have := hu.trans a b c h1 (by omega)
    omega

theorem ucmp_le_trans_right (ucmp : List Nat → List Nat → Int) (hu : TotalOrderCmp ucmp)
    (a b c : List Nat) (h1 : ucmp a b ≤ 0) (h2 : ucmp b c < 0) : ucmp a c ≤ 0 := by
  by_cases h0 : ucmp a b = 0
  · rw [(hu.eq_zero _ _).mp h0]; omega
  · have := hu.trans a b c (by omega) h2
    omega

/-- The keys recorded by `Add` bound the keys added so far, as long as no added key is
empty. -/
theorem min_max_AddAll (cfg : Config) (ucmp : List Nat → List Nat → Int)
    (hu : TotalOrderCmp ucmp) (ops : List Rec) :
    ∀ (t : PmTable) (done : List Rec),
      (∀ r, r ∈ ops → r.key ≠ []) →
      ((done = [] ∧ t.min_key_ = [] ∧ t.max_key_ = []) ∨
        ((∃ r, r ∈ done ∧ r.key = t.min_key_) ∧ (∃ r, r ∈ done ∧ r.key = t.max_key_) ∧
          t.min_key_ ≠ [] ∧ t.max_key_ ≠ [] ∧
          ∀ r, r ∈ done → ucmp t.min_key_ r.key ≤ 0 ∧ ucmp r.key t.max_key_ ≤ 0)) →
      (PmTable.AddAll cfg ucmp t ops).1 = true →
      ((done ++ ops = [] ∧ (PmTable.AddAll cfg ucmp t ops).2.min_key_ = [] ∧
          (PmTable.AddAll cfg ucmp t ops).2.max_key_ = []) ∨
        ((∃ r, r ∈ done ++ ops ∧ r.key = (PmTable.AddAll cfg ucmp t ops).2.min_key_) ∧
          (∃ r, r ∈ done ++ ops ∧ r.key = (PmTable.AddAll cfg ucmp t ops).2.max_key_) ∧
          (PmTable.AddAll cfg ucmp t ops).2.min_key_ ≠ [] ∧
          (PmTable.AddAll cfg ucmp t ops).2.max_key_ ≠ [] ∧
          ∀ r, r ∈ done ++ ops →
            ucmp (PmTable.AddAll cfg ucmp t ops).2.min_key_ r.key ≤ 0 ∧
            ucmp r.key (PmTable.AddAll cfg ucmp t ops).2.max_key_ ≤ 0)) := by
  induction ops with
  | nil =>
    intro t done _ h _
    simpa [PmTable.AddAll] using h
  | cons r rest ih =>
    intro t done hne h hok
    simp only [PmTable.AddAll, Bool.and_eq_true] at hok ⊢
    have hfit : encodedLen r.key r.value + t.nvmArena_.MemoryUsage < cfg.PM_LOG_SIZE := by
      have h1 := hok.1
      rw [Add_fst] at h1
      exact of_decide_eq_true h1
    have hrk : r.key ≠ [] := hne r (List.mem_cons_self _ _)
    have hself : ucmp r.key r.key = 0 := (hu.eq_zero _ _).mpr rfl
    have hstep := ih (PmTable.Add cfg ucmp t r.seq r.type r.key r.value).2 (done ++ [r])
      (fun q hq => hne q (List.mem_cons_of_mem _ hq))
      (by
        right
        rw [Add_of_fit cfg ucmp t r.seq r.type r.key r.value hfit]
        show (∃ q, q ∈ done ++ [r] ∧ q.key =
              (if t.min_key_.isEmpty ∨ ucmp t.min_key_ r.key > 0 then r.key else t.min_key_)) ∧
            (∃ q, q ∈ done ++ [r] ∧ q.key =
              (if t.max_key_.isEmpty ∨ ucmp t.max_key_ r.key < 0 then r.key else t.max_key_)) ∧
            (if t.min_key_.isEmpty ∨ ucmp t.min_key_ r.key > 0 then r.key else t.min_key_) ≠ [] ∧
            (if t.max_key_.isEmpty ∨ ucmp t.max_key_ r.key < 0 then r.key else t.max_key_) ≠ [] ∧
            ∀ q, q ∈ done ++ [r] →
              ucmp (if t.min_key_.isEmpty ∨ ucmp t.min_key_ r.key > 0 then r.key
                else t.min_key_) q.key ≤ 0 ∧
              ucmp q.key (if t.max_key_.isEmpty ∨ ucmp t.max_key_ r.key < 0 then r.key
                else t.max_key_) ≤ 0
        rcases h with ⟨hd, hmin, hmax⟩ | ⟨⟨a, ha, hamin⟩, ⟨b, hb, hbmax⟩, hmin0, hmax0, hall⟩
        · have e1 : t.min_key_.isEmpty = true := by rw [hmin]; rfl
          have e2 : t.max_key_.isEmpty = true := by rw [hmax]; rfl
          simp only [e1, e2, true_or, if_true, hd, List.nil_append, List.mem_singleton]
          exact ⟨⟨r, rfl, rfl⟩, ⟨r, rfl, rfl⟩, hrk, hrk,
            fun q hq => by rw [hq]; exact ⟨by omega, by omega⟩⟩
        · have e1 : t.min_key_.isEmpty = false := by
            cases hm : t.min_key_ with
            | nil => exact absurd hm hmin0
            | cons _ _ => rfl
          have e2 : t.max_key_.isEmpty = false := by
            cases hm : t.max_key_ with
            | nil => exact absurd hm hmax0
            | cons _ _ => rfl
          simp only [e1, e2, Bool.false_eq_true, false_or]
          refine ⟨?_, ?_, ?_, ?_, ?_⟩
          · split_ifs
            · exact ⟨r, by simp, rfl⟩
            · exact ⟨a, List.mem_append_left _ ha, hamin⟩
          · split_ifs
            · exact ⟨r, by simp, rfl⟩
            · exact ⟨b, List.mem_append_left _ hb, hbmax⟩
          · split_ifs
            · exact hrk
            · exact hmin0
          · split_ifs
            · exact hrk
            · exact hmax0
          · intro q hq
            rcases List.mem_append.mp hq with hq | hq
            · have hq1 := hall q hq
              constructor
              · split_ifs with hc
                · exact ucmp_le_trans ucmp hu _ _ _ ((hu.flip _ _).mpr hc) hq1.1
                · exact hq1.1
              · split_ifs with hc
                · exact ucmp_le_trans_right ucmp hu _ _ _ hq1.2 hc
                · exact hq1.2
            · rw [List.mem_singleton] at hq
              rw [hq]
              constructor
              · split_ifs with hc
                · omega
                · omega
              · split_ifs with hc
                · omega
                · have := (hu.flip t.max_key_ r.key)
                  by_contra hcon
                  exact hc (this.mpr (by omega)))
      hok.2
    simpa [List.append_assoc] using hstep


/-- Away from the empty key the recorded bounds are the true ones: after a non-empty
sequence of successful `Add` calls on a fresh table, none with an empty key,
`GetMinKey()` and `GetMaxKey()` are added keys, and every added key lies between
them under the user comparator. -/
theorem min_max_key_of_nonempty_keys (cfg : Config) (ucmp : List Nat → List Nat → Int)
    (hu : TotalOrderCmp ucmp) (pmLogHead member_addr : Nat) (region : Pmem) (ops : List Rec)
    (hne : ∀ r, r ∈ ops → r.key ≠ []) (hops : ops ≠ [])
    (hadd : (PmTable.AddAll cfg ucmp (PmTable.ctor cfg pmLogHead member_addr region) ops).1
      = true) :
    (∃ r, r ∈ ops ∧ r.key =
      (PmTable.AddAll cfg ucmp (PmTable.ctor cfg pmLogHead member_addr region) ops).2.GetMinKey) ∧
    (∃ r, r ∈ ops ∧ r.key =
      (PmTable.AddAll cfg ucmp (PmTable.ctor cfg pmLogHead member_addr region) ops).2.GetMaxKey) ∧
    ∀ r, r ∈ ops →
      ucmp (PmTable.AddAll cfg ucmp (PmTable.ctor cfg pmLogHead member_addr region)
        ops).2.GetMinKey r.key ≤ 0 ∧
      ucmp r.key (PmTable.AddAll cfg ucmp (PmTable.ctor cfg pmLogHead member_addr region)
        ops).2.GetMaxKey ≤ 0 := by
  have h := min_max_AddAll cfg ucmp hu ops (PmTable.ctor cfg pmLogHead member_addr region) []
    hne (Or.inl ⟨rfl, rfl, rfl⟩) hadd
  simp only [List.nil_append] at h
  rcases h with ⟨h0, _⟩ | ⟨h1, h2, _, _, h5⟩
  · exact absurd h0 hops
  · exact ⟨h1, h2, h5⟩


/-! ## Sequences of allocations -/

theorem adjacentRanges_lower (ns : List Nat) :
    ∀ c x, x ∈ adjacentRanges c ns → c ≤ x.1 := by
  induction ns with
  | nil => intro c x hx; cases hx
  | cons n ns ih =>
    intro c x hx
    simp only [adjacentRanges, List.mem_cons] at hx
    rcases hx with h | h
    · rw [h]
    · have := ih (c + n) x h
      omega

theorem adjacentRanges_pairwise (ns : List Nat) :
    ∀ c, (adjacentRanges c ns).Pairwise (fun x y => x.1 + x.2 ≤ y.1) := by
  induction ns with
  | nil => intro c; exact List.Pairwise.nil
  | cons n ns ih =>
    intro c
    simp only [adjacentRanges, List.pairwise_cons]
    exact ⟨fun y hy => adjacentRanges_lower ns (c + n) y hy, ih (c + n)⟩

theorem adjacentRanges_chain (ns : List Nat) :
    ∀ c, List.Chain' (fun x y => x.1 + x.2 = y.1) (adjacentRanges c ns) := by
  induction ns with
  | nil => intro c; exact List.chain'_nil
  | cons n ns ih =>
    intro c
    cases ns with
    | nil => simp [adjacentRanges]
    | cons m ms =>
      have h := ih (c + n)
      simp only [adjacentRanges] at h ⊢
      exact List.Chain'.cons rfl h

theorem Persist_last_persist_point (cfg : Config) (a : NvmArena) (pm : Pmem)
    (h : a.last_persist_point_ ≤ a.kv_alloc_ptr_) :
    (a.Persist cfg pm).1.last_persist_point_ ≤ (a.Persist cfg pm).1.kv_alloc_ptr_ := by
  unfold NvmArena.Persist
  split_ifs
  · exact Nat.le_refl _
  · exact h

theorem Allocate_last_persist_point (cfg : Config) (a : NvmArena) (pm : Pmem) (n : Nat)
    (h : a.last_persist_point_ ≤ a.kv_alloc_ptr_) :
    (a.Allocate cfg pm n).2.1.last_persist_point_ ≤ (a.Allocate cfg pm n).2.1.kv_alloc_ptr_ := by
  have hf := (Allocate_flush cfg a pm n).2
  have hc := (Allocate_cursor cfg a pm n).1
  rw [hf, hc]
  split_ifs <;> omega

/-- A run of `Allocate` calls from any arena state. -/
theorem runArenaOps_allocate (cfg : Config) (ns : List Nat) :
    ∀ (a : NvmArena) (pm : Pmem),
      (runArenaOps cfg a pm (ns.map ArenaOp.allocate)).1 = adjacentRanges a.kv_alloc_ptr_ ns ∧
      (runArenaOps cfg a pm (ns.map ArenaOp.allocate)).2.1.kv_alloc_ptr_ =
        a.kv_alloc_ptr_ + ns.sum ∧
      (runArenaOps cfg a pm (ns.map ArenaOp.allocate)).2.1.memory_usage_ =
        a.memory_usage_ + ns.sum ∧
      (runArenaOps cfg a pm (ns.map ArenaOp.allocate)).2.1.kv_start_ = a.kv_start_ ∧
      (a.last_persist_point_ ≤ a.kv_alloc_ptr_ →
        (runArenaOps cfg a pm (ns.map ArenaOp.allocate)).2.1.last_persist_point_ ≤
          (runArenaOps cfg a pm (ns.map ArenaOp.allocate)).2.1.kv_alloc_ptr_) := by
  induction ns with
  | nil => intro a pm; exact ⟨rfl, rfl, rfl, rfl, fun h => h⟩
  | cons n ns ih =>
    intro a pm
    have hc := Allocate_cursor cfg a pm n
    have hb := Allocate_fst cfg a pm n
    obtain ⟨h1, h2, h3, h4, h5⟩ := ih (a.Allocate cfg pm n).2.1 (a.Allocate cfg pm n).2.2
    simp only [List.map_cons, runArenaOps, ArenaOp.run, ArenaOp.size, adjacentRanges,
      List.sum_cons]
    rw [h1, h2, h3, h4, hb, hc.1, hc.2.1, hc.2.2.1]
    refine ⟨rfl, by omega, by omega, rfl, fun h => ?_⟩
    have := h5 (Allocate_last_persist_point cfg a pm n h)
    rw [h2, hc.1] at this
    exact this

/-- C19: `Allocate(n)` returns the allocation cursor as it was on entry, and the cursor
and the memory usage each grow by exactly `n`.  Hence the ranges returned by a
sequence of `Allocate` calls on a fresh arena start at the region start plus
`PM_LOG_HEAD_SIZE`, follow one another without a gap in increasing address order
and are pairwise disjoint; afterwards the memory usage is `PM_LOG_HEAD_SIZE` plus
the distance of the cursor from the start of the record area, and the last-flushed
cursor is at most the cursor. -/
theorem Allocate_ranges (cfg : Config) (a : NvmArena) (pm : Pmem) (n : Nat)
    (start : Nat) (force : Bool) (ns : List Nat) :
    ((a.Allocate cfg pm n).1 = a.kv_alloc_ptr_ ∧
      (a.Allocate cfg pm n).2.1.kv_alloc_ptr_ = a.kv_alloc_ptr_ + n ∧
      (a.Allocate cfg pm n).2.1.memory_usage_ = a.memory_usage_ + n) ∧
    ((runArenaOps cfg (NvmArena.ctor cfg start force) pm (ns.map ArenaOp.allocate)).1 =
        adjacentRanges (start + cfg.PM_LOG_HEAD_SIZE) ns ∧
      List.Chain' (fun x y => x.1 + x.2 = y.1)
        (runArenaOps cfg (NvmArena.ctor cfg start force) pm (ns.map ArenaOp.allocate)).1 ∧
      (runArenaOps cfg (NvmArena.ctor cfg start force) pm (ns.map ArenaOp.allocate)).1.Pairwise
        (fun x y => x.1 + x.2 ≤ y.1) ∧
      (runArenaOps cfg (NvmArena.ctor cfg start force) pm
          (ns.map ArenaOp.allocate)).2.1.memory_usage_ =
        cfg.PM_LOG_HEAD_SIZE +
          ((runArenaOps cfg (NvmArena.ctor cfg start force) pm
              (ns.map ArenaOp.allocate)).2.1.kv_alloc_ptr_ -
            (runArenaOps cfg (NvmArena.ctor cfg start force) pm
              (ns.map ArenaOp.allocate)).2.1.kv_start_) ∧
      (runArenaOps cfg (NvmArena.ctor cfg start force) pm
          (ns.map ArenaOp.allocate)).2.1.last_persist_point_ ≤
        (runArenaOps cfg (NvmArena.ctor cfg start force) pm
          (ns.map ArenaOp.allocate)).2.1.kv_alloc_ptr_) := by
  have hc := Allocate_cursor cfg a pm n
  refine ⟨⟨Allocate_fst cfg a pm n, hc.1, hc.2.1⟩, ?_⟩
  obtain ⟨h1, h2, h3, h4, h5⟩ := runArenaOps_allocate cfg ns (NvmArena.ctor cfg start force) pm
  rw [h1, h2, h3, h4]
  refine ⟨rfl, adjacentRanges_chain ns _, adjacentRanges_pairwise ns _, ?_, ?_⟩
  · simp only [NvmArena.ctor]
    omega
  · have := h5 (Nat.le_refl _)
    rw [h2] at this
    exact this


/-! ## Aligned allocation -/

theorem and_7 (x : Nat) : x &&& 7 = x % 8 := by
  have := Nat.and_pow_two_sub_one_eq_mod x 3
  simpa using this

/-- The padding computed by `AllocateAligned`. -/
theorem AllocateAligned_eq (cfg : Config) (a : NvmArena) (pm : Pmem) (n : Nat) :
    (a.AllocateAligned cfg pm n).1 =
      a.kv_alloc_ptr_ + (if a.kv_alloc_ptr_ % 8 = 0 then 0 else 8 - a.kv_alloc_ptr_ % 8) ∧
    (a.AllocateAligned cfg pm n).2.1.kv_alloc_ptr_ =
      a.kv_alloc_ptr_ + (n + (if a.kv_alloc_ptr_ % 8 = 0 then 0 else 8 - a.kv_alloc_ptr_ % 8)) ∧
    (a.AllocateAligned cfg pm n).2.1.memory_usage_ =
      a.memory_usage_ + (n + (if a.kv_alloc_ptr_ % 8 = 0 then 0 else 8 - a.kv_alloc_ptr_ % 8)) := by
  have h := Persist_kv_alloc_ptr cfg a pm
  have hs : (if a.unflushed > (cfg.PERSIST_SIZE : Int) then a.Persist cfg pm
        else (a, pm)).1.kv_alloc_ptr_ = a.kv_alloc_ptr_ ∧
      (if a.unflushed > (cfg.PERSIST_SIZE : Int) then a.Persist cfg pm
        else (a, pm)).1.memory_usage_ = a.memory_usage_ := by
    split_ifs
    · exact ⟨h.1, h.2.1⟩
    · exact ⟨rfl, rfl⟩
  unfold NvmArena.AllocateAligned
  simp only [hs.1, hs.2, show (8 : Nat) - 1 = 7 from rfl, and_7]
  exact ⟨trivial, trivial, trivial⟩

/-- Every range returned by a run of arena calls lies between the cursor before the run
and the cursor after it. -/
theorem runArenaOps_within (cfg : Config) (ops : List ArenaOp) :
    ∀ (a : NvmArena) (pm : Pmem),
      a.kv_alloc_ptr_ ≤ (runArenaOps cfg a pm ops).2.1.kv_alloc_ptr_ ∧
      ∀ x, x ∈ (runArenaOps cfg a pm ops).1 →
        a.kv_alloc_ptr_ ≤ x.1 ∧ x.1 + x.2 ≤ (runArenaOps cfg a pm ops).2.1.kv_alloc_ptr_ := by
  induction ops with
  | nil => intro a pm; exact ⟨Nat.le_refl _, fun x hx => by cases hx⟩
  | cons op ops ih =>
    intro a pm
    have hstep : a.kv_alloc_ptr_ ≤ (op.run cfg a pm).1 ∧
        (op.run cfg a pm).1 + op.size = (op.run cfg a pm).2.1.kv_alloc_ptr_ := by
      cases op with
      | allocate n =>
        show a.kv_alloc_ptr_ ≤ (a.Allocate cfg pm n).1 ∧
          (a.Allocate cfg pm n).1 + n = (a.Allocate cfg pm n).2.1.kv_alloc_ptr_
        rw [Allocate_fst, (Allocate_cursor cfg a pm n).1]
        exact ⟨Nat.le_refl _, rfl⟩
      | allocateAligned n =>
        have h := AllocateAligned_eq cfg a pm n
        show a.kv_alloc_ptr_ ≤ (a.AllocateAligned cfg pm n).1 ∧
          (a.AllocateAligned cfg pm n).1 + n = (a.AllocateAligned cfg pm n).2.1.kv_alloc_ptr_
        rw [h.1, h.2.1]
        omega
    obtain ⟨h1, h2⟩ := ih (op.run cfg a pm).2.1 (op.run cfg a pm).2.2
    simp only [runArenaOps]
    refine ⟨by omega, fun x hx => ?_⟩
    rcases List.mem_cons.mp hx with h | h
    · rw [h]
      exact ⟨hstep.1, by show (op.run cfg a pm).1 + op.size ≤ _; omega⟩
    · have := h2 x h
      exact ⟨by omega, this.2⟩

/-- C20: `AllocateAligned(n)` returns an address `r` that is a multiple of 8 (the
asserted `r & 7 == 0` holds), `r` is the cursor plus the least padding `slop < 8`
that aligns it, afterwards the cursor is `r + n` and the memory usage has grown by
`n + slop`; and `r` is at or above the end of every range returned by the calls
made before, so the returned range overlaps none of them. -/
theorem AllocateAligned_effect (cfg : Config) (a : NvmArena) (pm : Pmem) (n : Nat)
    (a0 : NvmArena) (pm0 : Pmem) (ops : List ArenaOp) :
    (a.AllocateAligned cfg pm n).1 % 8 = 0 ∧
    (a.AllocateAligned cfg pm n).1 &&& (8 - 1) = 0 ∧
    (∃ slop, slop < 8 ∧ (a.AllocateAligned cfg pm n).1 = a.kv_alloc_ptr_ + slop ∧
      (∀ s, (a.kv_alloc_ptr_ + s) % 8 = 0 → slop ≤ s) ∧
      (a.AllocateAligned cfg pm n).2.1.kv_alloc_ptr_ = (a.AllocateAligned cfg pm n).1 + n ∧
      (a.AllocateAligned cfg pm n).2.1.memory_usage_ = a.memory_usage_ + (n + slop)) ∧
    (∀ x, x ∈ (runArenaOps cfg a0 pm0 ops).1 →
      x.1 + x.2 ≤ ((runArenaOps cfg a0 pm0 ops).2.1.AllocateAligned cfg
        (runArenaOps cfg a0 pm0 ops).2.2 n).1) := by
  have h := AllocateAligned_eq cfg a pm n
  refine ⟨?_, ?_, ?_, ?_⟩
  · rw [h.1]; split_ifs <;> omega
  · rw [show (8 : Nat) - 1 = 7 from rfl, and_7, h.1]; split_ifs <;> omega
  · refine ⟨if a.kv_alloc_ptr_ % 8 = 0 then 0 else 8 - a.kv_alloc_ptr_ % 8, ?_, h.1, ?_, ?_,
      h.2.2⟩
    · split_ifs <;> omega
    · intro s hs; split_ifs <;> omega
    · rw [h.2.1, h.1]; omega
  · intro x hx
    have hw := (runArenaOps_within cfg ops a0 pm0).2 x hx
    have hr := (AllocateAligned_eq cfg (runArenaOps cfg a0 pm0 ops).2.1
      (runArenaOps cfg a0 pm0 ops).2.2 n).1
    rw [hr]
    omega

theorem AllocateAligned_effect_witness :
    ((NvmArena.ctor exampleConfig 3 false).AllocateAligned exampleConfig exampleRegion 10).1 % 8
      = 0 :=
  (AllocateAligned_effect exampleConfig (NvmArena.ctor exampleConfig 3 false) exampleRegion 10
    (NvmArena.ctor exampleConfig 3 false) exampleRegion []).1


/-! ## Capacity -/

theorem Persist_used_size (cfg : Config) (a : NvmArena) (pm : Pmem)
    (h : pm.head.used_size ≤ a.memory_usage_) :
    (a.Persist cfg pm).2.head.used_size ≤ a.memory_usage_ ∧
    (a.Persist cfg pm).2.head.file_size = pm.head.file_size := by
  unfold NvmArena.Persist
  split_ifs
  · exact ⟨Nat.le_refl _, rfl⟩
  · exact ⟨h, rfl⟩

theorem Allocate_used_size (cfg : Config) (a : NvmArena) (pm : Pmem) (n : Nat)
    (h : pm.head.used_size ≤ a.memory_usage_) :
    (a.Allocate cfg pm n).2.2.head.used_size ≤ a.memory_usage_ ∧
    (a.Allocate cfg pm n).2.2.head.file_size = pm.head.file_size := by
  rw [(Allocate_flush cfg a pm n).1]
  split_ifs
  · exact ⟨Nat.le_refl _, rfl⟩
  · exact ⟨h, rfl⟩

/-- The capacity invariant of a table written through `Add` only. -/
theorem TableReach_capacity (cfg : Config) (ucmp : List Nat → List Nat → Int)
    (hcfg : cfg.PM_LOG_HEAD_SIZE < cfg.PM_LOG_SIZE) (t : PmTable)
    (h : TableReach cfg ucmp t) :
    t.nvmArena_.memory_usage_ < cfg.PM_LOG_SIZE ∧
    t.pm.head.used_size ≤ t.nvmArena_.memory_usage_ ∧
    t.pm.head.file_size = cfg.PM_LOG_SIZE := by
  induction h with
  | ctor pmLogHead member_addr region =>
    exact ⟨hcfg, Nat.le_refl _, rfl⟩
  | add t s type key value _ ih =>
    by_cases hfit : encodedLen key value + t.nvmArena_.MemoryUsage < cfg.PM_LOG_SIZE
    · rw [Add_of_fit cfg ucmp t s type key value hfit]
      have hc := Allocate_cursor cfg t.nvmArena_ t.pm (encodedLen key value)
      have hu := Allocate_used_size cfg t.nvmArena_ t.pm (encodedLen key value) ih.2.1
      refine ⟨?_, ?_, ?_⟩
      · show (t.nvmArena_.Allocate cfg t.pm (encodedLen key value)).2.1.memory_usage_ < _
        rw [hc.2.1]
        simp only [NvmArena.MemoryUsage] at hfit
        omega
      · show (t.nvmArena_.Allocate cfg t.pm (encodedLen key value)).2.2.head.used_size ≤
          (t.nvmArena_.Allocate cfg t.pm (encodedLen key value)).2.1.memory_usage_
        rw [hc.2.1]
        have := hu.1
        omega
      · show (t.nvmArena_.Allocate cfg t.pm (encodedLen key value)).2.2.head.file_size = _
        rw [hu.2]
        exact ih.2.2
    · simp only [PmTable.Add, hfit, if_false]
      exact ih
  | persist t _ ih =>
    have hp := Persist_used_size cfg t.nvmArena_ t.pm ih.2.1
    have hk := Persist_kv_alloc_ptr cfg t.nvmArena_ t.pm
    refine ⟨?_, ?_, ?_⟩
    · show (t.nvmArena_.Persist cfg t.pm).1.memory_usage_ < _
      rw [hk.2.1]; exact ih.1
    · show (t.nvmArena_.Persist cfg t.pm).2.head.used_size ≤
        (t.nvmArena_.Persist cfg t.pm).1.memory_usage_
      rw [hk.2.1]; exact hp.1
    · show (t.nvmArena_.Persist cfg t.pm).2.head.file_size = _
      rw [hp.2]; exact ih.2.2

/-- C13: when `PM_LOG_HEAD_SIZE < PM_LOG_SIZE`, after the construction of a table and
after any sequence of `Add` calls, accepted or rejected, and of flushes by
`Persist`, `ApproximateMemoryUsage()` is below `PM_LOG_SIZE` and the header has
`used_size <= file_size`. -/
theorem capacity_never_exceeded (cfg : Config) (ucmp : List Nat → List Nat → Int)
    (hcfg : cfg.PM_LOG_HEAD_SIZE < cfg.PM_LOG_SIZE) (t : PmTable)
    (h : TableReach cfg ucmp t) :
    t.ApproximateMemoryUsage < cfg.PM_LOG_SIZE ∧ t.pm.head.used_size ≤ t.pm.head.file_size := by
  obtain ⟨h1, h2, h3⟩ := TableReach_capacity cfg ucmp hcfg t h
  refine ⟨h1, ?_⟩
  rw [h3]
  omega

theorem capacity_never_exceeded_witness :
    (PmTable.Add exampleConfig Slice.compare exampleTable 1 ValueType.kTypeValue
        [97] [49]).2.ApproximateMemoryUsage < exampleConfig.PM_LOG_SIZE ∧
    (PmTable.Add exampleConfig Slice.compare exampleTable 1 ValueType.kTypeValue
        [97] [49]).2.pm.head.used_size ≤
      (PmTable.Add exampleConfig Slice.compare exampleTable 1 ValueType.kTypeValue
        [97] [49]).2.pm.head.file_size :=
  capacity_never_exceeded exampleConfig Slice.compare (by decide) _
    (TableReach.add exampleTable 1 ValueType.kTypeValue [97] [49]
      (TableReach.ctor 0 5000 exampleRegion))


/-! ## Reference counting and the logical free -/

theorem Unref_destroyed_refs (u : PmTable) (d : Destroyed)
    (h : PmTable.Unref u = UnrefOutcome.destroyed d) : u.refs_ = 1 := by
  unfold PmTable.Unref PmTable.dtor at h
  simp only at h
  split_ifs at h with h1 h2 h3
  · omega

/-- C17, as the code has it: a table is constructed with reference count 0; `Ref()`
then `Unref()` on it destroys it: one barrier over the header as it stands and the
region handed to the region manager's free, the destructor itself writing nothing
to the header, `magic` included; `Ref()` twice then `Unref()` leaves it alive with
count 1 and everything else as it was; and `Unref()` destroys only when the count
it finds is 1, that is with count exactly 0 after the decrement. -/
theorem refcount_lifecycle (cfg : Config) (t : PmTable) (h0 : t.refs_ = 0) :
    (∀ pmLogHead member_addr region, (PmTable.ctor cfg pmLogHead member_addr region).refs_ = 0) ∧
    t.Ref.Unref = UnrefOutcome.destroyed
      { region := { head := t.pm.head
                    bytes := t.pm.bytes
                    persisted := t.pm.persisted ++ [⟨BarrierSite.dtor, t.pmLogHead_, 24⟩] }
        freed := t.pmLogHead_ } ∧
    t.Ref.Ref.Unref = UnrefOutcome.alive { t with refs_ := 1 } ∧
    (∀ u d, PmTable.Unref u = UnrefOutcome.destroyed d → u.refs_ - 1 = 0) := by
  refine ⟨fun _ _ _ => rfl, ?_, ?_, ?_⟩
  · simp [PmTable.Unref, PmTable.Ref, PmTable.dtor, h0, pmem_persist, sizeofPmLogHead]
  · simp [PmTable.Unref, PmTable.Ref, h0]
  · intro u d h
    rw [Unref_destroyed_refs u d h]
    rfl

theorem refcount_lifecycle_witness :
    exampleTable.Ref.Ref.Unref = UnrefOutcome.alive { exampleTable with refs_ := 1 } :=
  (refcount_lifecycle exampleConfig exampleTable rfl).2.2.1

/-- C17 fails as stated: `Ref()` then `Unref()` on a fresh table destroys it, and the
header of the region handed to the region manager still carries `PM_LOG_MAGIC`,
not `INVALID`. -/
theorem Unref_leaves_magic :
    ∃ d, exampleTable.Ref.Unref = UnrefOutcome.destroyed d ∧
      d.freed = 0 ∧
      d.region.head.magic_number = exampleConfig.PM_LOG_MAGIC ∧
      d.region.head.magic_number ≠ exampleConfig.INVALID :=
  ⟨_, rfl, rfl, rfl, by decide⟩

/-- C18: `FreePmtable()` sets the header's `magic` to `INVALID` and nothing else:
`used_size`, `file_size`, the bytes, the barriers issued, the ordered index,
`min_key_`, `max_key_`, `count_`, the reference count and the arena are as before,
the table stays alive, and every `Get`, every seek and every step and read of an
iterator give what they gave before. -/
theorem FreePmtable_effect (cfg : Config) (ucmp : List Nat → List Nat → Int) (t : PmTable) :
    (t.FreePmtable cfg).pm.head.magic_number = cfg.INVALID ∧
    (t.FreePmtable cfg).pm.head.used_size = t.pm.head.used_size ∧
    (t.FreePmtable cfg).pm.head.file_size = t.pm.head.file_size ∧
    (t.FreePmtable cfg).pm.bytes = t.pm.bytes ∧
    (t.FreePmtable cfg).pm.persisted = t.pm.persisted ∧
    (t.FreePmtable cfg).table_ = t.table_ ∧
    (t.FreePmtable cfg).min_key_ = t.min_key_ ∧
    (t.FreePmtable cfg).max_key_ = t.max_key_ ∧
    (t.FreePmtable cfg).count_ = t.count_ ∧
    (t.FreePmtable cfg).refs_ = t.refs_ ∧
    (t.FreePmtable cfg).nvmArena_ = t.nvmArena_ ∧
    (t.FreePmtable cfg).pmLogHead_ = t.pmLogHead_ ∧
    (∀ key, PmTable.Get ucmp (t.FreePmtable cfg) key = PmTable.Get ucmp t key) ∧
    (∀ k, PmTableIterator.Seek ucmp (t.FreePmtable cfg) k = PmTableIterator.Seek ucmp t k) ∧
    PmTableIterator.SeekToFirst (t.FreePmtable cfg) = PmTableIterator.SeekToFirst t ∧
    PmTableIterator.SeekToLast (t.FreePmtable cfg) = PmTableIterator.SeekToLast t ∧
    (∀ it : PmTableIterator,
      it.Valid (t.FreePmtable cfg) = it.Valid t ∧
      it.Next (t.FreePmtable cfg) = it.Next t ∧
      it.Prev ucmp (t.FreePmtable cfg) = it.Prev ucmp t ∧
      it.key (t.FreePmtable cfg) = it.key t ∧
      it.value (t.FreePmtable cfg) = it.value t) ∧
    (∀ fuel it, PmTableIterator.scan (t.FreePmtable cfg) fuel it =
      PmTableIterator.scan t fuel it) := by
  refine ⟨rfl, rfl, rfl, rfl, rfl, rfl, rfl, rfl, rfl, rfl, rfl, rfl, fun _ => rfl,
    fun _ => rfl, rfl, rfl, fun _ => ⟨rfl, rfl, rfl, rfl, rfl⟩, ?_⟩
  intro fuel
  induction fuel with
  | zero => intro it; rfl
  | succ n ih =>
    intro it
    simp only [PmTableIterator.scan]
    rw [ih (it.Next (t.FreePmtable cfg))]
    rfl


/-! ## The iterator reads back what `Add` wrote -/

theorem GetLengthPrefixedSlice_entry_key (mem : Nat → Nat) (a : Nat) (r : Rec)
    (hk : r.key.length + 8 < 2 ^ 32) (h : BytesAt mem a r.bytes) :
    GetLengthPrefixedSlice (CharPtr.at mem a) = r.key ++ EncodeFixed64 r.tag := by
  have h1 : BytesAt mem a (EncodeVarint32 (r.key ++ EncodeFixed64 r.tag).length ++
      (r.key ++ EncodeFixed64 r.tag)) := by
    have e : r.bytes = (EncodeVarint32 (r.key ++ EncodeFixed64 r.tag).length ++
        (r.key ++ EncodeFixed64 r.tag)) ++ (EncodeVarint32 r.value.length ++ r.value) := by
      simp only [Rec.bytes, entryBytes, Rec.tag, List.length_append, EncodeFixed64_length,
        List.append_assoc]
    rw [e] at h
    exact BytesAt_left _ _ _ _ h
  exact GetLengthPrefixedSlice_of_BytesAt mem a _
    (by simp only [List.length_append, EncodeFixed64_length]; exact hk) h1

/-- The methods `key()` and `value()` on an entry that holds a record. -/
theorem iterator_key_value (t : PmTable) (pos a : Nat) (r : Rec) (hfit : r.sizesFit)
    (hpos : t.table_.get? pos = some a) (hb : BytesAt t.pm.bytes a r.bytes) :
    PmTableIterator.Valid t ⟨pos⟩ = true ∧
    PmTableIterator.key t ⟨pos⟩ = some (r.key ++ EncodeFixed64 r.tag) ∧
    PmTableIterator.value t ⟨pos⟩ = some r.value := by
  obtain ⟨b1, _, _, b4⟩ := BytesAt_entry _ _ _ hb
  have d1 := GetVarint32Ptr_of_BytesAt t.pm.bytes a (r.key.length + 8) hfit.1 b1
  have d4 := GetLengthPrefixedSlice_of_BytesAt _ _ _ hfit.2 b4
  have ha : a + (EncodeVarint32 (r.key.length + 8)).length + (r.key.length + 8) =
      a + (EncodeVarint32 (r.key.length + 8)).length + r.key.length + 8 := by omega
  refine ⟨?_, ?_, ?_⟩
  · simp only [PmTableIterator.Valid, decide_eq_true_eq]
    exact (List.get?_eq_some.mp hpos).1
  · simp only [PmTableIterator.key, hpos, Option.map_some',
      GetLengthPrefixedSlice_entry_key _ _ r hfit.1 hb]
  · simp only [PmTableIterator.value, hpos, Option.map_some', d1, ha, d4]

theorem EntriesInv_ctor (cfg : Config) (pmLogHead member_addr : Nat) (region : Pmem) :
    EntriesInv (PmTable.ctor cfg pmLogHead member_addr region) [] :=
  { table := rfl
    entries := fun e he => by cases he }

theorem EntriesInv_Add (cfg : Config) (ucmp : List Nat → List Nat → Int) (t : PmTable)
    (idx : List (Nat × Rec)) (r : Rec) (hinv : EntriesInv t idx) (hfit : r.sizesFit)
    (hcap : encodedLen r.key r.value + t.nvmArena_.MemoryUsage < cfg.PM_LOG_SIZE) :
    ∃ idx1, EntriesInv (PmTable.Add cfg ucmp t r.seq r.type r.key r.value).2 idx1 ∧
      idx1.Perm ((t.nvmArena_.kv_alloc_ptr_, r) :: idx) := by
  have hc := Allocate_cursor cfg t.nvmArena_ t.pm (encodedLen r.key r.value)
  have hlen : r.bytes.length = encodedLen r.key r.value :=
    entryBytes_length r.seq r.type r.key r.value hfit.1 hfit.2
  rw [Add_of_fit cfg ucmp t r.seq r.type r.key r.value hcap]
  obtain ⟨l1, l2, hl, hins⟩ := SkipList_Insert_split
    (fun x => KeyComparator ucmp
      (CharPtr.at (storeBytes t.pm.bytes t.nvmArena_.kv_alloc_ptr_
        (entryBytes r.seq r.type r.key r.value)) x)
      (CharPtr.at (storeBytes t.pm.bytes t.nvmArena_.kv_alloc_ptr_
        (entryBytes r.seq r.type r.key r.value)) t.nvmArena_.kv_alloc_ptr_))
    t.nvmArena_.kv_alloc_ptr_ t.table_
  rw [hinv.table] at hl
  obtain ⟨i1, i2, hi, h1, h2⟩ := List.map_eq_append_iff.mp hl
  refine ⟨i1 ++ (t.nvmArena_.kv_alloc_ptr_, r) :: i2, ⟨?_, ?_⟩, ?_⟩
  · show SkipList.Insert _ t.nvmArena_.kv_alloc_ptr_ t.table_ = _
    rw [hins, List.map_append, List.map_cons, h1, h2]
  · intro e he
    show BytesAt (storeBytes t.pm.bytes t.nvmArena_.kv_alloc_ptr_ r.bytes) e.1 e.2.bytes ∧
      e.1 + e.2.bytes.length ≤
        (t.nvmArena_.Allocate cfg t.pm (encodedLen r.key r.value)).2.1.kv_alloc_ptr_ ∧
      e.2.sizesFit
    rw [hc.1]
    have hmem : e = (t.nvmArena_.kv_alloc_ptr_, r) ∨ e ∈ idx := by
      rw [hi]
      simp only [List.mem_append, List.mem_cons] at he ⊢
      tauto
    rcases hmem with h | h
    · rw [h]
      exact ⟨storeBytes_inside _ _ _,
        by show t.nvmArena_.kv_alloc_ptr_ + r.bytes.length ≤ _; omega, hfit⟩
    · have hb := hinv.entries e h
      refine ⟨fun i hi => ?_, by omega, hb.2.2⟩
      rw [storeBytes_outside _ _ _ _ (Or.inl (by omega))]
      exact hb.1 i hi
  · rw [hi]
    exact List.perm_middle

theorem EntriesInv_AddAll (cfg : Config) (ucmp : List Nat → List Nat → Int)
    (ops : List Rec) :
    ∀ (t : PmTable) (idx : List (Nat × Rec)), EntriesInv t idx →
      (∀ r, r ∈ ops → r.sizesFit) →
      (PmTable.AddAll cfg ucmp t ops).1 = true →
      ∃ idx1, EntriesInv (PmTable.AddAll cfg ucmp t ops).2 idx1 ∧
        (idx1.map Prod.snd).Perm (idx.map Prod.snd ++ ops) := by
  induction ops with
  | nil =>
    intro t idx hinv _ _
    exact ⟨idx, hinv, by simp⟩
  | cons r rest ih =>
    intro t idx hinv hfit hok
    simp only [PmTable.AddAll, Bool.and_eq_true] at hok ⊢
    have hcap : encodedLen r.key r.value + t.nvmArena_.MemoryUsage < cfg.PM_LOG_SIZE := by
      have h1 := hok.1
      rw [Add_fst] at h1
      exact of_decide_eq_true h1
    obtain ⟨idx1, h1, hp1⟩ := EntriesInv_Add cfg ucmp t idx r hinv
      (hfit r (List.mem_cons_self _ _)) hcap
    obtain ⟨idx2, h2, hp2⟩ := ih _ idx1 h1 (fun x hx => hfit x (List.mem_cons_of_mem _ hx))
      hok.2
    refine ⟨idx2, h2, hp2.trans ?_⟩
    have hp3 : (idx1.map Prod.snd).Perm (r :: idx.map Prod.snd) := by
      have := hp1.map Prod.snd
      simpa using this
    exact (List.Perm.append_right rest hp3).trans (by
      simp only [List.cons_append]
      exact List.perm_middle.symm)

/-- C11: after any sequence of successful `Add` calls on a fresh table, with key and
value sizes that fit the 32-bit varints, the ordered index holds one entry for each
added record, and with the iterator on the entry of the record
`(seq, type, key, value)`, `key()` returns `key ++ fixed64((seq << 8) | type)`, of
length `|key| + 8`, and `value()` returns the value bytes passed to `Add`, the
empty string for a DELETION added with an empty value. -/
theorem iterator_decodes_added_records (cfg : Config) (ucmp : List Nat → List Nat → Int)
    (pmLogHead member_addr : Nat) (region : Pmem) (ops : List Rec)
    (hfit : ∀ r, r ∈ ops → r.key.length + 8 < 2 ^ 32 ∧ r.value.length < 2 ^ 32)
    (hadd : (PmTable.AddAll cfg ucmp (PmTable.ctor cfg pmLogHead member_addr region) ops).1
      = true) :
    ∃ idx : List (Nat × Rec),
      (PmTable.AddAll cfg ucmp (PmTable.ctor cfg pmLogHead member_addr region) ops).2.table_ =
        idx.map Prod.fst ∧
      (idx.map Prod.snd).Perm ops ∧
      ∀ pos a r, idx.get? pos = some (a, r) →
        PmTableIterator.Valid
          (PmTable.AddAll cfg ucmp (PmTable.ctor cfg pmLogHead member_addr region) ops).2
          ⟨pos⟩ = true ∧
        PmTableIterator.key
          (PmTable.AddAll cfg ucmp (PmTable.ctor cfg pmLogHead member_addr region) ops).2
          ⟨pos⟩ = some (r.key ++
            EncodeFixed64 ((((r.seq % 2 ^ 64) <<< 8) % 2 ^ 64) ||| r.type.toNat)) ∧
        (r.key ++ EncodeFixed64 ((((r.seq % 2 ^ 64) <<< 8) % 2 ^ 64) ||| r.type.toNat)).length =
          r.key.length + 8 ∧
        PmTableIterator.value
          (PmTable.AddAll cfg ucmp (PmTable.ctor cfg pmLogHead member_addr region) ops).2
          ⟨pos⟩ = some r.value ∧
        (r.type = ValueType.kTypeDeletion → r.value = [] →
          PmTableIterator.value
            (PmTable.AddAll cfg ucmp (PmTable.ctor cfg pmLogHead member_addr region) ops).2
            ⟨pos⟩ = some []) := by
  obtain ⟨idx, hinv, hperm⟩ := EntriesInv_AddAll cfg ucmp ops _ []
    (EntriesInv_ctor cfg pmLogHead member_addr region) hfit hadd
  refine ⟨idx, hinv.table, by simpa using hperm, ?_⟩
  intro pos a r hpos
  have hmem : (a, r) ∈ idx := List.get?_mem hpos
  have he := hinv.entries (a, r) hmem
  have htab : (PmTable.AddAll cfg ucmp (PmTable.ctor cfg pmLogHead member_addr region)
      ops).2.table_.get? pos = some a := by
    simp only [List.get?_eq_getElem?] at hpos ⊢
    rw [hinv.table, List.getElem?_map, hpos]
    rfl
  obtain ⟨k1, k2, k3⟩ := iterator_key_value _ pos a r he.2.2 htab he.1
  refine ⟨k1, k2, ?_, k3, fun _ hv => by rw [k3, hv]⟩
  simp only [List.length_append, EncodeFixed64_length]

theorem iterator_decodes_added_records_witness :
    ∃ idx : List (Nat × Rec),
      (PmTable.AddAll exampleConfig Slice.compare
        (PmTable.ctor exampleConfig 0 5000 exampleRegion) exampleOps).2.table_ =
        idx.map Prod.fst ∧
      (idx.map Prod.snd).Perm exampleOps :=
  (iterator_decodes_added_records exampleConfig Slice.compare 0 5000 exampleRegion
    exampleOps (by decide) (by decide)).imp (fun _ h => ⟨h.1, h.2.1⟩)


/-! ## The order of a forward iteration -/

theorem Rec_compare_le_iff (ucmp : List Nat → List Nat → Int) (hu : TotalOrderCmp ucmp)
    (a b : Rec) :
    Rec.compare ucmp a b ≤ 0 ↔ (ucmp a.key b.key < 0 ∨ (a.key = b.key ∧ b.tag ≤ a.tag)) := by
  unfold Rec.compare
  by_cases h0 : ucmp a.key b.key = 0
  · have hk := (hu.eq_zero _ _).mp h0
    simp only [h0, if_true, gt_iff_lt, lt_self_iff_false, false_or, hk, true_and]
    split_ifs <;> simp_all
    omega
  · have hk : a.key ≠ b.key := fun h => h0 ((hu.eq_zero _ _).mpr h)
    simp only [h0, if_false, hk, false_and, or_false]
    omega

theorem Rec_compare_le_trans (ucmp : List Nat → List Nat → Int) (hu : TotalOrderCmp ucmp)
    (a b c : Rec) (h1 : Rec.compare ucmp a b ≤ 0) (h2 : Rec.compare ucmp b c ≤ 0) :
    Rec.compare ucmp a c ≤ 0 := by
  rw [Rec_compare_le_iff ucmp hu] at h1 h2 ⊢
  rcases h1 with h1 | ⟨k1, t1⟩ <;> rcases h2 with h2 | ⟨k2, t2⟩
  · exact Or.inl (hu.trans _ _ _ h1 h2)
  · exact Or.inl (by rw [← k2]; exact h1)
  · exact Or.inl (by rw [k1]; exact h2)
  · exact Or.inr ⟨k1.trans k2, by omega⟩

theorem Rec_compare_le_of_nonneg (ucmp : List Nat → List Nat → Int) (hu : TotalOrderCmp ucmp)
    (a b : Rec) (h1 : 0 ≤ Rec.compare ucmp a b) : Rec.compare ucmp b a ≤ 0 := by
  rw [Rec_compare_nonneg_iff ucmp hu] at h1
  rw [Rec_compare_le_iff ucmp hu]
  rcases h1 with h1 | ⟨hk, ht⟩
  · exact Or.inl ((hu.flip _ _).mpr h1)
  · exact Or.inr ⟨hk.symm, ht⟩

theorem insertIdx_perm (f : Rec → Int) (e : Nat × Rec) (idx : List (Nat × Rec)) :
    (insertIdx f e idx).Perm (e :: idx) := by
  induction idx with
  | nil => exact List.Perm.refl _
  | cons y ys ih =>
    simp only [insertIdx]
    split_ifs
    · exact (List.Perm.cons y ih).trans (List.Perm.swap e y ys)
    · exact List.Perm.refl _

theorem insertIdx_sorted_le (ucmp : List Nat → List Nat → Int) (hu : TotalOrderCmp ucmp)
    (e : Nat × Rec) (idx : List (Nat × Rec))
    (hs : idx.Pairwise (fun x y => Rec.compare ucmp x.2 y.2 ≤ 0)) :
    (insertIdx (fun r => Rec.compare ucmp r e.2) e idx).Pairwise
      (fun x y => Rec.compare ucmp x.2 y.2 ≤ 0) := by
  induction idx with
  | nil => simp [insertIdx]
  | cons y ys ih =>
    rw [List.pairwise_cons] at hs
    simp only [insertIdx]
    split_ifs with hy
    · rw [List.pairwise_cons]
      refine ⟨?_, ih hs.2⟩
      intro z hz
      rcases (mem_insertIdx _ _ _ _).mp hz with hz | hz
      · rw [hz]; omega
      · exact hs.1 z hz
    · have hey : Rec.compare ucmp e.2 y.2 ≤ 0 :=
        Rec_compare_le_of_nonneg ucmp hu y.2 e.2 (by omega)
      rw [List.pairwise_cons]
      refine ⟨?_, List.pairwise_cons.mpr hs⟩
      intro z hz
      rcases List.mem_cons.mp hz with hz | hz
      · rw [hz]; exact hey
      · exact Rec_compare_le_trans ucmp hu _ _ _ hey (hs.1 z hz)

theorem IndexLe_ctor (cfg : Config) (ucmp : List Nat → List Nat → Int)
    (pmLogHead member_addr : Nat) (region : Pmem) :
    IndexLe ucmp (PmTable.ctor cfg pmLogHead member_addr region) [] :=
  { table := rfl
    entries := fun e he => by cases he
    sorted := List.Pairwise.nil }

theorem IndexLe_Add (cfg : Config) (ucmp : List Nat → List Nat → Int)
    (hu : TotalOrderCmp ucmp) (t : PmTable) (idx : List (Nat × Rec)) (r : Rec)
    (hinv : IndexLe ucmp t idx) (hwf : r.wellFormed)
    (hfit : encodedLen r.key r.value + t.nvmArena_.MemoryUsage < cfg.PM_LOG_SIZE) :
    IndexLe ucmp (PmTable.Add cfg ucmp t r.seq r.type r.key r.value).2
      (insertIdx (fun x => Rec.compare ucmp x r) (t.nvmArena_.kv_alloc_ptr_, r) idx) := by
  have hc := Allocate_cursor cfg t.nvmArena_ t.pm (encodedLen r.key r.value)
  have hlen : r.bytes.length = encodedLen r.key r.value :=
    entryBytes_length r.seq r.type r.key r.value hwf.2.1 hwf.2.2
  have hnew : BytesAt (storeBytes t.pm.bytes t.nvmArena_.kv_alloc_ptr_ r.bytes)
      t.nvmArena_.kv_alloc_ptr_ r.bytes := storeBytes_inside _ _ _
  have hold : ∀ x, x ∈ idx →
      BytesAt (storeBytes t.pm.bytes t.nvmArena_.kv_alloc_ptr_ r.bytes) x.1 x.2.bytes := by
    intro x hx i hi
    have hb := hinv.entries x hx
    rw [storeBytes_outside _ _ _ _ (Or.inl (by omega))]
    exact hb.1 i hi
  rw [Add_of_fit cfg ucmp t r.seq r.type r.key r.value hfit]
  refine ⟨?_, ?_, ?_⟩
  · show SkipList.Insert _ t.nvmArena_.kv_alloc_ptr_ t.table_ = _
    rw [hinv.table]
    exact insertIdx_map_fst _ (fun x => Rec.compare ucmp x r) (t.nvmArena_.kv_alloc_ptr_, r) idx
      (fun x hx => KeyComparator_entries ucmp _ _ _ x.2 r (hinv.entries x hx).2.2 hwf
        (hold x hx) hnew)
  · intro e he
    show BytesAt (storeBytes t.pm.bytes t.nvmArena_.kv_alloc_ptr_ r.bytes) e.1 e.2.bytes ∧
      e.1 + e.2.bytes.length ≤
        (t.nvmArena_.Allocate cfg t.pm (encodedLen r.key r.value)).2.1.kv_alloc_ptr_ ∧
      e.2.wellFormed
    rw [hc.1]
    rcases (mem_insertIdx _ _ _ _).mp he with h | h
    · rw [h]
      exact ⟨hnew, by show t.nvmArena_.kv_alloc_ptr_ + r.bytes.length ≤ _; omega, hwf⟩
    · have hb := hinv.entries e h
      exact ⟨hold e h, by omega, hb.2.2⟩
  · exact insertIdx_sorted_le ucmp hu (t.nvmArena_.kv_alloc_ptr_, r) idx hinv.sorted

theorem IndexLe_AddAll (cfg : Config) (ucmp : List Nat → List Nat → Int)
    (hu : TotalOrderCmp ucmp) (ops : List Rec) :
    ∀ (t : PmTable) (idx : List (Nat × Rec)), IndexLe ucmp t idx →
      (∀ r, r ∈ ops → r.wellFormed) →
      (PmTable.AddAll cfg ucmp t ops).1 = true →
      ∃ idx1, IndexLe ucmp (PmTable.AddAll cfg ucmp t ops).2 idx1 ∧
        (idx1.map Prod.snd).Perm (idx.map Prod.snd ++ ops) := by
  induction ops with
  | nil =>
    intro t idx hinv _ _
    exact ⟨idx, hinv, by simp⟩
  | cons r rest ih =>
    intro t idx hinv hwf hok
    simp only [PmTable.AddAll, Bool.and_eq_true] at hok ⊢
    have hfit : encodedLen r.key r.value + t.nvmArena_.MemoryUsage < cfg.PM_LOG_SIZE := by
      have h1 := hok.1
      rw [Add_fst] at h1
      exact of_decide_eq_true h1
    have h1 := IndexLe_Add cfg ucmp hu t idx r hinv (hwf r (List.mem_cons_self _ _)) hfit
    obtain ⟨idx2, h2, hp2⟩ := ih _ _ h1 (fun x hx => hwf x (List.mem_cons_of_mem _ hx)) hok.2
    refine ⟨idx2, h2, hp2.trans ?_⟩
    have hp3 : ((insertIdx (fun x => Rec.compare ucmp x r) (t.nvmArena_.kv_alloc_ptr_, r)
        idx).map Prod.snd).Perm (r :: idx.map Prod.snd) := by
      have := (insertIdx_perm (fun x => Rec.compare ucmp x r) (t.nvmArena_.kv_alloc_ptr_, r)
        idx).map Prod.snd
      simpa using this
    exact (List.Perm.append_right rest hp3).trans (by
      simp only [List.cons_append]
      exact List.perm_middle.symm)


/-- A forward iteration reads the index from the position of the iterator to the end. -/
theorem scan_eq (t : PmTable) (idx : List (Nat × Rec)) (htab : t.table_ = idx.map Prod.fst)
    (hent : ∀ e, e ∈ idx → BytesAt t.pm.bytes e.1 e.2.bytes ∧ e.2.sizesFit) :
    ∀ fuel pos, idx.length - pos < fuel →
      PmTableIterator.scan t fuel ⟨pos⟩ =
        some ((idx.drop pos).map (fun e => (e.2.key ++ EncodeFixed64 e.2.tag, e.2.value))) := by
  intro fuel
  induction fuel with
  | zero => intro pos h; omega
  | succ n ih =>
    intro pos h
    have hlen : t.table_.length = idx.length := by rw [htab, List.length_map]
    by_cases hp : pos < idx.length
    · have hmem : idx[pos] ∈ idx := List.getElem_mem hp
      have he := hent _ hmem
      have hget : t.table_.get? pos = some idx[pos].1 := by
        simp only [List.get?_eq_getElem?, htab, List.getElem?_map,
          List.getElem?_eq_getElem hp, Option.map_some']
      obtain ⟨k1, k2, k3⟩ := iterator_key_value t pos idx[pos].1 idx[pos].2 he.2 hget he.1
      have hnext := ih (pos + 1) (by omega)
      simp only [PmTableIterator.scan, k1, if_true, k2, k3, PmTableIterator.Next, hnext]
      rw [List.drop_eq_getElem_cons hp, List.map_cons]
    · have hv : PmTableIterator.Valid t ⟨pos⟩ = false := by
        simp only [PmTableIterator.Valid, decide_eq_false_iff_not, hlen]
        exact hp
      simp only [PmTableIterator.scan, hv, Bool.false_eq_true, if_false]
      rw [List.drop_eq_nil_of_le (by omega)]
      rfl

/-- Two seeks on a sorted index: when every entry before the first target is before the
second target, and so is every entry up to a record that the first seek cannot
pass, the first seek stops strictly before the second. -/
theorem FindGreaterOrEqual_lt (ucmp : List Nat → List Nat → Int) (cmpa cmpb : Nat → Int)
    (idx : List (Nat × Rec))
    (hs : idx.Pairwise (fun x y => Rec.compare ucmp x.2 y.2 ≤ 0))
    (r : Nat × Rec) (hr : r ∈ idx) (hra : 0 ≤ cmpa r.1)
    (mono : ∀ x, x ∈ idx → cmpa x.1 < 0 → cmpb x.1 < 0)
    (hb : ∀ x, x ∈ idx → (x = r ∨ Rec.compare ucmp x.2 r.2 ≤ 0) → cmpb x.1 < 0) :
    SkipList.FindGreaterOrEqual cmpa (idx.map Prod.fst) <
      SkipList.FindGreaterOrEqual cmpb (idx.map Prod.fst) := by
  induction idx with
  | nil => cases hr
  | cons x xs ih =>
    rw [List.pairwise_cons] at hs
    simp only [List.map_cons, SkipList.FindGreaterOrEqual]
    by_cases hx : cmpa x.1 < 0
    · have hxb := mono x (List.mem_cons_self _ _) hx
      have hrx : r ∈ xs := by
        rcases List.mem_cons.mp hr with h | h
        · rw [h] at hra; omega
        · exact h
      have := ih hs.2 hrx (fun y hy => mono y (List.mem_cons_of_mem _ hy))
        (fun y hy => hb y (List.mem_cons_of_mem _ hy))
      simp only [hx, hxb, if_true]
      omega
    · have hxb : cmpb x.1 < 0 := by
        apply hb x (List.mem_cons_self _ _)
        rcases List.mem_cons.mp hr with h | h
        · exact Or.inl h.symm
        · exact Or.inr (hs.1 r h)
      simp only [hx, hxb, if_true, if_false]
      omega

theorem EncodeKey_seekTarget (k : List Nat) (s : Nat) :
    EncodeKey (seekTarget k s) = (LookupKey.mk k s).memtable_key := by
  simp only [EncodeKey, seekTarget, LookupKey.memtable_key, List.length_append,
    EncodeFixed64_length, List.append_assoc]


/-- C12: after any sequence of successful `Add` calls on a fresh table, a forward
iteration (`SeekToFirst`, then `Next` until the iterator is not valid) visits every
added record exactly once, by user key ascending and, within one user key, by
sequence number descending.  And for two added user keys `a < b`, the seek to an
internal key of `a` whose sequence number is at least that of an added record of
`a` (`kMaxSequenceNumber`, say) stops strictly before the seek to any internal key
of `b`. -/
theorem forward_iteration_order (cfg : Config) (ucmp : List Nat → List Nat → Int)
    (hu : TotalOrderCmp ucmp) (pmLogHead member_addr : Nat) (region : Pmem) (ops : List Rec)
    (hwf : ∀ r, r ∈ ops → r.wellFormed)
    (hadd : (PmTable.AddAll cfg ucmp (PmTable.ctor cfg pmLogHead member_addr region) ops).1
      = true) :
    ∃ visited : List Rec,
      visited.Perm ops ∧
      visited.Pairwise
        (fun x y => ucmp x.key y.key < 0 ∨ (x.key = y.key ∧ y.seq ≤ x.seq)) ∧
      (∀ fuel, ops.length < fuel →
        PmTableIterator.scan
          (PmTable.AddAll cfg ucmp (PmTable.ctor cfg pmLogHead member_addr region) ops).2 fuel
          (PmTableIterator.SeekToFirst
            (PmTable.AddAll cfg ucmp (PmTable.ctor cfg pmLogHead member_addr region) ops).2) =
          some (visited.map (fun r =>
            (r.key ++ EncodeFixed64 (PackSequenceAndType r.seq r.type), r.value)))) ∧
      (∀ a b sa sb, sa < 2 ^ 56 → sb < 2 ^ 56 → ucmp a b < 0 →
        (∃ r, r ∈ ops ∧ r.key = a ∧ r.seq ≤ sa) → (∃ r, r ∈ ops ∧ r.key = b) →
        (PmTableIterator.Seek ucmp
          (PmTable.AddAll cfg ucmp (PmTable.ctor cfg pmLogHead member_addr region) ops).2
          (seekTarget a sa)).pos <
        (PmTableIterator.Seek ucmp
          (PmTable.AddAll cfg ucmp (PmTable.ctor cfg pmLogHead member_addr region) ops).2
          (seekTarget b sb)).pos) := by
  obtain ⟨idx, hinv, hperm⟩ := IndexLe_AddAll cfg ucmp hu ops _ []
    (IndexLe_ctor cfg ucmp pmLogHead member_addr region) hwf hadd
  have hperm1 : (idx.map Prod.snd).Perm ops := by simpa using hperm
  have hmemops : ∀ x, x ∈ idx → x.2 ∈ ops :=
    fun x hx => hperm1.subset (List.mem_map.mpr ⟨x, hx, rfl⟩)
  refine ⟨idx.map Prod.snd, hperm1, ?_, ?_, ?_⟩
  · rw [List.pairwise_map]
    refine List.Pairwise.imp_of_mem ?_ hinv.sorted
    intro x y hx hy hxy
    rw [Rec_compare_le_iff ucmp hu] at hxy
    rcases hxy with h | ⟨hk, ht⟩
    · exact Or.inl h
    · refine Or.inr ⟨hk, ?_⟩
      rw [Rec_tag_eq x.2 (hinv.entries x hx).2.2.1, Rec_tag_eq y.2 (hinv.entries y hy).2.2.1] at ht
      have b1 := ValueType_toNat_le x.2.type
      omega
  · intro fuel hfuel
    have hlen : idx.length = ops.length := by
      have := hperm1.length_eq
      simpa using this
    have h := scan_eq _ idx hinv.table
      (fun e he => ⟨(hinv.entries e he).1, (hinv.entries e he).2.2.2⟩) fuel 0 (by omega)
    rw [List.drop_zero] at h
    rw [List.map_map]
    exact h
  · intro a b sa sb hsa hsb hab ⟨ra, hra, hka, hsa1⟩ ⟨rb, hrb, hkb⟩
    obtain ⟨xa, hxa, hxa2⟩ := List.mem_map.mp (hperm1.symm.subset hra)
    have hla : a.length + 8 < 2 ^ 32 := by rw [← hka]; exact (hwf ra hra).2.1
    have hlb : b.length + 8 < 2 ^ 32 := by rw [← hkb]; exact (hwf rb hrb).2.1
    have hcmp : ∀ (k : List Nat) (s : Nat), k.length + 8 < 2 ^ 32 → s < 2 ^ 56 →
        ∀ x, x ∈ idx →
          KeyComparator ucmp
            (CharPtr.at (PmTable.AddAll cfg ucmp
              (PmTable.ctor cfg pmLogHead member_addr region) ops).2.pm.bytes x.1)
            (CharPtr.ofBytes (EncodeKey (seekTarget k s))) =
          Rec.compare ucmp x.2 (LookupKey.mk k s).target := by
      intro k s hk hs x hx
      rw [EncodeKey_seekTarget]
      exact KeyComparator_target ucmp _ _ x.2 ⟨k, s⟩ (hinv.entries x hx).2.2 hk hs
        (hinv.entries x hx).1
    simp only [PmTableIterator.Seek]
    rw [hinv.table]
    have hkeyb : ∀ x : Nat × Rec, (ucmp x.2.key a < 0 ∨ x.2.key = a) →
        Rec.compare ucmp x.2 (LookupKey.mk b sb).target < 0 := by
      intro x hx
      rw [Rec_compare_lt_iff ucmp hu]
      left
      show ucmp x.2.key b < 0
      rcases hx with h | h
      · exact hu.trans _ _ _ h hab
      · rw [h]; exact hab
    apply FindGreaterOrEqual_lt ucmp _ _ idx hinv.sorted xa hxa
    · rw [hcmp a sa hla hsa xa hxa, Rec_compare_nonneg_iff ucmp hu]
      right
      refine ⟨by rw [hxa2]; exact hka, ?_⟩
      rw [target_tag ⟨a, sa⟩ hsa, hxa2, Rec_tag_eq ra (hwf ra hra).1]
      have := ValueType_toNat_le ra.type
      show 256 * ra.seq + ra.type.toNat ≤ 256 * sa + 1
      omega
    · intro x hx hlt
      rw [hcmp a sa hla hsa x hx, Rec_compare_lt_iff ucmp hu] at hlt
      rw [hcmp b sb hlb hsb x hx]
      apply hkeyb
      rcases hlt with h | ⟨h, _⟩
      · exact Or.inl h
      · exact Or.inr h
    · intro x hx hor
      rw [hcmp b sb hlb hsb x hx]
      apply hkeyb
      rcases hor with h | h
      · right; rw [h, hxa2]; exact hka
      · rw [Rec_compare_le_iff ucmp hu, hxa2, hka] at h
        rcases h with h | ⟨h, _⟩
        · exact Or.inl h
        · exact Or.inr h

theorem forward_iteration_order_witness :
    ∃ visited : List Rec, visited.Perm exampleOps ∧
      PmTableIterator.scan
        (PmTable.AddAll exampleConfig Slice.compare
          (PmTable.ctor exampleConfig 0 5000 exampleRegion) exampleOps).2 4
        (PmTableIterator.SeekToFirst
          (PmTable.AddAll exampleConfig Slice.compare
            (PmTable.ctor exampleConfig 0 5000 exampleRegion) exampleOps).2) =
        some (visited.map (fun r =>
          (r.key ++ EncodeFixed64 (PackSequenceAndType r.seq r.type), r.value))) :=
  (forward_iteration_order exampleConfig Slice.compare Slice_compare_total 0 5000
    exampleRegion exampleOps (by decide) (by decide)).imp
    (fun _ h => ⟨h.1, h.2.2.1 4 (by decide)⟩)


/-! ## The registry: stores into the nodes -/

theorem setNext_next (heap : Nat → ListNode) (p v x : Nat) :
    (setNext heap p v x).next = if x = p then v else (heap x).next := by
  unfold setNext
  by_cases h : x = p
  · subst h; simp
  · simp [Function.update_noteq h, h]

theorem setNext_pre (heap : Nat → ListNode) (p v x : Nat) :
    (setNext heap p v x).pre = (heap x).pre := by
  unfold setNext
  by_cases h : x = p
  · subst h; simp
  · simp [Function.update_noteq h]

theorem setNext_pmTable (heap : Nat → ListNode) (p v x : Nat) :
    (setNext heap p v x).pmTable_ = (heap x).pmTable_ := by
  unfold setNext
  by_cases h : x = p
  · subst h; simp
  · simp [Function.update_noteq h]

theorem setPre_pre (heap : Nat → ListNode) (p v x : Nat) :
    (setPre heap p v x).pre = if x = p then v else (heap x).pre := by
  unfold setPre
  by_cases h : x = p
  · subst h; simp
  · simp [Function.update_noteq h, h]

theorem setPre_next (heap : Nat → ListNode) (p v x : Nat) :
    (setPre heap p v x).next = (heap x).next := by
  unfold setPre
  by_cases h : x = p
  · subst h; simp
  · simp [Function.update_noteq h]

theorem setPre_pmTable (heap : Nat → ListNode) (p v x : Nat) :
    (setPre heap p v x).pmTable_ = (heap x).pmTable_ := by
  unfold setPre
  by_cases h : x = p
  · subst h; simp
  · simp [Function.update_noteq h]

theorem newListNode_apply (heap : Nat → ListNode) (p t x : Nat) :
    newListNode heap p t x = if x = p then { pmTable_ := t, pre := 0, next := 0 } else heap x := by
  unfold newListNode
  by_cases h : x = p
  · subst h; simp
  · simp [Function.update_noteq h, h]

/-- The nodes after `InsertPmtable` has linked in the new node. -/
theorem insert_heap_fields (heap : Nat → ListNode) (head node t pre x : Nat) :
    ((setPre (setNext (setPre (setNext (newListNode heap node t) pre node) node pre)
        node head) head node) x).next =
      (if x = node then head else if x = pre then node else (heap x).next) ∧
    ((setPre (setNext (setPre (setNext (newListNode heap node t) pre node) node pre)
        node head) head node) x).pre =
      (if x = head then node else if x = node then pre else (heap x).pre) ∧
    ((setPre (setNext (setPre (setNext (newListNode heap node t) pre node) node pre)
        node head) head node) x).pmTable_ =
      (if x = node then t else (heap x).pmTable_) := by
  simp only [setPre_next, setNext_next, setPre_pre, setNext_pre, setPre_pmTable,
    setNext_pmTable, newListNode_apply]
  refine ⟨?_, ?_, ?_⟩
  · split_ifs <;> rfl
  · split_ifs <;> rfl
  · split_ifs <;> rfl

/-- The nodes after `RemovePmtable` has unlinked a node. -/
theorem remove_heap_fields (heap : Nat → ListNode) (pre next x : Nat) :
    ((setPre (setNext heap pre next) next pre) x).next =
      (if x = pre then next else (heap x).next) ∧
    ((setPre (setNext heap pre next) next pre) x).pre =
      (if x = next then pre else (heap x).pre) ∧
    ((setPre (setNext heap pre next) next pre) x).pmTable_ = (heap x).pmTable_ := by
  simp only [setPre_next, setNext_next, setPre_pre, setNext_pre, setPre_pmTable,
    setNext_pmTable, and_self]

/-! ## The registry: linked segments -/

theorem Linked_append (heap : Nat → ListNode) (ys : List Nat) (y b : Nat) :
    ∀ (xs : List Nat) (a : Nat),
      Linked heap a (xs ++ y :: ys) b ↔ (Linked heap a xs y ∧ Linked heap y ys b) := by
  intro xs
  induction xs with
  | nil =>
    intro a
    cases ys <;> simp [Linked]
  | cons x xs ih =>
    intro a
    show (((heap a).next = x ∧ (heap x).pre = a) ∧ Linked heap x (xs ++ y :: ys) b) ↔ _
    rw [ih x]
    simp only [Linked, and_assoc]

theorem Linked_pre_mem (heap : Nat → ListNode) (b : Nat) :
    ∀ (xs : List Nat) (a : Nat), Linked heap a xs b → (heap b).pre ∈ a :: xs := by
  intro xs
  induction xs with
  | nil => intro a h; rw [h.2]; exact List.mem_cons_self _ _
  | cons x xs ih => intro a h; exact List.mem_cons_of_mem _ (ih x h.2)

theorem Linked_next_mem (heap : Nat → ListNode) (a b : Nat) (xs : List Nat)
    (h : Linked heap a xs b) : (heap a).next ∈ xs ++ [b] := by
  cases xs with
  | nil => rw [h.1]; simp
  | cons x xs => rw [h.1.1]; simp

theorem Linked_frame (heap heap1 : Nat → ListNode) (b : Nat) :
    ∀ (xs : List Nat) (a : Nat), Linked heap a xs b →
      (∀ x, x ∈ a :: xs → (heap1 x).next = (heap x).next) →
      (∀ x, x ∈ xs ++ [b] → (heap1 x).pre = (heap x).pre) →
      Linked heap1 a xs b := by
  intro xs
  induction xs with
  | nil =>
    intro a h hn hp
    exact ⟨by rw [hn a (by simp)]; exact h.1, by rw [hp b (by simp)]; exact h.2⟩
  | cons x xs ih =>
    intro a h hn hp
    refine ⟨⟨by rw [hn a (by simp)]; exact h.1.1, by rw [hp x (by simp)]; exact h.1.2⟩, ?_⟩
    exact ih x h.2 (fun z hz => hn z (List.mem_cons_of_mem _ hz))
      (fun z hz => hp z (by simp only [List.cons_append, List.mem_cons]; exact Or.inr hz))

/-- Linking a new node in at the tail. -/
theorem Linked_insert (heap heap1 : Nat → ListNode) (b node : Nat) (hnb : node ≠ b)
    (hn : ∀ x, (heap1 x).next =
      if x = node then b else if x = (heap b).pre then node else (heap x).next)
    (hp : ∀ x, (heap1 x).pre =
      if x = b then node else if x = node then (heap b).pre else (heap x).pre) :
    ∀ (xs : List Nat) (a : Nat), Linked heap a xs b → (a :: xs).Nodup → b ∉ xs →
      node ∉ a :: xs → Linked heap1 a (xs ++ [node]) b := by
  intro xs
  induction xs with
  | nil =>
    intro a h _ _ hnode
    have ha : a ≠ node := fun e => hnode (by rw [e]; simp)
    have hpre : (heap b).pre = a := h.2
    refine ⟨⟨?_, ?_⟩, ?_, ?_⟩
    · rw [hn a, if_neg ha, hpre, if_pos rfl]
    · rw [hp node, if_neg hnb, if_pos rfl, hpre]
    · rw [hn node, if_pos rfl]
    · rw [hp b, if_pos rfl]
  | cons x xs ih =>
    intro a h hnd hb hnode
    have ha : a ≠ node := fun e => hnode (by rw [e]; simp)
    have hx : x ≠ node := fun e => hnode (by rw [e]; simp)
    have hxb : x ≠ b := fun e => hb (by rw [e]; simp)
    have hpre : (heap b).pre ∈ x :: xs := Linked_pre_mem heap b xs x h.2
    have hapre : a ≠ (heap b).pre := by
      intro e
      rw [← e] at hpre
      exact (List.nodup_cons.mp hnd).1 hpre
    refine ⟨⟨?_, ?_⟩, ?_⟩
    · rw [hn a, if_neg ha, if_neg hapre]; exact h.1.1
    · rw [hp x, if_neg hxb, if_neg hx]; exact h.1.2
    · exact ih x h.2 (List.nodup_cons.mp hnd).2 (fun hm => hb (List.mem_cons_of_mem _ hm))
        (fun hm => hnode (List.mem_cons_of_mem _ hm))

/-- Unlinking the node `n` between two linked segments. -/
theorem Linked_remove (heap heap1 : Nat → ListNode) (n b : Nat) (ys : List Nat)
    (hys : Linked heap n ys b)
    (hn : ∀ x, (heap1 x).next =
      if x = (heap n).pre then (heap n).next else (heap x).next)
    (hp : ∀ x, (heap1 x).pre =
      if x = (heap n).next then (heap n).pre else (heap x).pre) :
    ∀ (xs : List Nat) (a : Nat), Linked heap a xs n → (a :: xs ++ n :: ys).Nodup →
      b ∉ xs ++ n :: ys → Linked heap1 a (xs ++ ys) b := by
  have hnext : (heap n).next ∈ ys ++ [b] := Linked_next_mem heap n b ys hys
  intro xs
  induction xs with
  | nil =>
    intro a h hnd hb
    have hpre : (heap n).pre = a := h.2
    have hnd1 : (a :: n :: ys).Nodup := hnd
    have hb1 : b ∉ n :: ys := hb
    have ha : a ∉ n :: ys := (List.nodup_cons.mp hnd1).1
    have hys1 : ys.Nodup := (List.nodup_cons.mp (List.nodup_cons.mp hnd1).2).2
    cases ys with
    | nil =>
      have hnx : (heap n).next = b := hys.1
      exact ⟨by rw [hn a, hpre, if_pos rfl, hnx], by rw [hp b, hnx, if_pos rfl, hpre]⟩
    | cons y ys1 =>
      have hnx : (heap n).next = y := hys.1.1
      refine ⟨⟨by rw [hn a, hpre, if_pos rfl, hnx], by rw [hp y, hnx, if_pos rfl, hpre]⟩, ?_⟩
      apply Linked_frame heap heap1 b ys1 y hys.2
      · intro z hz
        rw [hn z, hpre, if_neg]
        intro e
        rw [e] at hz
        exact ha (List.mem_cons_of_mem _ hz)
      · intro z hz
        rw [hp z, hnx, if_neg]
        intro e
        rw [e] at hz
        rcases List.mem_append.mp hz with h1 | h1
        · exact (List.nodup_cons.mp hys1).1 h1
        · rw [List.mem_singleton] at h1
          exact hb1 (by rw [← h1]; exact List.mem_cons_of_mem _ (List.mem_cons_self _ _))
  | cons x xs ih =>
    intro a h hnd hb
    have hpre : (heap n).pre ∈ x :: xs := Linked_pre_mem heap n xs x h.2
    have hnd0 : (a :: ((x :: xs) ++ n :: ys)).Nodup := hnd
    have hb0 : b ∉ (x :: xs) ++ n :: ys := hb
    have hnd1 := List.nodup_cons.mp hnd0
    have hnd2 : (x :: (xs ++ n :: ys)).Nodup := hnd1.2
    have hapre : a ≠ (heap n).pre := by
      intro e
      rw [← e] at hpre
      exact hnd1.1 (List.mem_append_left _ hpre)
    have hxnext : x ≠ (heap n).next := by
      intro e
      rw [← e] at hnext
      rcases List.mem_append.mp hnext with h1 | h1
      · exact (List.nodup_cons.mp hnd2).1 (List.mem_append_right _ (List.mem_cons_of_mem _ h1))
      · rw [List.mem_singleton] at h1
        exact hb0 (by rw [← h1]; exact List.mem_append_left _ (List.mem_cons_self _ _))
    refine ⟨⟨?_, ?_⟩, ?_⟩
    · rw [hn a, if_neg hapre]; exact h.1.1
    · rw [hp x, if_neg hxnext]; exact h.1.2
    · exact ih x h.2 hnd2 (fun hm => hb0 (List.mem_cons_of_mem _ hm))

/-- The traversal of a linked segment. -/
theorem traverseFrom_Linked (heap : Nat → ListNode) (b : Nat) :
    ∀ (xs : List Nat) (a fuel : Nat), Linked heap a xs b → b ∉ xs → xs.length < fuel →
      traverseFrom heap b fuel (heap a).next = some (xs.map (fun x => (heap x).pmTable_)) := by
  intro xs
  induction xs with
  | nil =>
    intro a fuel h _ hf
    cases fuel with
    | zero => omega
    | succ f => simp only [traverseFrom, h.1, if_true, List.map_nil]
  | cons x xs ih =>
    intro a fuel h hb hf
    cases fuel with
    | zero => omega
    | succ f =>
      have hxb : x ≠ b := fun e => hb (by rw [e]; simp)
      simp only [traverseFrom, h.1.1, hxb, if_false, List.map_cons]
      rw [ih x f h.2 (fun hm => hb (List.mem_cons_of_mem _ hm))
        (by simp only [List.length_cons] at hf; omega)]
      rfl


/-! ## The registry: the map -/

theorem lookup_of_mem (mp : List (Nat × Nat)) (hk : (mp.map Prod.fst).Nodup) (k n : Nat)
    (h : (k, n) ∈ mp) : mp.lookup k = some n := by
  induction mp with
  | nil => cases h
  | cons e es ih =>
    obtain ⟨k1, n1⟩ := e
    simp only [List.map_cons, List.nodup_cons] at hk
    rcases List.mem_cons.mp h with h1 | h1
    · have e1 := (Prod.mk.inj h1).1
      have e2 := (Prod.mk.inj h1).2
      subst e1 e2
      simp [List.lookup]
    · have hne : k ≠ k1 := by
        intro e
        exact hk.1 (by rw [← e]; exact List.mem_map.mpr ⟨(k, n), h1, rfl⟩)
      have hb : (k == k1) = false := by simpa using hne
      simp only [List.lookup, hb]
      exact ih hk.2 h1

theorem lookup_none (mp : List (Nat × Nat)) (k : Nat) (h : ∀ n, (k, n) ∉ mp) :
    mp.lookup k = none := by
  induction mp with
  | nil => rfl
  | cons e es ih =>
    obtain ⟨k1, n1⟩ := e
    have hne : k ≠ k1 := by
      intro e
      exact h n1 (by rw [e]; exact List.mem_cons_self _ _)
    have hb : (k == k1) = false := by simpa using hne
    simp only [List.lookup, hb]
    exact ih (fun n hn => h n (List.mem_cons_of_mem _ hn))

theorem mapCount_eq_zero_iff (mp : List (Nat × Nat)) (hk : (mp.map Prod.fst).Nodup) (k : Nat) :
    mapCount mp k = 0 ↔ ∀ n, (k, n) ∉ mp := by
  unfold mapCount
  constructor
  · intro h n hn
    rw [lookup_of_mem mp hk k n hn] at h
    simp at h
  · intro h
    rw [lookup_none mp k h]
    simp

theorem mem_mapErase (mp : List (Nat × Nat)) (k : Nat) (e : Nat × Nat) :
    e ∈ mapErase mp k ↔ (e ∈ mp ∧ e.1 ≠ k) := by
  simp only [mapErase, List.mem_filter, decide_eq_true_eq]

theorem mapErase_keys (mp : List (Nat × Nat)) (hk : (mp.map Prod.fst).Nodup) (k : Nat) :
    ((mapErase mp k).map Prod.fst).Nodup :=
  List.Nodup.sublist (List.Sublist.map Prod.fst (List.filter_sublist mp)) hk

theorem mapErase_length (mp : List (Nat × Nat)) (hk : (mp.map Prod.fst).Nodup) (k n : Nat)
    (h : (k, n) ∈ mp) : (mapErase mp k).length + 1 = mp.length := by
  induction mp with
  | nil => cases h
  | cons e es ih =>
    simp only [List.map_cons, List.nodup_cons] at hk
    rcases List.mem_cons.mp h with h1 | h1
    · have hrest : mapErase es k = es := by
        unfold mapErase
        rw [List.filter_eq_self]
        intro x hx
        simp only [decide_eq_true_eq]
        intro e1
        exact hk.1 (by rw [← h1]; exact List.mem_map.mpr ⟨x, hx, e1⟩)
      have : mapErase (e :: es) k = es := by
        rw [← h1]
        simp only [mapErase, List.filter_cons, ne_eq, not_true_eq_false, decide_False,
          Bool.false_eq_true, if_false]
        exact hrest
      rw [this, List.length_cons]
    · have hne : e.1 ≠ k := by
        intro e1
        exact hk.1 (by rw [e1]; exact List.mem_map.mpr ⟨(k, n), h1, rfl⟩)
      have : mapErase (e :: es) k = e :: mapErase es k := by
        simp only [mapErase, List.filter_cons, ne_eq, hne, not_false_eq_true, decide_True,
          if_true]
      rw [this, List.length_cons, List.length_cons, ih hk.2 h1]

theorem mapErase_absent (mp : List (Nat × Nat)) (k : Nat) (h : ∀ n, (k, n) ∉ mp) :
    mapErase mp k = mp := by
  unfold mapErase
  rw [List.filter_eq_self]
  intro x hx
  simp only [decide_eq_true_eq]
  intro e1
  exact h x.2 (by rw [← e1]; exact hx)


/-! ## The registry: the invariant -/

theorem QueueInv_ctor (heap : Nat → ListNode) (p : Nat) :
    QueueInv (PmtableQueue.ctor heap p) [] := by
  refine ⟨?_, (by simp [PmtableQueue.ctor]), (fun e he => by cases he), List.nodup_nil,
    List.nodup_nil, (fun k n => by simp [PmtableQueue.ctor]), (by simp [PmtableQueue.ctor]),
    (fun x => by simp [PmtableQueue.ctor])⟩
  show Linked _ p [] p
  simp only [PmtableQueue.ctor, Linked, setPre_next, setNext_next, setPre_pre, if_true,
    and_self]

theorem QueueInv_not_mem (q : PmtableQueue) (l : List (Nat × Nat)) (hinv : QueueInv q l)
    (t : Nat) : mapCount q.mp_ t = 0 ↔ t ∉ l.map Prod.snd := by
  rw [mapCount_eq_zero_iff q.mp_ hinv.keys]
  constructor
  · intro h hm
    obtain ⟨e, he, het⟩ := List.mem_map.mp hm
    exact h e.1 ((hinv.map t e.1).mpr (by rw [← het]; exact he))
  · intro h n hn
    exact h (List.mem_map.mpr ⟨(n, t), (hinv.map t n).mp hn, rfl⟩)

theorem InsertPmtable_of_absent (q : PmtableQueue) (node t : Nat)
    (habs : mapCount q.mp_ t = 0) (hne : node ≠ q.head_) :
    (q.InsertPmtable node t).head_ = q.head_ ∧
    (q.InsertPmtable node t).allocated = node :: q.allocated ∧
    (q.InsertPmtable node t).mp_ = mapSet q.mp_ t node ∧
    ∀ x,
      ((q.InsertPmtable node t).heap x).next =
        (if x = node then q.head_ else if x = (q.heap q.head_).pre then node
          else (q.heap x).next) ∧
      ((q.InsertPmtable node t).heap x).pre =
        (if x = q.head_ then node else if x = node then (q.heap q.head_).pre
          else (q.heap x).pre) ∧
      ((q.InsertPmtable node t).heap x).pmTable_ =
        (if x = node then t else (q.heap x).pmTable_) := by
  have e : (newListNode q.heap node t q.head_).pre = (q.heap q.head_).pre := by
    rw [newListNode_apply, if_neg (Ne.symm hne)]
  unfold PmtableQueue.InsertPmtable
  rw [if_pos habs]
  refine ⟨rfl, rfl, rfl, fun x => ?_⟩
  rw [← e]
  exact insert_heap_fields q.heap q.head_ node t (newListNode q.heap node t q.head_).pre x

theorem QueueInv_insert (q : PmtableQueue) (l : List (Nat × Nat)) (hinv : QueueInv q l)
    (node t : Nat) (hfresh : node ∉ q.allocated) (habs : mapCount q.mp_ t = 0) :
    QueueInv (q.InsertPmtable node t) (l ++ [(node, t)]) := by
  have hnl : ¬ (node = q.head_ ∨ node ∈ l.map Prod.fst) := fun h => hfresh ((hinv.alloc node).mpr h)
  have hne : node ≠ q.head_ := fun h => hnl (Or.inl h)
  have hnm : node ∉ l.map Prod.fst := fun h => hnl (Or.inr h)
  have htl : t ∉ l.map Prod.snd := (QueueInv_not_mem q l hinv t).mp habs
  obtain ⟨e1, e2, e3, hf⟩ := InsertPmtable_of_absent q node t habs hne
  have hnd := List.nodup_cons.mp hinv.nodup
  refine ⟨?_, ?_, ?_, ?_, ?_, ?_, ?_, ?_⟩
  · rw [e1, List.map_append, List.map_cons, List.map_nil]
    exact Linked_insert q.heap _ q.head_ node hne (fun x => (hf x).1) (fun x => (hf x).2.1)
      (l.map Prod.fst) q.head_ hinv.linked hinv.nodup hnd.1
      (by
        intro hm
        rcases List.mem_cons.mp hm with h | h
        · exact hne h
        · exact hnm h)
  · rw [e1, List.map_append, List.map_cons, List.map_nil, List.nodup_cons]
    refine ⟨?_, ?_⟩
    · intro hm
      rcases List.mem_append.mp hm with h | h
      · exact hnd.1 h
      · rw [List.mem_singleton] at h
        exact hne h.symm
    · rw [List.nodup_append]
      refine ⟨hnd.2, List.nodup_singleton _, ?_⟩
      intro a ha hb
      rw [List.mem_singleton] at hb
      have hb1 : a = node := hb
      exact hnm (by rw [← hb1]; exact ha)
  · intro e he
    rw [(hf e.1).2.2]
    rcases List.mem_append.mp he with h | h
    · have : e.1 ≠ node := fun h1 => hnm (by rw [← h1]; exact List.mem_map.mpr ⟨e, h, rfl⟩)
      rw [if_neg this]
      exact hinv.tables e h
    · rw [List.mem_singleton] at h
      rw [h, if_pos rfl]
  · rw [List.map_append, List.map_cons, List.map_nil, List.nodup_append]
    refine ⟨hinv.tnodup, List.nodup_singleton _, ?_⟩
    intro a ha hb
    rw [List.mem_singleton] at hb
    have hb1 : a = t := hb
    exact htl (by rw [← hb1]; exact ha)
  · rw [e3]
    simp only [mapSet, List.map_cons, List.nodup_cons]
    refine ⟨?_, mapErase_keys q.mp_ hinv.keys t⟩
    intro hm
    obtain ⟨x, hx, hxt⟩ := List.mem_map.mp hm
    exact ((mem_mapErase q.mp_ t x).mp hx).2 hxt
  · intro k n
    rw [e3]
    constructor
    · intro hm
      rcases List.mem_cons.mp hm with h | h
      · have h1 := Prod.mk.inj h
        rw [h1.1, h1.2]
        exact List.mem_append_right _ (List.mem_singleton.mpr rfl)
      · exact List.mem_append_left _ ((hinv.map k n).mp ((mem_mapErase q.mp_ t _).mp h).1)
    · intro hm
      rcases List.mem_append.mp hm with h | h
      · refine List.mem_cons_of_mem _ ((mem_mapErase q.mp_ t _).mpr ⟨(hinv.map k n).mpr h, ?_⟩)
        intro hk
        exact htl (List.mem_map.mpr ⟨(n, k), h, hk⟩)
      · have h1 := Prod.mk.inj (List.mem_singleton.mp h)
        rw [h1.1, h1.2]
        exact List.mem_cons_self _ _
  · rw [e2, List.nodup_cons]
    exact ⟨hfresh, hinv.anodup⟩
  · intro p
    rw [e1, e2, List.mem_cons, hinv.alloc p, List.map_append, List.mem_append, List.map_cons,
      List.map_nil, List.mem_singleton]
    tauto


theorem RemovePmtable_of_present (q : PmtableQueue) (t : Nat)
    (hpres : mapCount q.mp_ t ≠ 0) :
    (q.RemovePmtable t).head_ = q.head_ ∧
    (q.RemovePmtable t).allocated = q.allocated.erase (mapGet q.mp_ t) ∧
    (q.RemovePmtable t).mp_ = mapErase q.mp_ t ∧
    ∀ x,
      ((q.RemovePmtable t).heap x).next =
        (if x = (q.heap (mapGet q.mp_ t)).pre then (q.heap (mapGet q.mp_ t)).next
          else (q.heap x).next) ∧
      ((q.RemovePmtable t).heap x).pre =
        (if x = (q.heap (mapGet q.mp_ t)).next then (q.heap (mapGet q.mp_ t)).pre
          else (q.heap x).pre) ∧
      ((q.RemovePmtable t).heap x).pmTable_ = (q.heap x).pmTable_ := by
  unfold PmtableQueue.RemovePmtable
  rw [if_pos hpres]
  exact ⟨rfl, rfl, rfl, fun x => remove_heap_fields q.heap _ _ x⟩

theorem QueueInv_remove (q : PmtableQueue) (l : List (Nat × Nat)) (hinv : QueueInv q l)
    (t : Nat) (hpres : mapCount q.mp_ t ≠ 0) :
    ∃ l1 l2 n, l = l1 ++ (n, t) :: l2 ∧ QueueInv (q.RemovePmtable t) (l1 ++ l2) := by
  have hex : ∃ n, (t, n) ∈ q.mp_ := by
    by_contra hc
    push_neg at hc
    exact hpres ((mapCount_eq_zero_iff q.mp_ hinv.keys t).mpr hc)
  obtain ⟨n, hn⟩ := hex
  have hnl : (n, t) ∈ l := (hinv.map t n).mp hn
  obtain ⟨l1, l2, hl⟩ := List.append_of_mem hnl
  have hget : mapGet q.mp_ t = n := by
    unfold mapGet
    rw [lookup_of_mem q.mp_ hinv.keys t n hn]
    rfl
  obtain ⟨e1, e2, e3, hf⟩ := RemovePmtable_of_present q t hpres
  rw [hget] at e2 hf
  have hmapf : l.map Prod.fst = l1.map Prod.fst ++ n :: l2.map Prod.fst := by
    rw [hl, List.map_append, List.map_cons]
  have hmaps : l.map Prod.snd = l1.map Prod.snd ++ t :: l2.map Prod.snd := by
    rw [hl, List.map_append, List.map_cons]
  have hnodup : (q.head_ :: (l1.map Prod.fst ++ n :: l2.map Prod.fst)).Nodup := by
    rw [← hmapf]; exact hinv.nodup
  have hnd := List.nodup_cons.mp hnodup
  have hlinked := hinv.linked
  rw [hmapf, Linked_append] at hlinked
  have hsubf : List.Sublist (l1.map Prod.fst ++ l2.map Prod.fst)
      (l1.map Prod.fst ++ n :: l2.map Prod.fst) :=
    List.Sublist.append (List.Sublist.refl _) (List.sublist_cons_self _ _)
  have hsubs : List.Sublist (l1.map Prod.snd ++ l2.map Prod.snd)
      (l1.map Prod.snd ++ t :: l2.map Prod.snd) :=
    List.Sublist.append (List.Sublist.refl _) (List.sublist_cons_self _ _)
  have htn : t ∉ l1.map Prod.snd ++ l2.map Prod.snd := by
    have h := hinv.tnodup
    rw [hmaps] at h
    have h1 := List.nodup_middle.mp h
    exact (List.nodup_cons.mp h1).1
  have hnn : n ∉ l1.map Prod.fst ++ l2.map Prod.fst := by
    have h1 := List.nodup_middle.mp hnd.2
    exact (List.nodup_cons.mp h1).1
  have hnh : n ≠ q.head_ := by
    intro e
    exact hnd.1 (by rw [← e]; simp)
  refine ⟨l1, l2, n, hl, ?_, ?_, ?_, ?_, ?_, ?_, ?_, ?_⟩
  · rw [e1, List.map_append]
    exact Linked_remove q.heap _ n q.head_ (l2.map Prod.fst) hlinked.2
      (fun x => (hf x).1) (fun x => (hf x).2.1) (l1.map Prod.fst) q.head_ hlinked.1
      hnodup hnd.1
  · rw [e1, List.map_append, List.nodup_cons]
    exact ⟨fun hm => hnd.1 (hsubf.subset hm), List.Nodup.sublist hsubf hnd.2⟩
  · intro e he
    rw [(hf e.1).2.2]
    apply hinv.tables e
    rw [hl]
    rcases List.mem_append.mp he with h | h
    · exact List.mem_append_left _ h
    · exact List.mem_append_right _ (List.mem_cons_of_mem _ h)
  · rw [List.map_append]
    have h := hinv.tnodup
    rw [hmaps] at h
    exact List.Nodup.sublist hsubs h
  · rw [e3]
    exact mapErase_keys q.mp_ hinv.keys t
  · intro k m
    rw [e3, mem_mapErase, hinv.map k m, hl]
    constructor
    · rintro ⟨hm, hk⟩
      rcases List.mem_append.mp hm with h | h
      · exact List.mem_append_left _ h
      · rcases List.mem_cons.mp h with h1 | h1
        · exact absurd (Prod.mk.inj h1).2 hk
        · exact List.mem_append_right _ h1
    · intro hm
      refine ⟨?_, ?_⟩
      · rcases List.mem_append.mp hm with h | h
        · exact List.mem_append_left _ h
        · exact List.mem_append_right _ (List.mem_cons_of_mem _ h)
      · intro hk
        apply htn
        rw [← List.map_append]
        exact List.mem_map.mpr ⟨(m, k), hm, hk⟩
  · rw [e2]
    exact List.Nodup.erase _ hinv.anodup
  · intro p
    rw [e1, e2, List.Nodup.mem_erase_iff hinv.anodup, hinv.alloc p, hmapf, List.map_append]
    constructor
    · rintro ⟨hpn, hp | hp⟩
      · exact Or.inl hp
      · right
        rcases List.mem_append.mp hp with h | h
        · exact List.mem_append_left _ h
        · rcases List.mem_cons.mp h with h1 | h1
          · exact absurd h1 hpn
          · exact List.mem_append_right _ h1
    · rintro (hp | hp)
      · exact ⟨by rw [hp]; exact fun e => hnh e.symm, Or.inl hp⟩
      · refine ⟨fun e => hnn (by rw [← e]; exact hp), Or.inr ?_⟩
        rcases List.mem_append.mp hp with h | h
        · exact List.mem_append_left _ h
        · exact List.mem_append_right _ (List.mem_cons_of_mem _ h)

theorem QueueInv_traverse (q : PmtableQueue) (l : List (Nat × Nat)) (hinv : QueueInv q l)
    (fuel : Nat) (hf : l.length < fuel) : q.traverse fuel = some (l.map Prod.snd) := by
  have hnd := List.nodup_cons.mp hinv.nodup
  have h := traverseFrom_Linked q.heap q.head_ (l.map Prod.fst) q.head_ fuel hinv.linked hnd.1
    (by rw [List.length_map]; exact hf)
  unfold PmtableQueue.traverse
  rw [h, List.map_map]
  congr 1
  apply List.map_congr_left
  intro e he
  exact hinv.tables e he

theorem QueueInv_capacity (q : PmtableQueue) (l : List (Nat × Nat)) (hinv : QueueInv q l) :
    q.capacity = l.length := by
  have hn1 : q.mp_.Nodup := List.Nodup.of_map Prod.fst hinv.keys
  have hn2 : (l.map Prod.swap).Nodup := by
    apply List.Nodup.map Prod.swap_injective
    exact List.Nodup.of_map Prod.fst (List.nodup_cons.mp hinv.nodup).2
  have hperm : q.mp_.Perm (l.map Prod.swap) := by
    rw [List.perm_ext_iff_of_nodup hn1 hn2]
    intro e
    obtain ⟨k, n⟩ := e
    rw [hinv.map k n]
    simp only [List.mem_map, Prod.exists, Prod.swap_prod_mk, Prod.mk.injEq]
    constructor
    · intro h; exact ⟨n, k, h, rfl, rfl⟩
    · rintro ⟨a, b, h, h1, h2⟩; rw [← h1, ← h2]; exact h
  unfold PmtableQueue.capacity
  rw [hperm.length_eq, List.length_map]

theorem QReach_inv (q : PmtableQueue) (h : QReach q) : ∃ l, QueueInv q l := by
  induction h with
  | ctor heap p => exact ⟨[], QueueInv_ctor heap p⟩
  | insert q node t _ hfresh ih =>
    obtain ⟨l, hl⟩ := ih
    by_cases habs : mapCount q.mp_ t = 0
    · exact ⟨_, QueueInv_insert q l hl node t hfresh habs⟩
    · refine ⟨l, ?_⟩
      unfold PmtableQueue.InsertPmtable
      rw [if_neg habs]
      exact hl
  | remove q t _ ih =>
    obtain ⟨l, hl⟩ := ih
    by_cases hpres : mapCount q.mp_ t ≠ 0
    · obtain ⟨l1, l2, n, _, h2⟩ := QueueInv_remove q l hl t hpres
      exact ⟨_, h2⟩
    · refine ⟨l, ?_⟩
      unfold PmtableQueue.RemovePmtable
      rw [if_neg hpres]
      exact hl



/-! ## The registry: consequences of the invariant -/

theorem InsertPmtable_of_present (q : PmtableQueue) (node t : Nat)
    (hpres : mapCount q.mp_ t ≠ 0) : q.InsertPmtable node t = q := by
  unfold PmtableQueue.InsertPmtable
  rw [if_neg hpres]

theorem RemovePmtable_of_absent (q : PmtableQueue) (t : Nat)
    (habs : mapCount q.mp_ t = 0) : q.RemovePmtable t = q := by
  unfold PmtableQueue.RemovePmtable
  rw [if_neg (not_not.mpr habs)]

theorem InsertPmtable_maps (q : PmtableQueue) (node t : Nat)
    (habs : mapCount q.mp_ t = 0) :
    (q.InsertPmtable node t).allocated = node :: q.allocated ∧
    (q.InsertPmtable node t).mp_ = mapSet q.mp_ t node := by
  unfold PmtableQueue.InsertPmtable
  rw [if_pos habs]
  exact ⟨rfl, rfl⟩

theorem QueueInv_absent_iff (q : PmtableQueue) (l : List (Nat × Nat)) (hinv : QueueInv q l)
    (t : Nat) : mapCount q.mp_ t = 0 ↔ t ∉ l.map Prod.snd := by
  rw [mapCount_eq_zero_iff q.mp_ hinv.keys t]
  constructor
  · intro h hm
    obtain ⟨e, he, het⟩ := List.mem_map.mp hm
    apply h e.1
    rw [hinv.map t e.1, ← het]
    exact he
  · intro h n hn
    apply h
    exact List.mem_map.mpr ⟨(n, t), (hinv.map t n).mp hn, rfl⟩

theorem QueueInv_mapGet (q : PmtableQueue) (l : List (Nat × Nat)) (hinv : QueueInv q l)
    (e : Nat × Nat) (he : e ∈ l) : mapCount q.mp_ e.2 ≠ 0 ∧ mapGet q.mp_ e.2 = e.1 := by
  have hm : (e.2, e.1) ∈ q.mp_ := (hinv.map e.2 e.1).mpr he
  constructor
  · intro h0
    exact (mapCount_eq_zero_iff q.mp_ hinv.keys e.2).mp h0 e.1 hm
  · unfold mapGet
    rw [lookup_of_mem q.mp_ hinv.keys e.2 e.1 hm]
    rfl

theorem QueueInv_insertAll (es : List (Nat × Nat)) :
    ∀ (q : PmtableQueue) (l : List (Nat × Nat)), QueueInv q l →
      (es.map Prod.fst).Nodup → (∀ e, e ∈ es → e.1 ∉ q.allocated) →
      (es.map Prod.snd).Nodup → (∀ e, e ∈ es → mapCount q.mp_ e.2 = 0) →
      QueueInv (q.insertAll es) (l ++ es) := by
  induction es with
  | nil =>
    intro q l hinv _ _ _ _
    rw [List.append_nil]
    exact hinv
  | cons e es ih =>
    intro q l hinv hn hfresh ht habs
    have hfe := hfresh e (List.mem_cons_self _ _)
    have hae := habs e (List.mem_cons_self _ _)
    have hstep := QueueInv_insert q l hinv e.1 e.2 hfe hae
    have hn1 := List.nodup_cons.mp hn
    have ht1 := List.nodup_cons.mp ht
    have hall := (InsertPmtable_maps q e.1 e.2 hae).1
    have h := ih (q.InsertPmtable e.1 e.2) (l ++ [(e.1, e.2)]) hstep hn1.2
      (by
        intro x hx
        rw [hall]
        intro hm
        rcases List.mem_cons.mp hm with h1 | h1
        · exact hn1.1 (by rw [← h1]; exact List.mem_map.mpr ⟨x, hx, rfl⟩)
        · exact hfresh x (List.mem_cons_of_mem _ hx) h1)
      ht1.2
      (by
        intro x hx
        rw [QueueInv_absent_iff _ _ hstep, List.map_append]
        intro hm
        rcases List.mem_append.mp hm with h1 | h1
        · exact (QueueInv_absent_iff q l hinv x.2).mp (habs x (List.mem_cons_of_mem _ hx)) h1
        · have h2 : x.2 = e.2 := by simpa using h1
          exact ht1.1 (by rw [← h2]; exact List.mem_map.mpr ⟨x, hx, rfl⟩))
    have he : l ++ e :: es = (l ++ [(e.1, e.2)]) ++ es := by
      rw [List.append_assoc]; rfl
    rw [he]
    exact h

theorem split_last_unique (a : Nat × Nat) (n : Nat) :
    ∀ (l l1 l2 : List (Nat × Nat)), a.2 ∉ l.map Prod.snd →
      l ++ [a] = l1 ++ (n, a.2) :: l2 → l1 ++ l2 = l := by
  intro l
  induction l with
  | nil =>
    intro l1 l2 _ h
    cases l1 with
    | nil =>
      have h1 : [a] = (n, a.2) :: l2 := h
      have h2 := (List.cons.inj h1).2
      rw [← h2]; rfl
    | cons c l1 =>
      have h1 : [a] = c :: (l1 ++ (n, a.2) :: l2) := h
      have h2 := (List.cons.inj h1).2
      cases l1 <;> cases h2
  | cons b l ih =>
    intro l1 l2 hnot h
    cases l1 with
    | nil =>
      have h1 : b :: (l ++ [a]) = (n, a.2) :: l2 := h
      have h2 := (List.cons.inj h1).1
      exact absurd (by rw [h2]; simp) hnot
    | cons c l1 =>
      have h1 : b :: (l ++ [a]) = c :: (l1 ++ (n, a.2) :: l2) := h
      have h2 := List.cons.inj h1
      have h3 := ih l1 l2 (fun hm => hnot (by
        rw [List.map_cons]; exact List.mem_cons_of_mem _ hm)) h2.2
      show c :: (l1 ++ l2) = b :: l
      rw [h3, h2.1]

theorem insert_remove_mp (q : PmtableQueue) (l : List (Nat × Nat)) (hinv : QueueInv q l)
    (node t : Nat) (habs : mapCount q.mp_ t = 0) :
    mapCount (q.InsertPmtable node t).mp_ t ≠ 0 ∧
    ((q.InsertPmtable node t).RemovePmtable t).mp_ = q.mp_ := by
  have hmp := (InsertPmtable_maps q node t habs).2
  have hno := (mapCount_eq_zero_iff q.mp_ hinv.keys t).mp habs
  have hpres : mapCount (q.InsertPmtable node t).mp_ t ≠ 0 := by
    rw [hmp]
    unfold mapCount mapSet
    simp
  refine ⟨hpres, ?_⟩
  rw [(RemovePmtable_of_present _ t hpres).2.2.1, hmp]
  unfold mapSet
  have h1 : mapErase ((t, node) :: mapErase q.mp_ t) t = mapErase (mapErase q.mp_ t) t := by
    unfold mapErase
    rw [List.filter_cons]
    simp
  rw [h1, mapErase_absent q.mp_ t hno, mapErase_absent q.mp_ t hno]

theorem Linked_neighbours (heap : Nat → ListNode) (b : Nat) :
    ∀ (xs : List Nat) (a : Nat), Linked heap a xs b →
      (∀ n, n ∈ a :: xs → (heap (heap n).next).pre = n) ∧
      (∀ n, n ∈ xs ++ [b] → (heap (heap n).pre).next = n) := by
  intro xs
  induction xs with
  | nil =>
    intro a h
    constructor
    · intro n hn
      have hna : n = a := by simpa using hn
      rw [hna, h.1, h.2]
    · intro n hn
      have hnb : n = b := by simpa using hn
      rw [hnb, h.2, h.1]
  | cons x xs ih =>
    intro a h
    obtain ⟨h1, h2⟩ := ih x h.2
    constructor
    · intro n hn
      rcases List.mem_cons.mp hn with e | e
      · rw [e, h.1.1, h.1.2]
      · exact h1 n e
    · intro n hn
      have hn1 : n ∈ x :: (xs ++ [b]) := hn
      rcases List.mem_cons.mp hn1 with e | e
      · rw [e, h.1.2, h.1.1]
      · exact h2 n e

theorem mapCount_ne_zero_iff (q : PmtableQueue) (l : List (Nat × Nat)) (hinv : QueueInv q l)
    (t : Nat) : mapCount q.mp_ t ≠ 0 ↔ t ∈ l.map Prod.snd := by
  rw [Ne, QueueInv_absent_iff q l hinv t, not_not]

theorem exampleQueue_reach : QReach exampleQueue :=
  QReach.insert _ 300 9
    (QReach.insert _ 200 7 (QReach.ctor exampleHeap 100) (by decide)) (by decide)

/-! ## Claim C14: `InsertPmtable` -/

/-- C14: in every registry state reached from the empty registry, with `old` the
sequence of tables that the traversal from `head_->next` along the `next` links up
to the sentinel yields, and a table being present exactly when it is on that
sequence: `InsertPmtable` of a present table returns the state unchanged;
`InsertPmtable` of an absent table, `new` giving an address that is not live, makes
the traversal yield `old` with the table appended at the end and makes `capacity()`
one larger; and a run of insertions of distinct absent tables makes the traversal
yield `old` followed by these tables in the order of their insertion. -/
theorem InsertPmtable_appends_at_tail (q : PmtableQueue) (h : QReach q) :
    ∃ old : List Nat,
      (∀ fuel, old.length < fuel → q.traverse fuel = some old) ∧
      (∀ t, mapCount q.mp_ t ≠ 0 ↔ t ∈ old) ∧
      (∀ node t, mapCount q.mp_ t ≠ 0 → q.InsertPmtable node t = q) ∧
      (∀ node t, node ∉ q.allocated → mapCount q.mp_ t = 0 →
        (∀ fuel, old.length + 1 < fuel →
          (q.InsertPmtable node t).traverse fuel = some (old ++ [t])) ∧
        (q.InsertPmtable node t).capacity = q.capacity + 1) ∧
      (∀ es : List (Nat × Nat), (es.map Prod.fst).Nodup → (∀ e, e ∈ es → e.1 ∉ q.allocated) →
        (es.map Prod.snd).Nodup → (∀ e, e ∈ es → mapCount q.mp_ e.2 = 0) →
        ∀ fuel, old.length + es.length < fuel →
          (q.insertAll es).traverse fuel = some (old ++ es.map Prod.snd)) := by
  obtain ⟨l, hl⟩ := QReach_inv q h
  refine ⟨l.map Prod.snd, ?_, ?_, ?_, ?_, ?_⟩
  · intro fuel hf
    rw [List.length_map] at hf
    exact QueueInv_traverse q l hl fuel hf
  · exact mapCount_ne_zero_iff q l hl
  · intro node t hp
    exact InsertPmtable_of_present q node t hp
  · intro node t hfresh habs
    have hstep := QueueInv_insert q l hl node t hfresh habs
    constructor
    · intro fuel hf
      rw [List.length_map] at hf
      have h1 := QueueInv_traverse _ _ hstep fuel (by rw [List.length_append]; exact hf)
      rw [h1, List.map_append]
      rfl
    · rw [QueueInv_capacity _ _ hstep, QueueInv_capacity q l hl, List.length_append]
      rfl
  · intro es hn hfresh ht habs fuel hf
    rw [List.length_map] at hf
    have hall := QueueInv_insertAll es q l hl hn hfresh ht habs
    have h1 := QueueInv_traverse _ _ hall fuel (by rw [List.length_append]; exact hf)
    rw [h1, List.map_append]

theorem InsertPmtable_appends_at_tail_witness :
    ∃ old : List Nat,
      (∀ fuel, old.length < fuel → exampleQueue.traverse fuel = some old) ∧
      (∀ t, mapCount exampleQueue.mp_ t ≠ 0 ↔ t ∈ old) ∧
      (∀ node t, mapCount exampleQueue.mp_ t ≠ 0 → exampleQueue.InsertPmtable node t = exampleQueue) ∧
      (∀ node t, node ∉ exampleQueue.allocated → mapCount exampleQueue.mp_ t = 0 →
        (∀ fuel, old.length + 1 < fuel →
          (exampleQueue.InsertPmtable node t).traverse fuel = some (old ++ [t])) ∧
        (exampleQueue.InsertPmtable node t).capacity = exampleQueue.capacity + 1) ∧
      (∀ es : List (Nat × Nat), (es.map Prod.fst).Nodup →
        (∀ e, e ∈ es → e.1 ∉ exampleQueue.allocated) →
        (es.map Prod.snd).Nodup → (∀ e, e ∈ es → mapCount exampleQueue.mp_ e.2 = 0) →
        ∀ fuel, old.length + es.length < fuel →
          (exampleQueue.insertAll es).traverse fuel = some (old ++ es.map Prod.snd)) :=
  InsertPmtable_appends_at_tail exampleQueue
    (QReach.insert _ 300 9
      (QReach.insert _ 200 7 (QReach.ctor exampleHeap 100) (by decide)) (by decide))

/-! ## Claim C15: `RemovePmtable` -/

/-- C15: in every registry state reached from the empty registry, with `old` the
sequence of tables the traversal yields, and a table being present exactly when it
is on that sequence: `RemovePmtable` of an absent table returns the state
unchanged; `RemovePmtable` of a present table `t` makes the traversal yield `old`
with the one occurrence of `t` deleted and the other tables in their order, leaves
`t` absent from the map and makes `capacity()` one smaller; and inserting an absent
table and then removing it gives back the traversal `old` and the map. -/
theorem RemovePmtable_deletes_one (q : PmtableQueue) (h : QReach q) :
    ∃ old : List Nat,
      (∀ fuel, old.length < fuel → q.traverse fuel = some old) ∧
      (∀ t, mapCount q.mp_ t ≠ 0 ↔ t ∈ old) ∧
      (∀ t, mapCount q.mp_ t = 0 → q.RemovePmtable t = q) ∧
      (∀ t, mapCount q.mp_ t ≠ 0 →
        ∃ before after : List Nat, old = before ++ t :: after ∧ t ∉ before ∧ t ∉ after ∧
          (∀ fuel, before.length + after.length < fuel →
            (q.RemovePmtable t).traverse fuel = some (before ++ after)) ∧
          mapCount (q.RemovePmtable t).mp_ t = 0 ∧
          (q.RemovePmtable t).capacity + 1 = q.capacity) ∧
      (∀ node t, node ∉ q.allocated → mapCount q.mp_ t = 0 →
        (∀ fuel, old.length < fuel →
          ((q.InsertPmtable node t).RemovePmtable t).traverse fuel = some old) ∧
        ((q.InsertPmtable node t).RemovePmtable t).mp_ = q.mp_) := by
  obtain ⟨l, hl⟩ := QReach_inv q h
  refine ⟨l.map Prod.snd, ?_, ?_, ?_, ?_, ?_⟩
  · intro fuel hf
    rw [List.length_map] at hf
    exact QueueInv_traverse q l hl fuel hf
  · exact mapCount_ne_zero_iff q l hl
  · intro t ha
    exact RemovePmtable_of_absent q t ha
  · intro t hp
    obtain ⟨l1, l2, n, e, hinv⟩ := QueueInv_remove q l hl t hp
    have hnd := hl.tnodup
    rw [e, List.map_append, List.map_cons] at hnd
    have hnot := (List.nodup_cons.mp (List.nodup_middle.mp hnd)).1
    refine ⟨l1.map Prod.snd, l2.map Prod.snd, ?_, ?_, ?_, ?_, ?_, ?_⟩
    · rw [e, List.map_append, List.map_cons]
    · exact fun hm => hnot (List.mem_append_left _ hm)
    · exact fun hm => hnot (List.mem_append_right _ hm)
    · intro fuel hf
      rw [List.length_map, List.length_map] at hf
      have h1 := QueueInv_traverse _ _ hinv fuel (by rw [List.length_append]; exact hf)
      rw [h1, List.map_append]
    · rw [QueueInv_absent_iff _ _ hinv, List.map_append]
      exact hnot
    · rw [QueueInv_capacity _ _ hinv, QueueInv_capacity q l hl, e, List.length_append,
        List.length_append, List.length_cons]
      omega
  · intro node t hfresh habs
    have hstep := QueueInv_insert q l hl node t hfresh habs
    obtain ⟨hp, hmp⟩ := insert_remove_mp q l hl node t habs
    refine ⟨?_, hmp⟩
    obtain ⟨l1, l2, n, e, hinv⟩ := QueueInv_remove _ _ hstep t hp
    have hl12 : l1 ++ l2 = l :=
      split_last_unique (node, t) n l l1 l2 ((QueueInv_absent_iff q l hl t).mp habs) e
    rw [hl12] at hinv
    intro fuel hf
    rw [List.length_map] at hf
    exact QueueInv_traverse _ _ hinv fuel hf

theorem RemovePmtable_deletes_one_witness :
    ∃ old : List Nat,
      (∀ fuel, old.length < fuel → exampleQueue.traverse fuel = some old) ∧
      (∀ t, mapCount exampleQueue.mp_ t ≠ 0 ↔ t ∈ old) ∧
      (∀ t, mapCount exampleQueue.mp_ t = 0 → exampleQueue.RemovePmtable t = exampleQueue) ∧
      (∀ t, mapCount exampleQueue.mp_ t ≠ 0 →
        ∃ before after : List Nat, old = before ++ t :: after ∧ t ∉ before ∧ t ∉ after ∧
          (∀ fuel, before.length + after.length < fuel →
            (exampleQueue.RemovePmtable t).traverse fuel = some (before ++ after)) ∧
          mapCount (exampleQueue.RemovePmtable t).mp_ t = 0 ∧
          (exampleQueue.RemovePmtable t).capacity + 1 = exampleQueue.capacity) ∧
      (∀ node t, node ∉ exampleQueue.allocated → mapCount exampleQueue.mp_ t = 0 →
        (∀ fuel, old.length < fuel →
          ((exampleQueue.InsertPmtable node t).RemovePmtable t).traverse fuel = some old) ∧
        ((exampleQueue.InsertPmtable node t).RemovePmtable t).mp_ = exampleQueue.mp_) :=
  RemovePmtable_deletes_one exampleQueue exampleQueue_reach

/-! ## Claim C16: the invariant of the registry -/

/-- C16: in every registry state reached from the empty registry by
`InsertPmtable` and `RemovePmtable` calls there is a list `l` of distinct nodes with
their tables such that the sentinel and these nodes, in this order, are linked both
ways into a circle; every node `n` of the circle, the sentinel included, has
`n->next->pre == n` and `n->pre->next == n`; each node carries its table and no
table is on two nodes; the keys of the map are exactly the tables on the list, each
mapped to its own node; the traversal yields these tables; and `capacity()` is the
number of nodes other than the sentinel. -/
theorem registry_invariant (q : PmtableQueue) (h : QReach q) :
    ∃ l : List (Nat × Nat),
      Linked q.heap q.head_ (l.map Prod.fst) q.head_ ∧
      (q.head_ :: l.map Prod.fst).Nodup ∧
      (∀ n, n ∈ q.head_ :: l.map Prod.fst →
        (q.heap (q.heap n).next).pre = n ∧ (q.heap (q.heap n).pre).next = n) ∧
      (∀ e, e ∈ l → (q.heap e.1).pmTable_ = e.2) ∧
      (l.map Prod.snd).Nodup ∧
      (∀ t, mapCount q.mp_ t ≠ 0 ↔ t ∈ l.map Prod.snd) ∧
      (∀ e, e ∈ l → mapGet q.mp_ e.2 = e.1) ∧
      (∀ fuel, l.length < fuel → q.traverse fuel = some (l.map Prod.snd)) ∧
      q.capacity = l.length := by
  obtain ⟨l, hl⟩ := QReach_inv q h
  obtain ⟨hn1, hn2⟩ := Linked_neighbours q.heap q.head_ (l.map Prod.fst) q.head_ hl.linked
  refine ⟨l, hl.linked, hl.nodup, ?_, hl.tables, hl.tnodup, mapCount_ne_zero_iff q l hl,
    fun e he => (QueueInv_mapGet q l hl e he).2, QueueInv_traverse q l hl,
    QueueInv_capacity q l hl⟩
  intro n hn
  refine ⟨hn1 n hn, hn2 n ?_⟩
  rcases List.mem_cons.mp hn with e | e
  · rw [e]; simp
  · exact List.mem_append_left _ e

theorem registry_invariant_witness :
    ∃ l : List (Nat × Nat),
      Linked (exampleQueue.RemovePmtable 7).heap (exampleQueue.RemovePmtable 7).head_
        (l.map Prod.fst) (exampleQueue.RemovePmtable 7).head_ ∧
      ((exampleQueue.RemovePmtable 7).head_ :: l.map Prod.fst).Nodup ∧
      (∀ n, n ∈ (exampleQueue.RemovePmtable 7).head_ :: l.map Prod.fst →
        ((exampleQueue.RemovePmtable 7).heap
            ((exampleQueue.RemovePmtable 7).heap n).next).pre = n ∧
        ((exampleQueue.RemovePmtable 7).heap
            ((exampleQueue.RemovePmtable 7).heap n).pre).next = n) ∧
      (∀ e, e ∈ l → ((exampleQueue.RemovePmtable 7).heap e.1).pmTable_ = e.2) ∧
      (l.map Prod.snd).Nodup ∧
      (∀ t, mapCount (exampleQueue.RemovePmtable 7).mp_ t ≠ 0 ↔ t ∈ l.map Prod.snd) ∧
      (∀ e, e ∈ l → mapGet (exampleQueue.RemovePmtable 7).mp_ e.2 = e.1) ∧
      (∀ fuel, l.length < fuel →
        (exampleQueue.RemovePmtable 7).traverse fuel = some (l.map Prod.snd)) ∧
      (exampleQueue.RemovePmtable 7).capacity = l.length :=
  registry_invariant (exampleQueue.RemovePmtable 7)
    (QReach.remove exampleQueue 7 exampleQueue_reach)


end leveldb
